import Mathlib

/-! Verification development for `robot_slalom.cpp`

A shallow embedding of the decision core of the slalom controller
(`src/robot_slalom/src/robot_slalom.cpp`): the weighted motion vector
(`MotionVector`), the depth callback (`pclCallback`), the blob callback
(`blobsCallBack`) and the body of the control loop of `main`.

Conventions of the embedding

* `double` and `float` values are IEEE 754 binary64 and binary32 values (`F64`,
  `F32`); every arithmetic operation and every conversion rounds once, to
  nearest, ties to even (no fused multiply-add, no extended precision).  The
  two zeros are identified and there is a single NaN.
* `unsigned int` values are natural numbers below `2 ^ 32`; every operation
  that can leave that range is reduced modulo `2 ^ 32` explicitly
  (`uadd`, `usub`).
* The global variables of the translation unit are the fields of `Globals`,
  and each callback is a function `Globals → Globals`.
-/

namespace RobotSlalom

/-! ## Machine integers -/

/-- Number of values of an `unsigned int` (32 bits). -/
def UINT_RANGE : Nat := 4294967296

/-- Addition of two `unsigned int` values: wraps around modulo `2 ^ 32`. -/
def uadd (a b : Nat) : Nat := (a + b) % UINT_RANGE

/-- Subtraction of two `unsigned int` values: wraps around modulo `2 ^ 32`. -/
def usub (a b : Nat) : Nat := (a + (UINT_RANGE - b % UINT_RANGE)) % UINT_RANGE

/-! ## IEEE 754 values and rounding -/

/-- A value of an IEEE 754 binary format.  The finite value `fin n` is the number
`n * 2 ^ (-1074)`: every finite binary64 or binary32 number is an integer multiple of
`2 ^ (-1074)`, the least positive binary64 number. -/
inductive FVal where
  | fin (n : Int)
  | pinf
  | ninf
  | nan
  deriving DecidableEq

/-- Auxiliary of `bitLen`, recursive on a bound of the number of steps: the digits are
counted 128 at a time while there are more than 128, then 8 at a time, then one by
one. -/
def bitLenAux : Nat → Nat → Nat
  | 0, _ => 0
  | fuel + 1, n =>
    if n = 0 then 0
    else if 2 ^ 128 ≤ n then bitLenAux fuel (n / 2 ^ 128) + 128
    else if 2 ^ 8 ≤ n then bitLenAux fuel (n / 2 ^ 8) + 8
    else bitLenAux fuel (n / 2) + 1

/-- Number of binary digits of a natural number (0 for 0). -/
def bitLen (n : Nat) : Nat := bitLenAux n n

/-- Exponent of the spacing of the format at the magnitude `x`, in units of
`2 ^ (-1074)`: a format of precision `p` whose least spacing is `2 ^ qmin` units. -/
def quantumExp (p qmin x : Nat) : Nat := max qmin (bitLen x - p)

/-- Round the non-negative fraction `a / den` (in units of `2 ^ (-1074)`) to the
nearest multiple of the spacing at its magnitude, ties to the even multiple; the
exponent range is not bounded above here. -/
def roundNat (p qmin a den : Nat) : Nat :=
  let k := quantumExp p qmin (a / den)
  let q := den * 2 ^ k
  let t := a / q
  let r := a % q
  let m := if 2 * r < q then t else if q < 2 * r then t + 1 else if t % 2 = 0 then t else t + 1
  m * 2 ^ k

/-- Round the fraction `num / den` to a format of precision `p`, least spacing
`2 ^ qmin` units and overflow threshold `ovf` units: round to nearest, ties to even,
a rounded magnitude of `ovf` or more giving an infinity. -/
def roundTo (p qmin ovf : Nat) (num : Int) (den : Nat) : FVal :=
  let r := roundNat p qmin num.natAbs den
  if ovf ≤ r then (if num < 0 then FVal.ninf else FVal.pinf)
  else FVal.fin (if num < 0 then -(r : Int) else (r : Int))

/-- Whether the integer `n` (in units of `2 ^ (-1074)`) is a finite number of the
format: at most `p` significant binary digits above the least spacing, below the
overflow threshold. -/
def isRep (p qmin ovf : Nat) (n : Int) : Bool :=
  decide (n.natAbs % 2 ^ quantumExp p qmin n.natAbs = 0) && decide (n.natAbs < ovf)

/-- Whether a value belongs to the format: infinities and NaN always do. -/
def FVal.inFormat (p qmin ovf : Nat) : FVal → Bool
  | FVal.fin n => isRep p qmin ovf n
  | _ => true

/-- Binary exponent of the overflow threshold of binary64 in units of `2 ^ (-1074)`:
the threshold `2 ^ 1024` is `2 ^ 2098` units. -/
def OVF64_EXP : Nat := 2098

/-- Binary exponent of the overflow threshold of binary32 in units of `2 ^ (-1074)`:
the threshold `2 ^ 128` is `2 ^ 1202` units. -/
def OVF32_EXP : Nat := 1202

/-- Binary exponent of the number 1 in units of `2 ^ (-1074)`. -/
def ONE_EXP : Nat := 1074

/-- Overflow threshold of binary64, in units of `2 ^ (-1074)`. -/
def OVF64 : Nat := 2 ^ OVF64_EXP

/-- Overflow threshold of binary32, in units of `2 ^ (-1074)`. -/
def OVF32 : Nat := 2 ^ OVF32_EXP

/-- The number 1 in units of `2 ^ (-1074)`. -/
def ONE_UNITS : Nat := 2 ^ ONE_EXP

/-- Rounding to binary64: precision 53, least spacing `2 ^ (-1074)`. -/
def round64 (num : Int) (den : Nat) : FVal := roundTo 53 0 OVF64 num den

/-- Rounding to binary32: precision 24, least spacing `2 ^ (-149)`. -/
def round32 (num : Int) (den : Nat) : FVal := roundTo 24 925 OVF32 num den

/-- Negation. -/
def FVal.neg : FVal → FVal
  | FVal.fin n => FVal.fin (-n)
  | FVal.pinf => FVal.ninf
  | FVal.ninf => FVal.pinf
  | FVal.nan => FVal.nan

/-- The comparison `<` of IEEE 754: false as soon as one side is NaN. -/
def FVal.lt : FVal → FVal → Bool
  | FVal.nan, _ => false
  | _, FVal.nan => false
  | FVal.fin a, FVal.fin b => decide (a < b)
  | FVal.fin _, FVal.pinf => true
  | FVal.fin _, FVal.ninf => false
  | FVal.pinf, _ => false
  | FVal.ninf, FVal.ninf => false
  | FVal.ninf, _ => true

/-- The comparison `<=` of IEEE 754: false as soon as one side is NaN. -/
def FVal.le : FVal → FVal → Bool
  | FVal.nan, _ => false
  | _, FVal.nan => false
  | FVal.fin a, FVal.fin b => decide (a ≤ b)
  | FVal.fin _, FVal.pinf => true
  | FVal.fin _, FVal.ninf => false
  | FVal.pinf, FVal.pinf => true
  | FVal.pinf, _ => false
  | FVal.ninf, _ => true

/-- Addition, the exact sum being rounded by `rnd`. -/
def FVal.add (rnd : Int → Nat → FVal) : FVal → FVal → FVal
  | FVal.nan, _ => FVal.nan
  | _, FVal.nan => FVal.nan
  | FVal.pinf, FVal.ninf => FVal.nan
  | FVal.ninf, FVal.pinf => FVal.nan
  | FVal.pinf, _ => FVal.pinf
  | _, FVal.pinf => FVal.pinf
  | FVal.ninf, _ => FVal.ninf
  | _, FVal.ninf => FVal.ninf
  | FVal.fin a, FVal.fin b => rnd (a + b) 1

/-- Multiplication, the exact product being rounded by `rnd`. -/
def FVal.mul (rnd : Int → Nat → FVal) : FVal → FVal → FVal
  | FVal.nan, _ => FVal.nan
  | _, FVal.nan => FVal.nan
  | FVal.fin a, FVal.fin b => rnd (a * b) ONE_UNITS
  | FVal.fin a, FVal.pinf => if a = 0 then FVal.nan else if a < 0 then FVal.ninf else FVal.pinf
  | FVal.fin a, FVal.ninf => if a = 0 then FVal.nan else if a < 0 then FVal.pinf else FVal.ninf
  | FVal.pinf, FVal.fin b => if b = 0 then FVal.nan else if b < 0 then FVal.ninf else FVal.pinf
  | FVal.ninf, FVal.fin b => if b = 0 then FVal.nan else if b < 0 then FVal.pinf else FVal.ninf
  | FVal.pinf, FVal.pinf => FVal.pinf
  | FVal.ninf, FVal.ninf => FVal.pinf
  | FVal.pinf, FVal.ninf => FVal.ninf
  | FVal.ninf, FVal.pinf => FVal.ninf

/-- Division, the exact quotient being rounded by `rnd`.  A zero divisor is taken as
`+0`; the program never divides by zero (see `MotionVector.addChecked`). -/
def FVal.div (rnd : Int → Nat → FVal) : FVal → FVal → FVal
  | FVal.nan, _ => FVal.nan
  | _, FVal.nan => FVal.nan
  | FVal.fin a, FVal.fin b =>
    if b = 0 then (if a = 0 then FVal.nan else if a < 0 then FVal.ninf else FVal.pinf)
    else rnd (a * (ONE_UNITS : Int) * b.sign) b.natAbs
  | FVal.fin _, _ => FVal.fin 0
  | FVal.pinf, FVal.fin b => if b < 0 then FVal.ninf else FVal.pinf
  | FVal.ninf, FVal.fin b => if b < 0 then FVal.pinf else FVal.ninf
  | _, _ => FVal.nan

/-- Conversion of a binary64 value to binary32. -/
def FVal.to32 : FVal → FVal
  | FVal.fin n => round32 n 1
  | v => v

/-- A `double`: a value of the binary64 format. -/
structure F64 where
  v : FVal
  ok : v.inFormat 53 0 OVF64 = true
  deriving DecidableEq

/-- A `float`: a value of the binary32 format. -/
structure F32 where
  v : FVal
  ok : v.inFormat 24 925 OVF32 = true
  deriving DecidableEq

/-- The `double` with the given value; NaN when the value is not in the format, which
no use below produces (`round64_inFormat`). -/
def F64.ofVal (v : FVal) : F64 :=
  if h : v.inFormat 53 0 OVF64 = true then { v := v, ok := h } else { v := FVal.nan, ok := rfl }

/-- The `float` with the given value; NaN when the value is not in the format, which
no use below produces (`round32_inFormat`). -/
def F32.ofVal (v : FVal) : F32 :=
  if h : v.inFormat 24 925 OVF32 = true then { v := v, ok := h } else { v := FVal.nan, ok := rfl }

/-- The `double` nearest to the decimal fraction `n / d`: a floating literal. -/
def F64.lit (n d : Nat) : F64 := F64.ofVal (round64 ((n : Int) * (ONE_UNITS : Int)) d)

/-- Conversion of an `unsigned int` to `double`. -/
def F64.ofNat (w : Nat) : F64 := F64.ofVal (round64 ((w : Int) * (ONE_UNITS : Int)) 1)

/-- The `double` `0.0`. -/
def F64.zero : F64 := { v := FVal.fin 0, ok := by decide! }

/-- The `float` `0.0f`. -/
def F32.zero : F32 := { v := FVal.fin 0, ok := by decide! }

/-- Addition of two `double`s. -/
def F64.add (a b : F64) : F64 := F64.ofVal (FVal.add round64 a.v b.v)

/-- Negation of a `double`. -/
def F64.neg (a : F64) : F64 := F64.ofVal a.v.neg

/-- Subtraction of two `double`s. -/
def F64.sub (a b : F64) : F64 := F64.ofVal (FVal.add round64 a.v b.v.neg)

/-- Multiplication of two `double`s. -/
def F64.mul (a b : F64) : F64 := F64.ofVal (FVal.mul round64 a.v b.v)

/-- Division of two `double`s. -/
def F64.div (a b : F64) : F64 := F64.ofVal (FVal.div round64 a.v b.v)

/-- The comparison `a < b` of two `double`s. -/
def F64.lt (a b : F64) : Bool := FVal.lt a.v b.v

/-- The comparison `a <= b` of two `double`s. -/
def F64.le (a b : F64) : Bool := FVal.le a.v b.v

/-- Conversion of a `double` to `float` (rounds). -/
def F64.toF32 (a : F64) : F32 := F32.ofVal a.v.to32

/-- Conversion of a `float` to `double` (exact). -/
def F32.toF64 (a : F32) : F64 := F64.ofVal a.v

/-- Multiplication of two `float`s. -/
def F32.mul (a b : F32) : F32 := F32.ofVal (FVal.mul round32 a.v b.v)

/-- Conversion of an `int` to `float`. -/
def F32.ofInt (i : Int) : F32 := F32.ofVal (round32 (i * (ONE_UNITS : Int)) 1)

/-- The comparison `a < b` of two `float`s. -/
def F32.lt (a b : F32) : Bool := FVal.lt a.v b.v

/-- The comparison `a <= b` of two `float`s. -/
def F32.le (a b : F32) : Bool := FVal.le a.v b.v

/-- Test `std::isfinite`: the value is neither an infinity nor a NaN. -/
def F64.isFinite (a : F64) : Bool :=
  match a.v with
  | FVal.fin _ => true
  | _ => false

/-- The exponent of the magnitude bound of `F64.isShort`, in units of `2 ^ -1074`: the
bound is `2 ^ 992`. -/
def SHORT_EXP : Nat := 2066

/-- The `double` is finite, has at most 21 significant bits and a magnitude below
`2 ^ 992`: its product by any `unsigned int` is a `double`.  Examples are 0, 1, 0.5,
every power of two between `2 ^ -1074` and `2 ^ 991`, and every integer below
`2 ^ 21`, with either sign. -/
def F64.isShort (x : F64) : Bool :=
  match x.v with
  | FVal.fin n => isRep 21 0 (2 ^ SHORT_EXP) n
  | _ => false

/-! ## `enum Color` -/

/-- Enumerator `ORANGE`, the first of `enum Color`. -/
def ORANGE : Nat := 0

/-- Enumerator `BLUE`, the second of `enum Color`. -/
def BLUE : Nat := 1

/-! ## `class MotionVector` -/

/-- The two components of `geometry_msgs::Twist` the program reads or writes:
`linear.x` and `angular.z`, both `double`. -/
structure Twist where
  linear_x : F64
  angular_z : F64
  deriving DecidableEq

/-- Source class `MotionVector`: a twist and an `unsigned int` weight. -/
structure MotionVector where
  twist : Twist
  weight : Nat
  deriving DecidableEq

/-- The constructor `MotionVector(linear, angular, weight)`. -/
def MotionVector.new (linear angular : F64) (weight : Nat) : MotionVector :=
  { twist := { linear_x := linear, angular_z := angular }, weight := weight }

/-- The default-constructed vector `MotionVector()`: all three values are 0. -/
def MotionVector.default : MotionVector := MotionVector.new F64.zero F64.zero 0

/-- The weight fits an `unsigned int`. -/
def MotionVector.wf (v : MotionVector) : Prop := v.weight < UINT_RANGE

instance MotionVector.decidableWf (v : MotionVector) : Decidable v.wf :=
  Nat.decLt v.weight UINT_RANGE

/-- Method `MotionVector::updateVector`: overwrite twist and weight. -/
def MotionVector.updateVector (_self : MotionVector) (linear angular : F64) (w : Nat) :
    MotionVector :=
  { twist := { linear_x := linear, angular_z := angular }, weight := w }

/-- Method `MotionVector::reset`: speed, rotation and weight all become 0. -/
def MotionVector.reset (_self : MotionVector) : MotionVector :=
  { twist := { linear_x := F64.zero, angular_z := F64.zero }, weight := 0 }

/-- Method `MotionVector::getTwist`. -/
def MotionVector.getTwist (self : MotionVector) : Twist := self.twist

/-- The expression `((w1 * x1) + (w2 * x2)) / s` of `operator+`: the `unsigned int`
operands `w1`, `w2` and `s` are converted to `double`, and each product, the sum and
the quotient are rounded to `double`. -/
def weightedMean (w1 : Nat) (x1 : F64) (w2 : Nat) (x2 : F64) (s : Nat) : F64 :=
  F64.div (F64.add (F64.mul (F64.ofNat w1) x1) (F64.mul (F64.ofNat w2) x2)) (F64.ofNat s)

/-- Operator `MotionVector::operator+`.  `toReturn` starts as the default vector and is
filled in only when the `unsigned int` sum of the weights is non-zero. -/
def MotionVector.add (self mv : MotionVector) : MotionVector :=
  let toReturn := MotionVector.default
  if uadd self.weight mv.weight ≠ 0 then
    { twist :=
        { linear_x :=
            weightedMean self.weight self.twist.linear_x mv.weight mv.twist.linear_x
              (uadd self.weight mv.weight)
          angular_z :=
            weightedMean self.weight self.twist.angular_z mv.weight mv.twist.angular_z
              (uadd self.weight mv.weight) }
      weight := uadd self.weight mv.weight }
  else
    toReturn

/-- A division that reports a zero divisor instead of returning a value. -/
def divChecked (num den : F64) : Option F64 :=
  if den.v = FVal.fin 0 then none else some (F64.div num den)

/-- Operator `MotionVector::operator+` with every division it executes checked: the
result is `none` as soon as one executed division has a zero divisor. -/
def MotionVector.addChecked (self mv : MotionVector) : Option MotionVector :=
  let toReturn := MotionVector.default
  if uadd self.weight mv.weight ≠ 0 then
    match divChecked
        (F64.add (F64.mul (F64.ofNat self.weight) self.twist.linear_x)
          (F64.mul (F64.ofNat mv.weight) mv.twist.linear_x))
        (F64.ofNat (uadd self.weight mv.weight)) with
    | none => none
    | some lin =>
      match divChecked
          (F64.add (F64.mul (F64.ofNat self.weight) self.twist.angular_z)
            (F64.mul (F64.ofNat mv.weight) mv.twist.angular_z))
          (F64.ofNat (uadd self.weight mv.weight)) with
      | none => none
      | some ang =>
        some { twist := { linear_x := lin, angular_z := ang },
               weight := uadd self.weight mv.weight }
  else
    some toReturn

/-- Operator `MotionVector::operator+=`. -/
def MotionVector.addAssign (self mv : MotionVector) : MotionVector :=
  MotionVector.add self mv

/-! ### Reference definition of `combine` (specification, section 4.1) -/

/-- The zero intent: linear speed 0, angular rate 0, weight 0. -/
def zeroIntent : MotionVector :=
  { twist := { linear_x := F64.zero, angular_z := F64.zero }, weight := 0 }

/-- Reference `combine(a, b)`, written from the specification: the zero intent when
the weights sum to 0, otherwise the weighted mean
`(a.weight * a.linear + b.weight * b.linear) / (a.weight + b.weight)`, likewise for the
angular rate, with the summed weight.  The weights are natural numbers and their sum
is the exact one; the real arithmetic of the formula is that of `double`. -/
def combineRef (a b : MotionVector) : MotionVector :=
  if a.weight + b.weight = 0 then zeroIntent
  else
    { twist :=
        { linear_x :=
            F64.div
              (F64.add (F64.mul (F64.ofNat a.weight) a.twist.linear_x)
                (F64.mul (F64.ofNat b.weight) b.twist.linear_x))
              (F64.ofNat (a.weight + b.weight))
          angular_z :=
            F64.div
              (F64.add (F64.mul (F64.ofNat a.weight) a.twist.angular_z)
                (F64.mul (F64.ofNat b.weight) b.twist.angular_z))
              (F64.ofNat (a.weight + b.weight)) }
      weight := a.weight + b.weight }

/-! ### Bounds on the speeds of an intent -/

/-- Both speeds of a twist lie within bounds: `lo <= linear.x <= hi` and
`lo2 <= angular.z <= hi2`, with the comparisons of `double`. -/
def Twist.within (t : Twist) (lo hi lo2 hi2 : F64) : Bool :=
  F64.le lo t.linear_x && F64.le t.linear_x hi &&
    (F64.le lo2 t.angular_z && F64.le t.angular_z hi2)

/-- The speeds that an intent proposes lie within bounds: an intent of positive weight
has both speeds within the bounds; an intent of weight 0 proposes nothing, and only
has to hold finite numbers (as the default and the reset vector do). -/
def MotionVector.proposesWithin (v : MotionVector) (lo hi lo2 hi2 : F64) : Bool :=
  if v.weight = 0 then v.twist.linear_x.isFinite && v.twist.angular_z.isFinite
  else v.twist.within lo hi lo2 hi2

/-! ## Global variables -/

/-- The global variables of the translation unit that the callbacks and the
loop of `main` read or write. -/
structure Globals where
  endpointVector : MotionVector
  coneVector : MotionVector
  avoidanceVector : MotionVector
  shouldFinish : Bool
  cycleNumber : Nat
  lastCycleNumberChanged : Nat
  inAvoidance : Bool
  goLeft : Bool
  deriving DecidableEq

/-- The globals when the loop of `main` is first entered: the static
initialisers, followed by `endpointVector.updateVector(0.2, 0.0, 1)`. -/
def initialGlobals : Globals :=
  { endpointVector := MotionVector.updateVector MotionVector.default (F64.lit 2 10) F64.zero 1
    coneVector := MotionVector.default
    avoidanceVector := MotionVector.default
    shouldFinish := false
    cycleNumber := 0
    lastCycleNumberChanged := 0
    inAvoidance := false
    goLeft := true }

/-! ## `pclCallback` -/

/-- Point type `pcl::PointXYZ`: three `float`s; `x` is the lateral offset, `z` the
forward distance. -/
structure PointXYZ where
  x : F32
  y : F32
  z : F32
  deriving DecidableEq

/-- The two locals of the scan loop of `pclCallback`. -/
structure ClosestScan where
  closestPoint : PointXYZ
  min_z : F32
  deriving DecidableEq

/-- The locals before the loop: a default-constructed point and `float min_z = 1e6`. -/
def ClosestScan.init : ClosestScan :=
  { closestPoint := { x := F32.zero, y := F32.zero, z := F32.zero },
    min_z := (F64.lit 1000000 1).toF32 }

/-- One iteration of the `BOOST_FOREACH` loop of `pclCallback`. -/
def ClosestScan.step (st : ClosestScan) (pt : PointXYZ) : ClosestScan :=
  if F32.lt pt.z st.min_z then { closestPoint := pt, min_z := pt.z } else st

/-- The whole `BOOST_FOREACH` loop over `cloud->points`. -/
def closestScan (points : List PointXYZ) : ClosestScan :=
  points.foldl ClosestScan.step ClosestScan.init

/-- The local `float linearSpeed = min_z - 0.4`: the `float` is promoted, the
difference is computed in `double` and rounded to `float`. -/
def avoidanceLinear (min_z : F32) : F32 := (F64.sub min_z.toF64 (F64.lit 4 10)).toF32

/-- The local `float angularDirection = 1.0 - min_z`, multiplied by `-1` when the
closest point has `x < 0`. -/
def avoidanceAngular (min_z x : F32) : F32 :=
  let angularDirection : F32 := (F64.sub (F64.lit 1 1) min_z.toF64).toF32
  if F32.lt x (F32.ofInt 0) then F32.mul angularDirection (F32.ofInt (-1))
  else angularDirection

/-- Callback `pclCallback`, on the points of the cloud. -/
def pclCallback (cloud : List PointXYZ) (g : Globals) : Globals :=
  let g1 := { g with avoidanceVector := g.avoidanceVector.reset }
  let scan := closestScan cloud
  if F64.lt scan.min_z.toF64 (F64.lit 65 100) then
    let g2 :=
      if (!g1.inAvoidance) && decide (usub g1.cycleNumber g1.lastCycleNumberChanged > 20) then
        { g1 with goLeft := !g1.goLeft, lastCycleNumberChanged := g1.cycleNumber }
      else g1
    let g3 := { g2 with inAvoidance := true }
    let linearSpeed : F32 := avoidanceLinear scan.min_z
    let angularDirection : F32 := avoidanceAngular scan.min_z scan.closestPoint.x
    let weight : Nat := 1000
    { g3 with
      avoidanceVector :=
        g3.avoidanceVector.updateVector linearSpeed.toF64 angularDirection.toF64 weight }
  else
    { g1 with inAvoidance := false }

/-! ## `blobsCallBack` -/

/-- The fields of `cmvision::Blob` that the program reads (all `uint32`):
the colour class `red`, the `area` and the horizontal centre `x`. -/
structure Blob where
  red : Nat
  area : Nat
  x : Nat
  deriving DecidableEq

/-- A default-constructed `cmvision::Blob`: every field is 0. -/
def Blob.default : Blob := { red := 0, area := 0, x := 0 }

/-- The locals of the scan loop of `blobsCallBack`, together with the global
`shouldFinish` that the loop may set. -/
structure BlobScan where
  largest_blob : Blob
  max_blob_size_seen : Nat
  shouldFinish : Bool
  deriving DecidableEq

/-- One iteration of the `for` loop of `blobsCallBack`.  The second assignment
of the first `if` stores the `x` field of the blob. -/
def BlobScan.step (st : BlobScan) (b : Blob) : BlobScan :=
  let st1 :=
    if b.red = ORANGE ∧ b.area > st.max_blob_size_seen then
      { st with largest_blob := b, max_blob_size_seen := b.x }
    else st
  if b.red = BLUE ∧ b.area > 30000 then { st1 with shouldFinish := true } else st1

/-- The whole `for` loop of `blobsCallBack` over `blobsIn.blobs`. -/
def blobScan (blobs : List Blob) (shouldFinish : Bool) : BlobScan :=
  blobs.foldl BlobScan.step
    { largest_blob := Blob.default, max_blob_size_seen := 0, shouldFinish := shouldFinish }

/-- The local `centerAround` of `blobsCallBack`. -/
def centerAround (goLeft : Bool) : Nat := if goLeft then 425 else 175

/-- The `float` that `angularDirection = 0.7` stores: the `double` literal rounded to
`float`. -/
def STEER_POS : F32 := (F64.lit 7 10).toF32

/-- The `float` that `angularDirection = -0.7` stores. -/
def STEER_NEG : F32 := (F64.lit 7 10).neg.toF32

/-- The local `float angularDirection` of `blobsCallBack` for a blob centre `x`:
an `if` / `else if` chain over an initial value of `0.0`. -/
def steerDirection (x center : Nat) : F32 :=
  if x < uadd center 10 then STEER_POS
  else if x > usub center 10 then STEER_NEG
  else F64.zero.toF32

/-- Callback `blobsCallBack`, on the list `blobsIn.blobs`; `blobsIn.blob_count` is the
length of that list. -/
def blobsCallBack (blobsIn : List Blob) (g : Globals) : Globals :=
  let center := centerAround g.goLeft
  let g1 := { g with coneVector := g.coneVector.reset }
  let scan := blobScan blobsIn g1.shouldFinish
  let g2 := { g1 with shouldFinish := scan.shouldFinish }
  if blobsIn.length ≠ 0 then
    let angularDirection := steerDirection scan.largest_blob.x center
    { g2 with
      coneVector := g2.coneVector.updateVector (F64.lit 4 10) angularDirection.toF64 3 }
  else g2

/-! ## The loop of `main` -/

/-- A message delivered by `ros::spinOnce()`. -/
inductive Event where
  | cloud (points : List PointXYZ)
  | blobs (blobsIn : List Blob)
  deriving DecidableEq

/-- The callback that `ros::spinOnce()` runs for one message. -/
def dispatch (g : Globals) (e : Event) : Globals :=
  match e with
  | Event.cloud points => pclCallback points g
  | Event.blobs blobsIn => blobsCallBack blobsIn g

/-- Function `ros::spinOnce()`: run the callbacks of the pending messages, in order. -/
def spinOnce (pending : List Event) (g : Globals) : Globals :=
  pending.foldl dispatch g

/-- The vector `mv` computed at the head of the loop body:
`endpointVector + coneVector + avoidanceVector`. -/
def blend (g : Globals) : MotionVector :=
  (g.endpointVector.add g.coneVector).add g.avoidanceVector

/-- One pass through the body of the `while` loop of `main`: blend, publish,
spin (the callbacks of the `pending` messages run here), `cycleNumber++`.
Returns the published twist and the globals after the pass. -/
def loopBody (pending : List Event) (g : Globals) : Twist × Globals :=
  let mv := blend g
  let published := mv.getTwist
  let g1 := spinOnce pending g
  (published, { g1 with cycleNumber := uadd g1.cycleNumber 1 })

/-- One control tick with no message pending. -/
def tick (g : Globals) : Twist × Globals := loopBody [] g

/-- The `while (!shouldFinish && ros::ok())` loop of `main`, run for as many
passes as the schedule has entries (`ros::ok()` holds until the schedule
ends); entry `k` of the schedule lists the messages pending in pass `k`.
Returns, for every completed pass, the published twist and the globals after
the pass. -/
def mainLoop : List (List Event) → Globals → List (Twist × Globals)
  | [], _ => []
  | pending :: rest, g =>
    if g.shouldFinish then []
    else (loopBody pending g) :: mainLoop rest (loopBody pending g).2

/-- The schedule with exactly one depth frame pending in every pass. -/
def oneCloudPerPass (frames : List (List PointXYZ)) : List (List Event) :=
  frames.map (fun f => [Event.cloud f])

/-- The target blob of a frame as the specification selects it: the `ORANGE`
blob of largest area, the first one among those of equal largest area (`none`
when no `ORANGE` blob of positive area has been seen). -/
def largestTargetRef : List Blob → Option Blob
  | [] => none
  | b :: rest =>
    match largestTargetRef rest with
    | none => if b.red = ORANGE ∧ 0 < b.area then some b else none
    | some r => if b.red = ORANGE ∧ r.area ≤ b.area then some b else some r

/-- The globals when the loop of `main` exits, or when the schedule ends. -/
def mainLoopFinal : List (List Event) → Globals → Globals
  | [], g => g
  | pending :: rest, g =>
    if g.shouldFinish then g else mainLoopFinal rest (loopBody pending g).2

/-- The side switches made by the callbacks of pass number `k`: one entry for
every pending message whose callback changes `goLeft`, holding `k` and the value
of `cycleNumber` when the callback ran. -/
def passLog (k : Nat) : List Event → Globals → List (Nat × Nat)
  | [], _ => []
  | e :: rest, g =>
    if (dispatch g e).goLeft = g.goLeft then passLog k rest (dispatch g e)
    else (k, g.cycleNumber) :: passLog k rest (dispatch g e)

/-- The side switches of a run of the loop of `main` whose first pass has number
`k`, in the order in which they happen. -/
def flipLog : Nat → List (List Event) → Globals → List (Nat × Nat)
  | _, [], _ => []
  | k, pending :: rest, g =>
    if g.shouldFinish then []
    else passLog k pending g ++ flipLog (k + 1) rest (loopBody pending g).2

/-- The pass number of the last side switch of a log, `dflt` for an empty log. -/
def lastFlipTick (dflt : Nat) (log : List (Nat × Nat)) : Nat :=
  match log.getLast? with
  | none => dflt
  | some e => e.1

/-- The relation between the two counters of the globals and the history of a run:
`k` passes have been completed, the last side switch happened in pass `t` (`t = 0`
when there has been none), and both counters hold these numbers modulo `2 ^ 32`. -/
def SwitchInv (k t : Nat) (g : Globals) : Prop :=
  t ≤ k ∧ g.cycleNumber = k % UINT_RANGE ∧ g.lastCycleNumberChanged = t % UINT_RANGE

/-- The globals `n` passes later, when `n > 0` and every one of these passes ran the
callback of one depth frame with no point closer than 0.65. -/
def afterFarRun (g : Globals) (n : Nat) : Globals :=
  { g with
    avoidanceVector := zeroIntent
    inAvoidance := false
    cycleNumber := (g.cycleNumber + n) % UINT_RANGE }

/-! ## Theorems -/

/-! ## Rounding -/

/-! ### Binary length -/

/-- Counting `c` digits at once: the step of `bitLenAux` for a number of more than `c`
digits. -/
theorem bitLen_chunk (c n b k : Nat) (hn : 2 ^ c ≤ n)
    (ih : ∀ j : Nat, b ≤ j ↔ n / 2 ^ c < 2 ^ j) : b + c ≤ k ↔ n < 2 ^ k := by
  by_cases hk : c ≤ k
  · obtain ⟨j, rfl⟩ := Nat.exists_eq_add_of_le hk
    have h1 : b + c ≤ c + j ↔ b ≤ j := by omega
    rw [h1, ih j, Nat.div_lt_iff_lt_mul (Nat.two_pow_pos c), pow_add, Nat.mul_comm]
  · have hlt : 2 ^ k < 2 ^ c := Nat.pow_lt_pow_right (by decide) (by omega)
    constructor
    · intro h
      omega
    · intro h
      omega

theorem bitLenAux_le_iff (fuel : Nat) : ∀ n k : Nat, n ≤ fuel →
    (bitLenAux fuel n ≤ k ↔ n < 2 ^ k) := by
  induction fuel with
  | zero =>
    intro n k hn
    have h0 : n = 0 := Nat.le_zero.mp hn
    subst h0
    simp [bitLenAux]
  | succ fuel ih =>
    intro n k hn
    by_cases h0 : n = 0
    · subst h0
      simp [bitLenAux]
    · have hpos : 0 < n := Nat.pos_of_ne_zero h0
      have hdiv : ∀ c : Nat, 0 < c → n / 2 ^ c ≤ fuel := by
        intro c hc
        have h2 : 2 ^ 1 ≤ 2 ^ c := Nat.pow_le_pow_right (by decide) hc
        have h3 : n / 2 ^ c ≤ n / 2 ^ 1 := Nat.div_le_div_left h2 (by decide)
        have h4 : n / 2 ^ 1 ≤ fuel := by
          rw [pow_one]
          omega
        exact le_trans h3 h4
      rw [bitLenAux, if_neg h0]
      by_cases h128 : 2 ^ 128 ≤ n
      · rw [if_pos h128]
        exact bitLen_chunk 128 n _ k h128 (fun j => ih _ j (hdiv 128 (by decide)))
      · rw [if_neg h128]
        by_cases h8 : 2 ^ 8 ≤ n
        · rw [if_pos h8]
          exact bitLen_chunk 8 n _ k h8 (fun j => ih _ j (hdiv 8 (by decide)))
        · rw [if_neg h8]
          have h1 : 2 ^ 1 ≤ n ∨ n = 1 := by omega
          rcases h1 with h1 | h1
          · have := bitLen_chunk 1 n (bitLenAux fuel (n / 2 ^ 1)) k h1
              (fun j => ih _ j (hdiv 1 (by decide)))
            rw [pow_one] at this
            exact this
          · subst h1
            have hz : bitLenAux fuel (1 / 2) = 0 := by
              have := (ih (1 / 2) 0 (by simp)).mpr (by simp)
              omega
            rw [hz]
            constructor
            · intro h
              exact Nat.one_lt_two_pow (by omega)
            · intro h
              by_contra hk
              have hk0 : k = 0 := by omega
              subst hk0
              simp at h

theorem bitLen_le_iff (n k : Nat) : bitLen n ≤ k ↔ n < 2 ^ k :=
  bitLenAux_le_iff n n k (le_refl n)

theorem lt_two_pow_bitLen (n : Nat) : n < 2 ^ bitLen n :=
  (bitLen_le_iff n (bitLen n)).mp (le_refl _)

theorem bitLen_mono {a b : Nat} (h : a ≤ b) : bitLen a ≤ bitLen b :=
  (bitLen_le_iff a (bitLen b)).mpr (lt_of_le_of_lt h (lt_two_pow_bitLen b))

theorem two_pow_le_of_lt_bitLen {n k : Nat} (h : k < bitLen n) : 2 ^ k ≤ n := by
  by_contra hlt
  have := (bitLen_le_iff n k).mpr (not_le.mp hlt)
  omega

theorem bitLen_two_pow (j : Nat) : bitLen (2 ^ j) = j + 1 := by
  apply le_antisymm
  · rw [bitLen_le_iff]
    exact Nat.pow_lt_pow_right (by decide) (Nat.lt_succ_self j)
  · by_contra h
    have h2 : bitLen (2 ^ j) ≤ j := by omega
    rw [bitLen_le_iff] at h2
    exact Nat.lt_irrefl _ h2

/-! ### Rounding of natural fractions -/

theorem quantumExp_ge (p qmin x : Nat) : qmin ≤ quantumExp p qmin x :=
  le_max_left _ _

theorem quantumExp_mono (p qmin : Nat) {x y : Nat} (h : x ≤ y) :
    quantumExp p qmin x ≤ quantumExp p qmin y := by
  unfold quantumExp
  have := bitLen_mono h
  omega

theorem lt_two_pow_quantumExp (p qmin x : Nat) : x < 2 ^ (quantumExp p qmin x + p) := by
  rw [← bitLen_le_iff]
  unfold quantumExp
  omega

/-- The rounded value, written with the quotient and remainder by the spacing. -/
theorem roundNat_eq (p qmin a den : Nat) :
    roundNat p qmin a den =
      (if 2 * (a % (den * 2 ^ quantumExp p qmin (a / den)))
            < den * 2 ^ quantumExp p qmin (a / den)
        then a / (den * 2 ^ quantumExp p qmin (a / den))
        else if den * 2 ^ quantumExp p qmin (a / den)
            < 2 * (a % (den * 2 ^ quantumExp p qmin (a / den)))
          then a / (den * 2 ^ quantumExp p qmin (a / den)) + 1
          else if a / (den * 2 ^ quantumExp p qmin (a / den)) % 2 = 0
            then a / (den * 2 ^ quantumExp p qmin (a / den))
            else a / (den * 2 ^ quantumExp p qmin (a / den)) + 1)
        * 2 ^ quantumExp p qmin (a / den) := rfl

/-- Rounding to a fixed spacing `q` of exponent `k`: the multiple chosen. -/
theorem roundNat_mantissa_bounds (p qmin a den : Nat) :
    a / (den * 2 ^ quantumExp p qmin (a / den)) * 2 ^ quantumExp p qmin (a / den)
        ≤ roundNat p qmin a den ∧
      roundNat p qmin a den ≤
        (a / (den * 2 ^ quantumExp p qmin (a / den)) + 1) * 2 ^ quantumExp p qmin (a / den) := by
  rw [roundNat_eq]
  constructor
  · apply Nat.mul_le_mul_right
    split_ifs <;> omega
  · apply Nat.mul_le_mul_right
    split_ifs <;> omega

theorem roundNat_quotient_lt (p qmin a den : Nat) :
    a / (den * 2 ^ quantumExp p qmin (a / den)) < 2 ^ p := by
  rw [← Nat.div_div_eq_div_mul, Nat.div_lt_iff_lt_mul (Nat.two_pow_pos _), ← pow_add,
    Nat.add_comm]
  exact lt_two_pow_quantumExp p qmin (a / den)

theorem roundNat_exists_mantissa (p qmin a den : Nat) :
    ∃ m : Nat, roundNat p qmin a den = m * 2 ^ quantumExp p qmin (a / den) ∧ m ≤ 2 ^ p ∧
      a / (den * 2 ^ quantumExp p qmin (a / den)) ≤ m := by
  have hq := roundNat_quotient_lt p qmin a den
  rw [roundNat_eq]
  refine ⟨_, rfl, ?_, ?_⟩
  · split_ifs <;> omega
  · split_ifs <;> omega

/-- A rounded value has at most `p` significant digits above the least spacing. -/
theorem roundNat_rep (p qmin a den : Nat) (hp : 1 ≤ p) :
    roundNat p qmin a den % 2 ^ quantumExp p qmin (roundNat p qmin a den) = 0 := by
  obtain ⟨m, hr, hm, _⟩ := roundNat_exists_mantissa p qmin a den
  have hk := quantumExp_ge p qmin (a / den)
  rw [hr]
  rcases Nat.lt_or_ge m (2 ^ p) with hlt | hge
  · have hbound : m * 2 ^ quantumExp p qmin (a / den) <
        2 ^ (p + quantumExp p qmin (a / den)) := by
      rw [pow_add]
      exact Nat.mul_lt_mul_of_pos_right hlt (Nat.two_pow_pos _)
    have hlen := (bitLen_le_iff _ _).mpr hbound
    have hle : quantumExp p qmin (m * 2 ^ quantumExp p qmin (a / den)) ≤
        quantumExp p qmin (a / den) := by
      show max qmin (bitLen (m * 2 ^ quantumExp p qmin (a / den)) - p) ≤ _
      omega
    exact Nat.mod_eq_zero_of_dvd (Dvd.dvd.mul_left (pow_dvd_pow 2 hle) m)
  · have hm2 : m = 2 ^ p := le_antisymm hm hge
    rw [hm2, ← pow_add]
    have hlen : bitLen (2 ^ (p + quantumExp p qmin (a / den))) =
        p + quantumExp p qmin (a / den) + 1 := bitLen_two_pow _
    have hle : quantumExp p qmin (2 ^ (p + quantumExp p qmin (a / den))) ≤
        p + quantumExp p qmin (a / den) := by
      show max qmin (bitLen (2 ^ (p + quantumExp p qmin (a / den))) - p) ≤ _
      rw [hlen]
      omega
    exact Nat.mod_eq_zero_of_dvd (pow_dvd_pow 2 hle)

/-- Rounding leaves a number of the format unchanged. -/
theorem roundNat_of_rep (p qmin a : Nat) (h : a % 2 ^ quantumExp p qmin a = 0) :
    roundNat p qmin a 1 = a := by
  rw [roundNat_eq]
  simp only [Nat.div_one, Nat.one_mul, h, Nat.mul_zero]
  rw [if_pos (Nat.two_pow_pos _)]
  exact Nat.div_mul_cancel (Nat.dvd_of_mod_eq_zero h)

/-- Rounding depends on the fraction only, not on how it is written. -/
theorem roundNat_scale (p qmin a den c : Nat) (hc : 0 < c) :
    roundNat p qmin (a * c) (den * c) = roundNat p qmin a den := by
  have hdiv : a * c / (den * c) = a / den := Nat.mul_div_mul_right a den hc
  rw [roundNat_eq, roundNat_eq, hdiv]
  have hq : den * c * 2 ^ quantumExp p qmin (a / den) =
      den * 2 ^ quantumExp p qmin (a / den) * c := by ring
  rw [hq, Nat.mul_div_mul_right _ _ hc, Nat.mul_mod_mul_right]
  have h1 : (2 * (a % (den * 2 ^ quantumExp p qmin (a / den)) * c) <
      den * 2 ^ quantumExp p qmin (a / den) * c) ↔
      (2 * (a % (den * 2 ^ quantumExp p qmin (a / den))) <
      den * 2 ^ quantumExp p qmin (a / den)) := by
    rw [← Nat.mul_assoc]
    exact Nat.mul_lt_mul_right hc
  have h2 : (den * 2 ^ quantumExp p qmin (a / den) * c <
      2 * (a % (den * 2 ^ quantumExp p qmin (a / den)) * c)) ↔
      (den * 2 ^ quantumExp p qmin (a / den) <
      2 * (a % (den * 2 ^ quantumExp p qmin (a / den)))) := by
    rw [← Nat.mul_assoc]
    exact Nat.mul_lt_mul_right hc
  simp only [h1, h2]

/-- Rounding of natural fractions is monotone. -/
theorem roundNat_mono (p qmin den : Nat) (hp : 1 ≤ p) (hden : 0 < den) {a b : Nat}
    (hab : a ≤ b) : roundNat p qmin a den ≤ roundNat p qmin b den := by
  have hk : quantumExp p qmin (a / den) ≤ quantumExp p qmin (b / den) :=
    quantumExp_mono p qmin (Nat.div_le_div_right hab)
  rcases Nat.eq_or_lt_of_le hk with heq | hlt
  · have hqpos : 0 < den * 2 ^ quantumExp p qmin (b / den) :=
      Nat.mul_pos hden (Nat.two_pow_pos _)
    have hdiv : a / (den * 2 ^ quantumExp p qmin (b / den)) ≤
        b / (den * 2 ^ quantumExp p qmin (b / den)) := Nat.div_le_div_right hab
    rcases Nat.eq_or_lt_of_le hdiv with hteq | htlt
    · have ha := Nat.div_add_mod a (den * 2 ^ quantumExp p qmin (b / den))
      have hb := Nat.div_add_mod b (den * 2 ^ quantumExp p qmin (b / den))
      have hrem : a % (den * 2 ^ quantumExp p qmin (b / den)) ≤
          b % (den * 2 ^ quantumExp p qmin (b / den)) := by
        rw [hteq] at ha
        omega
      rw [roundNat_eq, roundNat_eq, heq, hteq]
      apply Nat.mul_le_mul_right
      split_ifs <;> omega
    · have h1 := (roundNat_mantissa_bounds p qmin a den).2
      have h2 := (roundNat_mantissa_bounds p qmin b den).1
      rw [heq] at h1
      calc roundNat p qmin a den
          ≤ (a / (den * 2 ^ quantumExp p qmin (b / den)) + 1) *
              2 ^ quantumExp p qmin (b / den) := h1
        _ ≤ b / (den * 2 ^ quantumExp p qmin (b / den)) * 2 ^ quantumExp p qmin (b / den) :=
            Nat.mul_le_mul_right _ htlt
        _ ≤ roundNat p qmin b den := h2
  · have h1 := (roundNat_mantissa_bounds p qmin a den).2
    have h2 := (roundNat_mantissa_bounds p qmin b den).1
    have hta := roundNat_quotient_lt p qmin a den
    have hkb : quantumExp p qmin (b / den) = bitLen (b / den) - p := by
      have hge := quantumExp_ge p qmin (a / den)
      show max qmin (bitLen (b / den) - p) = _
      have : max qmin (bitLen (b / den) - p) = quantumExp p qmin (b / den) := rfl
      omega
    have hlen : p + quantumExp p qmin (b / den) - 1 < bitLen (b / den) := by omega
    have hpow : 2 ^ (p + quantumExp p qmin (b / den) - 1) ≤ b / den :=
      two_pow_le_of_lt_bitLen hlen
    have htb : 2 ^ (p - 1) ≤ b / (den * 2 ^ quantumExp p qmin (b / den)) := by
      rw [← Nat.div_div_eq_div_mul, Nat.le_div_iff_mul_le (Nat.two_pow_pos _), ← pow_add]
      have e : p - 1 + quantumExp p qmin (b / den) = p + quantumExp p qmin (b / den) - 1 := by
        omega
      rw [e]
      exact hpow
    calc roundNat p qmin a den
        ≤ (a / (den * 2 ^ quantumExp p qmin (a / den)) + 1) *
            2 ^ quantumExp p qmin (a / den) := h1
      _ ≤ 2 ^ p * 2 ^ quantumExp p qmin (a / den) := Nat.mul_le_mul_right _ hta
      _ = 2 ^ (p + quantumExp p qmin (a / den)) := (pow_add 2 _ _).symm
      _ ≤ 2 ^ (p - 1 + quantumExp p qmin (b / den)) :=
          Nat.pow_le_pow_right (by decide) (by omega)
      _ = 2 ^ (p - 1) * 2 ^ quantumExp p qmin (b / den) := pow_add 2 _ _
      _ ≤ b / (den * 2 ^ quantumExp p qmin (b / den)) * 2 ^ quantumExp p qmin (b / den) :=
          Nat.mul_le_mul_right _ htb
      _ ≤ roundNat p qmin b den := h2

theorem roundNat_zero (p qmin den : Nat) : roundNat p qmin 0 den = 0 := by
  rw [roundNat_eq]
  simp only [Nat.zero_div, Nat.zero_mod, Nat.mul_zero]
  split_ifs <;> simp_all

/-- A power of two at or above the least spacing belongs to the format. -/
theorem two_pow_rep (p qmin j : Nat) (hp : 1 ≤ p) (hj : qmin ≤ j) :
    2 ^ j % 2 ^ quantumExp p qmin (2 ^ j) = 0 := by
  have hle : quantumExp p qmin (2 ^ j) ≤ j := by
    show max qmin (bitLen (2 ^ j) - p) ≤ j
    rw [bitLen_two_pow]
    omega
  exact Nat.mod_eq_zero_of_dvd (pow_dvd_pow 2 hle)

/-- Rounding does not cross a power of two of the format. -/
theorem roundNat_ge_two_pow (p qmin den a j : Nat) (hp : 1 ≤ p) (hden : 0 < den)
    (hj : qmin ≤ j) (h : 2 ^ j * den ≤ a) : 2 ^ j ≤ roundNat p qmin a den := by
  have h1 := roundNat_mono p qmin den hp hden h
  have h2 : roundNat p qmin (2 ^ j * den) den = 2 ^ j := by
    have := roundNat_scale p qmin (2 ^ j) 1 den hden
    rw [Nat.one_mul] at this
    rw [this]
    exact roundNat_of_rep p qmin (2 ^ j) (two_pow_rep p qmin j hp hj)
  rw [h2] at h1
  exact h1

theorem roundNat_le_two_pow (p qmin den a j : Nat) (hp : 1 ≤ p) (hden : 0 < den)
    (hj : qmin ≤ j) (h : a ≤ 2 ^ j * den) : roundNat p qmin a den ≤ 2 ^ j := by
  have h1 := roundNat_mono p qmin den hp hden h
  have h2 : roundNat p qmin (2 ^ j * den) den = 2 ^ j := by
    have := roundNat_scale p qmin (2 ^ j) 1 den hden
    rw [Nat.one_mul] at this
    rw [this]
    exact roundNat_of_rep p qmin (2 ^ j) (two_pow_rep p qmin j hp hj)
  rw [h2] at h1
  exact h1

/-! ### Rounding to a format -/

theorem natAbs_signed (c : Prop) [Decidable c] (r : Nat) :
    (if c then -(r : Int) else (r : Int)).natAbs = r := by
  split_ifs <;> simp

/-- A rounded value belongs to the format. -/
theorem roundTo_inFormat (p qmin ovf : Nat) (hp : 1 ≤ p) (num : Int) (den : Nat) :
    (roundTo p qmin ovf num den).inFormat p qmin ovf = true := by
  unfold roundTo
  simp only
  by_cases hov : ovf ≤ roundNat p qmin num.natAbs den
  · rw [if_pos hov]
    split_ifs <;> rfl
  · rw [if_neg hov]
    show isRep p qmin ovf _ = true
    unfold isRep
    rw [natAbs_signed]
    simp only [Bool.and_eq_true, decide_eq_true_eq]
    exact ⟨roundNat_rep p qmin num.natAbs den hp, not_le.mp hov⟩

theorem round64_inFormat (num : Int) (den : Nat) :
    (round64 num den).inFormat 53 0 OVF64 = true :=
  roundTo_inFormat 53 0 OVF64 (by decide) num den

theorem round32_inFormat (num : Int) (den : Nat) :
    (round32 num den).inFormat 24 925 OVF32 = true :=
  roundTo_inFormat 24 925 OVF32 (by decide) num den

theorem OVF64_pos : 0 < OVF64 := by
  unfold OVF64
  exact Nat.two_pow_pos OVF64_EXP

theorem OVF32_pos : 0 < OVF32 := by
  unfold OVF32
  exact Nat.two_pow_pos OVF32_EXP

theorem ONE_UNITS_pos : 0 < ONE_UNITS := by
  unfold ONE_UNITS
  exact Nat.two_pow_pos ONE_EXP

theorem fin_zero_inFormat (p qmin ovf : Nat) (hovf : 0 < ovf) :
    (FVal.fin 0).inFormat p qmin ovf = true := by
  show isRep p qmin ovf 0 = true
  unfold isRep
  simp [hovf]

theorem neg_inFormat (p qmin ovf : Nat) (v : FVal) (h : v.inFormat p qmin ovf = true) :
    v.neg.inFormat p qmin ovf = true := by
  cases v with
  | fin n =>
    show isRep p qmin ovf (-n) = true
    have h2 : isRep p qmin ovf n = true := h
    unfold isRep at *
    rw [Int.natAbs_neg]
    exact h2
  | pinf => rfl
  | ninf => rfl
  | nan => rfl

theorem add_inFormat (p qmin ovf : Nat) (hp : 1 ≤ p) (a b : FVal) :
    (FVal.add (roundTo p qmin ovf) a b).inFormat p qmin ovf = true := by
  cases a <;> cases b <;> first | rfl | exact roundTo_inFormat p qmin ovf hp _ _

theorem mul_inFormat (p qmin ovf : Nat) (hp : 1 ≤ p) (a b : FVal) :
    (FVal.mul (roundTo p qmin ovf) a b).inFormat p qmin ovf = true := by
  cases a <;> cases b <;>
    first
    | rfl
    | exact roundTo_inFormat p qmin ovf hp _ _
    | (simp only [FVal.mul]; split_ifs <;> rfl)

theorem div_inFormat (p qmin ovf : Nat) (hp : 1 ≤ p) (hovf : 0 < ovf) (a b : FVal) :
    (FVal.div (roundTo p qmin ovf) a b).inFormat p qmin ovf = true := by
  cases a <;> cases b <;>
    first
    | rfl
    | exact fin_zero_inFormat p qmin ovf hovf
    | (simp only [FVal.div]; split_ifs <;> first | rfl | exact roundTo_inFormat p qmin ovf hp _ _)

theorem to32_inFormat (v : FVal) : v.to32.inFormat 24 925 OVF32 = true := by
  cases v with
  | fin n => exact round32_inFormat n 1
  | pinf => rfl
  | ninf => rfl
  | nan => rfl

/-- Every `float` value is a `double` value. -/
theorem inFormat64_of_inFormat32 (v : FVal) (h : v.inFormat 24 925 OVF32 = true) :
    v.inFormat 53 0 OVF64 = true := by
  cases v with
  | fin n =>
    have h2 : isRep 24 925 OVF32 n = true := h
    show isRep 53 0 OVF64 n = true
    unfold isRep at *
    simp only [Bool.and_eq_true, decide_eq_true_eq] at h2 ⊢
    obtain ⟨hdvd, hlt⟩ := h2
    constructor
    · have hle : quantumExp 53 0 n.natAbs ≤ quantumExp 24 925 n.natAbs := by
        unfold quantumExp
        omega
      exact Nat.mod_eq_zero_of_dvd
        (dvd_trans (pow_dvd_pow 2 hle) (Nat.dvd_of_mod_eq_zero hdvd))
    · have hov : OVF32 ≤ OVF64 := by
        unfold OVF32 OVF64
        exact Nat.pow_le_pow_right (by decide) (by decide : OVF32_EXP ≤ OVF64_EXP)
      exact lt_of_lt_of_le hlt hov
  | pinf => rfl
  | ninf => rfl
  | nan => rfl

/-! ### The values of `double` and `float` operations -/

theorem F64.ofVal_v (v : FVal) (h : v.inFormat 53 0 OVF64 = true) : (F64.ofVal v).v = v := by
  unfold F64.ofVal
  rw [dif_pos h]

theorem F32.ofValF_v (v : FVal) (h : v.inFormat 24 925 OVF32 = true) : (F32.ofVal v).v = v := by
  unfold F32.ofVal
  rw [dif_pos h]

theorem F64.ext {a b : F64} (h : a.v = b.v) : a = b := by
  cases a
  cases b
  simp only at h
  subst h
  rfl

theorem F32.ext_v {a b : F32} (h : a.v = b.v) : a = b := by
  cases a
  cases b
  simp only at h
  subst h
  rfl

theorem F64.add_v (a b : F64) : (F64.add a b).v = FVal.add round64 a.v b.v :=
  F64.ofVal_v _ (add_inFormat 53 0 OVF64 (by decide) a.v b.v)

theorem F64.sub_v (a b : F64) : (F64.sub a b).v = FVal.add round64 a.v b.v.neg :=
  F64.ofVal_v _ (add_inFormat 53 0 OVF64 (by decide) a.v b.v.neg)

theorem F64.mul_v (a b : F64) : (F64.mul a b).v = FVal.mul round64 a.v b.v :=
  F64.ofVal_v _ (mul_inFormat 53 0 OVF64 (by decide) a.v b.v)

theorem F64.div_v (a b : F64) : (F64.div a b).v = FVal.div round64 a.v b.v :=
  F64.ofVal_v _ (div_inFormat 53 0 OVF64 (by decide) OVF64_pos a.v b.v)

theorem F64.neg_v (a : F64) : (F64.neg a).v = a.v.neg :=
  F64.ofVal_v _ (neg_inFormat 53 0 OVF64 a.v a.ok)

theorem F64.ofNat_v (w : Nat) : (F64.ofNat w).v = round64 ((w : Int) * (ONE_UNITS : Int)) 1 :=
  F64.ofVal_v _ (round64_inFormat _ _)

theorem F64.lit_v (n d : Nat) : (F64.lit n d).v = round64 ((n : Int) * (ONE_UNITS : Int)) d :=
  F64.ofVal_v _ (round64_inFormat _ _)

theorem F64.toF32_v (a : F64) : a.toF32.v = a.v.to32 :=
  F32.ofValF_v _ (to32_inFormat a.v)

theorem F32.toF64_v (a : F32) : a.toF64.v = a.v :=
  F64.ofVal_v _ (inFormat64_of_inFormat32 a.v a.ok)

theorem F32.mulF_v (a b : F32) : (F32.mul a b).v = FVal.mul round32 a.v b.v :=
  F32.ofValF_v _ (mul_inFormat 24 925 OVF32 (by decide) a.v b.v)

theorem F32.ofInt_v (i : Int) : (F32.ofInt i).v = round32 (i * (ONE_UNITS : Int)) 1 :=
  F32.ofValF_v _ (round32_inFormat _ _)

/-! ### The order of IEEE 754 values -/

theorem FVal.lt_irrefl (a : FVal) : FVal.lt a a = false := by
  cases a <;> simp [FVal.lt]

theorem FVal.lt_trans {a b c : FVal} (h1 : FVal.lt a b = true) (h2 : FVal.lt b c = true) :
    FVal.lt a c = true := by
  cases a <;> cases b <;> cases c <;> simp [FVal.lt] at h1 h2 ⊢
  omega

theorem FVal.le_of_lt {a b : FVal} (h : FVal.lt a b = true) : FVal.le a b = true := by
  cases a <;> cases b <;> simp [FVal.lt, FVal.le] at h ⊢
  omega

theorem FVal.le_of_not_lt {a b : FVal} (ha : a ≠ FVal.nan) (hb : b ≠ FVal.nan)
    (h : FVal.lt a b = false) : FVal.le b a = true := by
  cases a <;> cases b <;> simp [FVal.lt, FVal.le] at h ha hb ⊢
  omega

theorem FVal.lt_of_le_of_lt {a b c : FVal} (h1 : FVal.le a b = true)
    (h2 : FVal.lt b c = true) : FVal.lt a c = true := by
  cases a <;> cases b <;> cases c <;> simp [FVal.lt, FVal.le] at h1 h2 ⊢
  omega

theorem FVal.lt_of_lt_of_le {a b c : FVal} (h1 : FVal.lt a b = true)
    (h2 : FVal.le b c = true) : FVal.lt a c = true := by
  cases a <;> cases b <;> cases c <;> simp [FVal.lt, FVal.le] at h1 h2 ⊢
  omega

theorem FVal.le_trans {a b c : FVal} (h1 : FVal.le a b = true) (h2 : FVal.le b c = true) :
    FVal.le a c = true := by
  cases a <;> cases b <;> cases c <;> simp [FVal.le] at h1 h2 ⊢
  omega

theorem FVal.le_refl {a : FVal} (ha : a ≠ FVal.nan) : FVal.le a a = true := by
  cases a <;> simp [FVal.le] at ha ⊢

theorem FVal.not_lt_of_le {a b : FVal} (h : FVal.le a b = true) : FVal.lt b a = false := by
  cases a <;> cases b <;> simp [FVal.lt, FVal.le] at h ⊢
  omega

theorem FVal.ne_nan_of_lt {a b : FVal} (h : FVal.lt a b = true) :
    a ≠ FVal.nan ∧ b ≠ FVal.nan := by
  cases a <;> cases b <;> simp [FVal.lt] at h ⊢

theorem FVal.ne_nan_of_le {a b : FVal} (h : FVal.le a b = true) :
    a ≠ FVal.nan ∧ b ≠ FVal.nan := by
  cases a <;> cases b <;> simp [FVal.le] at h ⊢

/-! ### Exact cases of rounding -/

theorem roundTo_scale (p qmin ovf : Nat) (n : Int) (d c : Nat) (hc : 0 < c) :
    roundTo p qmin ovf (n * (c : Int)) (d * c) = roundTo p qmin ovf n d := by
  have hc2 : (0 : Int) < (c : Int) := by exact_mod_cast hc
  have habs : (n * (c : Int)).natAbs = n.natAbs * c := by
    rw [Int.natAbs_mul, Int.natAbs_ofNat]
  have hneg : (n * (c : Int) < 0) ↔ (n < 0) := by
    constructor
    · intro h
      by_contra hn
      have : 0 ≤ n * (c : Int) := Int.mul_nonneg (not_lt.mp hn) (le_of_lt hc2)
      omega
    · intro h
      exact Int.mul_neg_of_neg_of_pos h hc2
  unfold roundTo
  simp only [habs, roundNat_scale p qmin n.natAbs d c hc, hneg]

/-- Rounding leaves a finite value of the format unchanged. -/
theorem roundTo_of_isRep (p qmin ovf : Nat) (n : Int) (h : isRep p qmin ovf n = true) :
    roundTo p qmin ovf n 1 = FVal.fin n := by
  unfold isRep at h
  simp only [Bool.and_eq_true, decide_eq_true_eq] at h
  obtain ⟨hdvd, hlt⟩ := h
  unfold roundTo
  simp only [roundNat_of_rep p qmin n.natAbs hdvd, if_neg (not_le.mpr hlt)]
  congr 1
  split_ifs with hn
  · omega
  · omega

theorem round64_of_ok (n : Int) (h : (FVal.fin n).inFormat 53 0 OVF64 = true) :
    round64 n 1 = FVal.fin n :=
  roundTo_of_isRep 53 0 OVF64 n h

theorem round32_of_ok (n : Int) (h : (FVal.fin n).inFormat 24 925 OVF32 = true) :
    round32 n 1 = FVal.fin n :=
  roundTo_of_isRep 24 925 OVF32 n h

/-- The conversion of an `unsigned int` to `double` is exact. -/
theorem F64.ofNat_v_exact (w : Nat) (hw : w < UINT_RANGE) :
    (F64.ofNat w).v = FVal.fin ((w : Int) * (ONE_UNITS : Int)) := by
  rw [F64.ofNat_v]
  apply roundTo_of_isRep
  unfold isRep
  have habs : ((w : Int) * (ONE_UNITS : Int)).natAbs = w * ONE_UNITS := by
    rw [Int.natAbs_mul, Int.natAbs_ofNat, Int.natAbs_ofNat]
  rw [habs]
  simp only [Bool.and_eq_true, decide_eq_true_eq]
  have hw2 : w < 2 ^ 32 := hw
  have hbound : w * ONE_UNITS < 2 ^ (32 + ONE_EXP) := by
    rw [pow_add]
    unfold ONE_UNITS
    exact Nat.mul_lt_mul_of_pos_right hw2 (Nat.two_pow_pos ONE_EXP)
  constructor
  · have hlen := (bitLen_le_iff _ _).mpr hbound
    have hle : quantumExp 53 0 (w * ONE_UNITS) ≤ ONE_EXP := by
      unfold quantumExp ONE_EXP at *
      omega
    exact Nat.mod_eq_zero_of_dvd (Dvd.dvd.mul_left (pow_dvd_pow 2 hle) w)
  · exact lt_of_lt_of_le hbound
      (Nat.pow_le_pow_right (by decide) (by decide : 32 + ONE_EXP ≤ OVF64_EXP))

theorem F64.ofNat_ne_zero (w : Nat) (hw : w < UINT_RANGE) (h0 : w ≠ 0) :
    (F64.ofNat w).v ≠ FVal.fin 0 := by
  rw [F64.ofNat_v_exact w hw]
  intro h
  have h1 : (w : Int) * (ONE_UNITS : Int) = 0 := by
    injection h
  have h2 : (ONE_UNITS : Int) ≠ 0 := Int.natCast_ne_zero.mpr (ne_of_gt ONE_UNITS_pos)
  rcases Int.mul_eq_zero.mp h1 with h3 | h3
  · exact h0 (Int.natCast_eq_zero.mp h3)
  · exact h2 h3

theorem F64.zero_add (y : F64) : F64.add F64.zero y = y := by
  apply F64.ext
  rw [F64.add_v]
  show FVal.add round64 (FVal.fin 0) y.v = y.v
  have hok := y.ok
  cases hy : y.v with
  | fin n =>
    rw [hy] at hok
    show round64 (0 + n) 1 = FVal.fin n
    rw [Int.zero_add]
    exact round64_of_ok n hok
  | pinf => rfl
  | ninf => rfl
  | nan => rfl

theorem roundTo_scale_one (p qmin ovf : Nat) (n : Int) (c : Nat) (hc : 0 < c) :
    roundTo p qmin ovf (n * (c : Int)) c = roundTo p qmin ovf n 1 := by
  have h := roundTo_scale p qmin ovf n 1 c hc
  rw [Nat.one_mul] at h
  exact h

theorem F64.ofNat_one_v : (F64.ofNat 1).v = FVal.fin (ONE_UNITS : Int) := by
  rw [F64.ofNat_v_exact 1 (by decide), Nat.cast_one, Int.one_mul]

theorem ONE_UNITS_int_pos : (0 : Int) < (ONE_UNITS : Int) :=
  Int.natCast_pos.mpr ONE_UNITS_pos

theorem F64.one_mul (x : F64) : F64.mul (F64.ofNat 1) x = x := by
  apply F64.ext
  rw [F64.mul_v, F64.ofNat_one_v]
  have hok := x.ok
  have hU := ONE_UNITS_int_pos
  cases hx : x.v with
  | fin n =>
    rw [hx] at hok
    show round64 ((ONE_UNITS : Int) * n) ONE_UNITS = FVal.fin n
    rw [Int.mul_comm]
    unfold round64
    rw [roundTo_scale_one 53 0 OVF64 n ONE_UNITS ONE_UNITS_pos]
    exact round64_of_ok n hok
  | pinf =>
    show (if (ONE_UNITS : Int) = 0 then FVal.nan
      else if (ONE_UNITS : Int) < 0 then FVal.ninf else FVal.pinf) = FVal.pinf
    rw [if_neg (ne_of_gt hU), if_neg (not_lt.mpr (le_of_lt hU))]
  | ninf =>
    show (if (ONE_UNITS : Int) = 0 then FVal.nan
      else if (ONE_UNITS : Int) < 0 then FVal.pinf else FVal.ninf) = FVal.ninf
    rw [if_neg (ne_of_gt hU), if_neg (not_lt.mpr (le_of_lt hU))]
  | nan => rfl

theorem F64.div_one (x : F64) : F64.div x (F64.ofNat 1) = x := by
  apply F64.ext
  rw [F64.div_v, F64.ofNat_one_v]
  have hok := x.ok
  have hU := ONE_UNITS_int_pos
  cases hx : x.v with
  | fin n =>
    rw [hx] at hok
    simp only [FVal.div, if_neg (ne_of_gt hU), Int.sign_eq_one_of_pos hU, Int.mul_one,
      Int.natAbs_ofNat]
    unfold round64
    rw [roundTo_scale_one 53 0 OVF64 n ONE_UNITS ONE_UNITS_pos]
    exact round64_of_ok n hok
  | pinf =>
    show (if (ONE_UNITS : Int) < 0 then FVal.ninf else FVal.pinf) = FVal.pinf
    rw [if_neg (not_lt.mpr (le_of_lt hU))]
  | ninf =>
    show (if (ONE_UNITS : Int) < 0 then FVal.pinf else FVal.ninf) = FVal.ninf
    rw [if_neg (not_lt.mpr (le_of_lt hU))]
  | nan => rfl

theorem F64.mul_ofNat_zero_zero : F64.mul (F64.ofNat 0) F64.zero = F64.zero := by decide!

theorem FVal.add_comm64 (a b : FVal) : FVal.add round64 a b = FVal.add round64 b a := by
  cases a with
  | fin m =>
    cases b with
    | fin n =>
      show round64 (m + n) 1 = round64 (n + m) 1
      rw [Int.add_comm]
    | pinf => rfl
    | ninf => rfl
    | nan => rfl
  | pinf => cases b <;> rfl
  | ninf => cases b <;> rfl
  | nan => cases b <;> rfl

theorem F64.add_comm (a b : F64) : F64.add a b = F64.add b a := by
  apply F64.ext
  rw [F64.add_v, F64.add_v, FVal.add_comm64]

/-! ### Monotonicity of rounding -/

theorem roundTo_ne_nan (p qmin ovf : Nat) (num : Int) (den : Nat) :
    roundTo p qmin ovf num den ≠ FVal.nan := by
  unfold roundTo
  simp only
  split_ifs <;> simp

theorem FVal.le_pinf {a : FVal} (h : a ≠ FVal.nan) : FVal.le a FVal.pinf = true := by
  cases a <;> simp [FVal.le] at h ⊢

theorem FVal.ninf_le {a : FVal} (h : a ≠ FVal.nan) : FVal.le FVal.ninf a = true := by
  cases a <;> simp [FVal.le] at h ⊢

/-- Rounding is monotone. -/
theorem roundTo_mono (p qmin ovf den : Nat) (hp : 1 ≤ p) (hden : 0 < den) {a b : Int}
    (hab : a ≤ b) :
    FVal.le (roundTo p qmin ovf a den) (roundTo p qmin ovf b den) = true := by
  unfold roundTo
  simp only
  by_cases ha : a < 0
  · by_cases hb : b < 0
    · have hnat : b.natAbs ≤ a.natAbs := by omega
      have hr := roundNat_mono p qmin den hp hden hnat
      simp only [if_pos ha, if_pos hb]
      split_ifs with h1 h2 h2
      · rfl
      · rfl
      · omega
      · simp only [FVal.le, decide_eq_true_eq]
        omega
    · simp only [if_pos ha, if_neg hb]
      split_ifs
      · rfl
      · rfl
      · rfl
      · simp only [FVal.le, decide_eq_true_eq]
        omega
  · have hb : ¬ b < 0 := by omega
    have hnat : a.natAbs ≤ b.natAbs := by omega
    have hr := roundNat_mono p qmin den hp hden hnat
    simp only [if_neg ha, if_neg hb]
    split_ifs with h1 h2 h2
    · rfl
    · omega
    · rfl
    · simp only [FVal.le, decide_eq_true_eq]
      omega

theorem round64_mono (den : Nat) (hden : 0 < den) {a b : Int} (hab : a ≤ b) :
    FVal.le (round64 a den) (round64 b den) = true := by
  unfold round64
  exact roundTo_mono 53 0 OVF64 den (by decide) hden hab

theorem round32_mono (den : Nat) (hden : 0 < den) {a b : Int} (hab : a ≤ b) :
    FVal.le (round32 a den) (round32 b den) = true := by
  unfold round32
  exact roundTo_mono 24 925 OVF32 den (by decide) hden hab

theorem round64_ne_nan (num : Int) (den : Nat) : round64 num den ≠ FVal.nan := by
  unfold round64
  exact roundTo_ne_nan _ _ _ _ _

theorem round32_ne_nan (num : Int) (den : Nat) : round32 num den ≠ FVal.nan := by
  unfold round32
  exact roundTo_ne_nan _ _ _ _ _

/-- The conversion of a `double` to `float` is monotone. -/
theorem to32_mono {a b : FVal} (h : FVal.le a b = true) : FVal.le a.to32 b.to32 = true := by
  cases a with
  | fin m =>
    cases b with
    | fin n =>
      have hmn : m ≤ n := by simpa [FVal.le] using h
      exact round32_mono 1 (by decide) hmn
    | pinf => exact FVal.le_pinf (round32_ne_nan m 1)
    | ninf => simp [FVal.le] at h
    | nan => simp [FVal.le] at h
  | pinf =>
    cases b with
    | pinf => rfl
    | fin n => simp [FVal.le] at h
    | ninf => simp [FVal.le] at h
    | nan => simp [FVal.le] at h
  | ninf =>
    cases b with
    | fin n => exact FVal.ninf_le (round32_ne_nan n 1)
    | pinf => rfl
    | ninf => rfl
    | nan => simp [FVal.le] at h
  | nan => simp [FVal.le] at h

/-- Between two neighbouring multiples of `2 ^ j` with a full mantissa there is no
value of the format. -/
theorem rep_gap (p qmin n k j : Nat) (hp : 1 ≤ p)
    (hrep : n % 2 ^ quantumExp p qmin n = 0) (hk : 2 ^ (p - 1) ≤ k)
    (h1 : k * 2 ^ j < n) (h2 : n < (k + 1) * 2 ^ j) : False := by
  have hpow : 2 ^ (p - 1 + j) ≤ n := by
    rw [pow_add]
    exact le_of_lt (lt_of_le_of_lt (Nat.mul_le_mul_right _ hk) h1)
  have hlen : ¬ bitLen n ≤ p - 1 + j := by
    rw [bitLen_le_iff]
    omega
  have hq : j ≤ quantumExp p qmin n := by
    unfold quantumExp
    omega
  have hdvd : 2 ^ j ∣ n :=
    Dvd.dvd.trans (pow_dvd_pow 2 hq) (Nat.dvd_of_mod_eq_zero hrep)
  obtain ⟨m, hm⟩ := hdvd
  rw [hm, Nat.mul_comm (2 ^ j) m] at h1 h2
  have hpos : 0 < 2 ^ j := Nat.two_pow_pos j
  have h3 := Nat.lt_of_mul_lt_mul_right h1
  have h4 := Nat.lt_of_mul_lt_mul_right h2
  omega

/-- Multiplication of a `float` by `-1` negates it. -/
theorem F32.mul_neg_one_v (a : F32) : (F32.mul a (F32.ofInt (-1))).v = a.v.neg := by
  rw [F32.mulF_v]
  have h1 : (F32.ofInt (-1)).v = FVal.fin (-(ONE_UNITS : Int)) := by decide!
  rw [h1]
  have hU := ONE_UNITS_int_pos
  have hok := a.ok
  cases ha : a.v with
  | fin n =>
    rw [ha] at hok
    have hok2 := neg_inFormat 24 925 OVF32 (FVal.fin n) hok
    simp only [FVal.mul, FVal.neg]
    have hmul : n * -(ONE_UNITS : Int) = -n * (ONE_UNITS : Int) := by
      rw [Int.mul_neg, Int.neg_mul]
    rw [hmul]
    unfold round32
    rw [roundTo_scale_one 24 925 OVF32 (-n) ONE_UNITS ONE_UNITS_pos]
    exact round32_of_ok (-n) hok2
  | pinf =>
    simp only [FVal.mul, FVal.neg]
    rw [if_neg (by omega), if_pos (by omega)]
  | ninf =>
    simp only [FVal.mul, FVal.neg]
    rw [if_neg (by omega), if_pos (by omega)]
  | nan => rfl

/-- The product of the weight 0 and a finite `double` is 0. -/
theorem F64.mul_ofNat_zero (y : F64) (hy : y.isFinite = true) :
    F64.mul (F64.ofNat 0) y = F64.zero := by
  apply F64.ext
  rw [F64.mul_v, F64.ofNat_v_exact 0 (by decide)]
  unfold F64.isFinite at hy
  cases hv : y.v with
  | fin n =>
    simp only [FVal.mul, Nat.cast_zero, Int.zero_mul]
    unfold round64 roundTo
    simp only [Int.natAbs_zero, roundNat_zero, Nat.cast_zero, neg_zero, ite_self, lt_self_iff_false,
      if_false]
    rw [if_neg (not_le.mpr OVF64_pos)]
    rfl
  | pinf => rw [hv] at hy; exact absurd hy (by decide)
  | ninf => rw [hv] at hy; exact absurd hy (by decide)
  | nan => rw [hv] at hy; exact absurd hy (by decide)

/-! ### Exact products of short values -/

theorem bitLen_mul_le (W n : Nat) (hW : W < 2 ^ 32) : bitLen (W * n) ≤ 32 + bitLen n := by
  rw [bitLen_le_iff, pow_add]
  have hn := lt_two_pow_bitLen n
  calc W * n ≤ W * 2 ^ bitLen n := Nat.mul_le_mul_left W (le_of_lt hn)
    _ < 2 ^ 32 * 2 ^ bitLen n := Nat.mul_lt_mul_of_pos_right hW (Nat.two_pow_pos _)

/-- The product of an `unsigned int` and a short value is a `double`. -/
theorem isRep_mul_of_short (W : Nat) (n : Int) (hW : W < 2 ^ 32)
    (h : isRep 21 0 (2 ^ SHORT_EXP) n = true) :
    isRep 53 0 OVF64 ((W : Int) * n) = true := by
  unfold isRep at h ⊢
  simp only [Bool.and_eq_true, decide_eq_true_eq] at h ⊢
  obtain ⟨hdvd, hlt⟩ := h
  have habs : ((W : Int) * n).natAbs = W * n.natAbs := by
    rw [Int.natAbs_mul, Int.natAbs_ofNat]
  rw [habs]
  constructor
  · have hlen := bitLen_mul_le W n.natAbs hW
    have hq : quantumExp 53 0 (W * n.natAbs) ≤ quantumExp 21 0 n.natAbs := by
      unfold quantumExp
      omega
    exact Nat.mod_eq_zero_of_dvd
      (Dvd.dvd.trans (pow_dvd_pow 2 hq)
        (Dvd.dvd.mul_left (Nat.dvd_of_mod_eq_zero hdvd) W))
  · have h1 : W * n.natAbs ≤ 2 ^ 32 * n.natAbs := Nat.mul_le_mul_right _ (le_of_lt hW)
    have h2 : 2 ^ 32 * n.natAbs < 2 ^ 32 * 2 ^ SHORT_EXP :=
      Nat.mul_lt_mul_of_pos_left hlt (Nat.two_pow_pos 32)
    have h3 : 2 ^ 32 * 2 ^ SHORT_EXP = OVF64 := by
      have e : 32 + SHORT_EXP = OVF64_EXP := by decide
      unfold OVF64
      rw [← pow_add, e]
    rw [h3] at h2
    exact lt_of_le_of_lt h1 h2

theorem round64_mul_short (W : Nat) (n : Int) (hW : W < 2 ^ 32)
    (h : isRep 21 0 (2 ^ SHORT_EXP) n = true) :
    round64 ((W : Int) * n) 1 = FVal.fin ((W : Int) * n) := by
  unfold round64
  exact roundTo_of_isRep 53 0 OVF64 _ (isRep_mul_of_short W n hW h)

theorem round64_short (n : Int) (h : isRep 21 0 (2 ^ SHORT_EXP) n = true) :
    round64 n 1 = FVal.fin n := by
  have := round64_mul_short 1 n (by decide) h
  rw [Nat.cast_one, Int.one_mul] at this
  exact this

theorem fin_of_between {v : FVal} {a b : Int} (h1 : FVal.le (FVal.fin a) v = true)
    (h2 : FVal.le v (FVal.fin b) = true) : ∃ m : Int, v = FVal.fin m ∧ a ≤ m ∧ m ≤ b := by
  cases v with
  | fin m =>
    refine ⟨m, rfl, ?_, ?_⟩
    · simpa [FVal.le] using h1
    · simpa [FVal.le] using h2
  | pinf => simp [FVal.le] at h2
  | ninf => simp [FVal.le] at h1
  | nan => simp [FVal.le] at h1

/-- The product of a weight and a `double`, as `operator+` computes it. -/
theorem mul_ofNat_fin (w : Nat) (x : F64) (n : Int) (hw : w < UINT_RANGE)
    (hx : x.v = FVal.fin n) :
    (F64.mul (F64.ofNat w) x).v = round64 ((w : Int) * n) 1 := by
  rw [F64.mul_v, F64.ofNat_v_exact w hw, hx]
  simp only [FVal.mul]
  have e : (w : Int) * (ONE_UNITS : Int) * n = (w : Int) * n * (ONE_UNITS : Int) := by
    rw [Int.mul_assoc, Int.mul_comm (ONE_UNITS : Int) n, Int.mul_assoc]
  rw [e]
  unfold round64
  exact roundTo_scale_one 53 0 OVF64 _ ONE_UNITS ONE_UNITS_pos

/-- The quotient of a `double` by a positive weight, as `operator+` computes it. -/
theorem div_ofNat_fin (x : F64) (m : Int) (s : Nat) (hs : s < UINT_RANGE) (hpos : 0 < s)
    (hx : x.v = FVal.fin m) :
    (F64.div x (F64.ofNat s)).v = round64 m s := by
  rw [F64.div_v, F64.ofNat_v_exact s hs, hx]
  have hU := ONE_UNITS_int_pos
  have hsU : (0 : Int) < (s : Int) * (ONE_UNITS : Int) :=
    Int.mul_pos (Int.natCast_pos.mpr hpos) hU
  have hnat : ((s : Int) * (ONE_UNITS : Int)).natAbs = s * ONE_UNITS := by
    rw [Int.natAbs_mul, Int.natAbs_ofNat, Int.natAbs_ofNat]
  simp only [FVal.div, if_neg (ne_of_gt hsU), Int.sign_eq_one_of_pos hsU, Int.mul_one, hnat]
  unfold round64
  exact roundTo_scale 53 0 OVF64 m s ONE_UNITS ONE_UNITS_pos

/-- The weighted mean of `operator+` stays between two short bounds that hold for
the values of positive weight, the values of weight 0 being finite. -/
theorem weightedMean_within (wa wb : Nat) (xa xb lo hi : F64)
    (hlt : wa + wb < UINT_RANGE) (hpos : 0 < wa + wb)
    (hlo : lo.isShort = true) (hhi : hi.isShort = true)
    (ha : 0 < wa → F64.le lo xa = true ∧ F64.le xa hi = true)
    (hb : 0 < wb → F64.le lo xb = true ∧ F64.le xb hi = true)
    (ha0 : wa = 0 → xa.isFinite = true) (hb0 : wb = 0 → xb.isFinite = true) :
    F64.le lo (weightedMean wa xa wb xb (wa + wb)) = true ∧
      F64.le (weightedMean wa xa wb xb (wa + wb)) hi = true := by
  -- the bounds are finite
  obtain ⟨nlo, hvlo, hrlo⟩ : ∃ n, lo.v = FVal.fin n ∧ isRep 21 0 (2 ^ SHORT_EXP) n = true := by
    unfold F64.isShort at hlo
    cases hv : lo.v with
    | fin n => rw [hv] at hlo; exact ⟨n, rfl, hlo⟩
    | pinf => rw [hv] at hlo; exact absurd hlo (by decide)
    | ninf => rw [hv] at hlo; exact absurd hlo (by decide)
    | nan => rw [hv] at hlo; exact absurd hlo (by decide)
  obtain ⟨nhi, hvhi, hrhi⟩ : ∃ n, hi.v = FVal.fin n ∧ isRep 21 0 (2 ^ SHORT_EXP) n = true := by
    unfold F64.isShort at hhi
    cases hv : hi.v with
    | fin n => rw [hv] at hhi; exact ⟨n, rfl, hhi⟩
    | pinf => rw [hv] at hhi; exact absurd hhi (by decide)
    | ninf => rw [hv] at hhi; exact absurd hhi (by decide)
    | nan => rw [hv] at hhi; exact absurd hhi (by decide)
  have hwa : wa < UINT_RANGE := by omega
  have hwb : wb < UINT_RANGE := by omega
  have hwa2 : wa < 2 ^ 32 := hwa
  have hwb2 : wb < 2 ^ 32 := hwb
  have hs2 : wa + wb < 2 ^ 32 := hlt
  -- each product lies between the exact products of the bounds
  have hprod : ∀ (w : Nat) (x : F64), w < UINT_RANGE →
      (0 < w → F64.le lo x = true ∧ F64.le x hi = true) → (w = 0 → x.isFinite = true) →
      ∃ m : Int, (F64.mul (F64.ofNat w) x).v = FVal.fin m ∧
        (w : Int) * nlo ≤ m ∧ m ≤ (w : Int) * nhi := by
    intro w x hw hx hx0
    rcases Nat.eq_zero_or_pos w with h0 | hp
    · subst h0
      refine ⟨0, ?_, by simp, by simp⟩
      rw [F64.mul_ofNat_zero x (hx0 rfl)]
      rfl
    · obtain ⟨h1, h2⟩ := hx hp
      unfold F64.le at h1 h2
      rw [hvlo] at h1
      rw [hvhi] at h2
      obtain ⟨n, hn, hn1, hn2⟩ := fin_of_between h1 h2
      have hwpos : (0 : Int) ≤ (w : Int) := Int.natCast_nonneg w
      have hv := mul_ofNat_fin w x n hw hn
      have hl := round64_mono 1 (by decide) (Int.mul_le_mul_of_nonneg_left hn1 hwpos)
      have hr := round64_mono 1 (by decide) (Int.mul_le_mul_of_nonneg_left hn2 hwpos)
      rw [round64_mul_short w nlo hw hrlo] at hl
      rw [round64_mul_short w nhi hw hrhi] at hr
      rw [← hv] at hl hr
      exact fin_of_between hl hr
  obtain ⟨ma, hma, hma1, hma2⟩ := hprod wa xa hwa ha ha0
  obtain ⟨mb, hmb, hmb1, hmb2⟩ := hprod wb xb hwb hb hb0
  -- the sum lies between the exact sums
  have hsumv : (F64.add (F64.mul (F64.ofNat wa) xa) (F64.mul (F64.ofNat wb) xb)).v =
      round64 (ma + mb) 1 := by
    rw [F64.add_v, hma, hmb]
    rfl
  have hcast : ((wa + wb : Nat) : Int) = (wa : Int) + (wb : Int) := Nat.cast_add wa wb
  have hslo : ((wa + wb : Nat) : Int) * nlo ≤ ma + mb := by
    rw [hcast, Int.add_mul]
    omega
  have hshi : ma + mb ≤ ((wa + wb : Nat) : Int) * nhi := by
    rw [hcast, Int.add_mul]
    omega
  have hl := round64_mono 1 (by decide) hslo
  have hr := round64_mono 1 (by decide) hshi
  rw [round64_mul_short (wa + wb) nlo hs2 hrlo] at hl
  rw [round64_mul_short (wa + wb) nhi hs2 hrhi] at hr
  rw [← hsumv] at hl hr
  obtain ⟨m, hm, hm1, hm2⟩ := fin_of_between hl hr
  -- the quotient lies between the bounds
  have hq := div_ofNat_fin _ m (wa + wb) hlt hpos hm
  have hlo2 : round64 (((wa + wb : Nat) : Int) * nlo) (wa + wb) = FVal.fin nlo := by
    have h := roundTo_scale 53 0 OVF64 nlo 1 (wa + wb) hpos
    rw [Nat.one_mul, Int.mul_comm] at h
    unfold round64
    rw [h]
    exact round64_short nlo hrlo
  have hhi2 : round64 (((wa + wb : Nat) : Int) * nhi) (wa + wb) = FVal.fin nhi := by
    have h := roundTo_scale 53 0 OVF64 nhi 1 (wa + wb) hpos
    rw [Nat.one_mul, Int.mul_comm] at h
    unfold round64
    rw [h]
    exact round64_short nhi hrhi
  have hl3 := round64_mono (wa + wb) hpos hm1
  have hr3 := round64_mono (wa + wb) hpos hm2
  rw [hlo2] at hl3
  rw [hhi2] at hr3
  unfold weightedMean F64.le
  rw [hq, hvlo, hvhi]
  exact ⟨hl3, hr3⟩

/-! ### Values of the constants of the program

The values below are in units of `2 ^ (-1074)`: the `double` 0.65, for instance, is
`5854679515581645 * 2 ^ (-53)`, and `0.65f` is `5452595 * 2 ^ (-23)`. -/

/-- The `double` and `float` constants that the program uses, as binary fractions, and
the sum `0.1 + 0.2` of two `double`s. -/
theorem constant_values :
    (F64.lit 2 10).v = FVal.fin (3602879701896397 * 2 ^ 1020) ∧
      (F64.lit 4 10).v = FVal.fin (3602879701896397 * 2 ^ 1021) ∧
      (F64.lit 65 100).v = FVal.fin (5854679515581645 * 2 ^ 1021) ∧
      (F64.lit 7 10).v = FVal.fin (3152519739159347 * 2 ^ 1022) ∧
      (F64.lit 65 100).toF32.v = FVal.fin (5452595 * 2 ^ 1051) ∧
      STEER_POS.v = FVal.fin (11744051 * 2 ^ 1050) ∧
      STEER_NEG.v = FVal.fin (-(11744051 * 2 ^ 1050)) ∧
      ClosestScan.init.min_z.v = FVal.fin (1000000 * 2 ^ 1074) ∧
      (F32.ofInt (-1)).v = FVal.fin (-(2 ^ 1074)) ∧
      (F64.add (F64.lit 1 10) (F64.lit 2 10)).v = FVal.fin (1351079888211149 * 2 ^ 1022) := by
  decide!

/-! ## The program -/

/-! ### Shared lemmas on `MotionVector::operator+` -/

theorem uadd_of_lt {a b : Nat} (h : a + b < UINT_RANGE) : uadd a b = a + b := by
  unfold uadd
  exact Nat.mod_eq_of_lt h

theorem uadd_lt (a b : Nat) : uadd a b < UINT_RANGE :=
  Nat.mod_lt _ (by decide)

/-- When the weights do not overflow, the embedded `operator+` is the reference
`combine`. -/
theorem add_of_lt (a b : MotionVector) (h : a.weight + b.weight < UINT_RANGE) :
    MotionVector.add a b = combineRef a b := by
  unfold MotionVector.add combineRef weightedMean
  rw [uadd_of_lt h]
  by_cases h0 : a.weight + b.weight = 0
  · simp [h0, MotionVector.default, MotionVector.new, zeroIntent]
  · simp [h0]

/-- With every division checked, `operator+` still returns its result. -/
theorem addChecked_eq_some (a b : MotionVector) :
    MotionVector.addChecked a b = some (MotionVector.add a b) := by
  unfold MotionVector.add MotionVector.addChecked divChecked weightedMean
  by_cases h : uadd a.weight b.weight = 0
  · simp [h]
  · have hq : (F64.ofNat (uadd a.weight b.weight)).v ≠ FVal.fin 0 :=
      F64.ofNat_ne_zero _ (uadd_lt _ _) h
    simp [h, hq]

theorem add_weight_of_lt (a b : MotionVector) (h : a.weight + b.weight < UINT_RANGE) :
    (MotionVector.add a b).weight = a.weight + b.weight := by
  rw [add_of_lt a b h]
  unfold combineRef
  split_ifs with h0
  · rw [h0]
    rfl
  · rfl

/-- The sum of a weightless vector of zero speeds and a vector `x`. -/
theorem add_zeroIntent_left (x : MotionVector) (hx : x.weight < UINT_RANGE) :
    MotionVector.add zeroIntent x =
      if x.weight = 0 then zeroIntent
      else
        { twist :=
            { linear_x :=
                F64.div (F64.mul (F64.ofNat x.weight) x.twist.linear_x) (F64.ofNat x.weight)
              angular_z :=
                F64.div (F64.mul (F64.ofNat x.weight) x.twist.angular_z)
                  (F64.ofNat x.weight) }
          weight := x.weight } := by
  have h0 : zeroIntent.weight + x.weight < UINT_RANGE := by
    show 0 + x.weight < UINT_RANGE
    omega
  rw [add_of_lt zeroIntent x h0]
  unfold combineRef
  have hw : zeroIntent.weight + x.weight = x.weight := Nat.zero_add _
  have hl : zeroIntent.twist.linear_x = F64.zero := rfl
  have ha : zeroIntent.twist.angular_z = F64.zero := rfl
  have hz : zeroIntent.weight = 0 := rfl
  rw [hw, hl, ha, hz, F64.mul_ofNat_zero_zero, F64.zero_add, F64.zero_add]

/-! ### Bounds on the blend -/

theorem F64.le_antisymm {x y : F64} (h1 : F64.le x y = true) (h2 : F64.le y x = true) :
    x = y := by
  apply F64.ext
  unfold F64.le at h1 h2
  cases hx : x.v <;> cases hy : y.v <;> rw [hx, hy] at h1 h2 <;>
    simp [FVal.le] at h1 h2 ⊢
  omega

theorem F64.le_refl_of_isShort {x : F64} (h : x.isShort = true) : F64.le x x = true := by
  unfold F64.le
  apply FVal.le_refl
  unfold F64.isShort at h
  cases hv : x.v <;> rw [hv] at h <;> simp at h ⊢

/-- The sum `a + b` proposes speeds within short bounds when `a` and `b` do and their
weights do not overflow. -/
theorem add_proposesWithin (a b : MotionVector) (hlt : a.weight + b.weight < UINT_RANGE)
    (lo hi lo2 hi2 : F64)
    (hlo : lo.isShort = true) (hhi : hi.isShort = true)
    (hlo2 : lo2.isShort = true) (hhi2 : hi2.isShort = true)
    (ha : a.proposesWithin lo hi lo2 hi2 = true)
    (hb : b.proposesWithin lo hi lo2 hi2 = true) :
    (MotionVector.add a b).proposesWithin lo hi lo2 hi2 = true := by
  unfold MotionVector.proposesWithin Twist.within at ha hb ⊢
  rw [add_weight_of_lt a b hlt]
  by_cases h0 : a.weight + b.weight = 0
  · rw [if_pos h0]
    have hn : ¬ uadd a.weight b.weight ≠ 0 := by
      rw [uadd_of_lt hlt, h0]
      simp
    unfold MotionVector.add
    simp only [if_neg hn]
    rfl
  · rw [if_neg h0]
    have hne : uadd a.weight b.weight ≠ 0 := by
      rw [uadd_of_lt hlt]
      exact h0
    have hpos : 0 < a.weight + b.weight := Nat.pos_of_ne_zero h0
    have hA : (0 < a.weight →
        (F64.le lo a.twist.linear_x = true ∧ F64.le a.twist.linear_x hi = true) ∧
          (F64.le lo2 a.twist.angular_z = true ∧ F64.le a.twist.angular_z hi2 = true)) ∧
        (a.weight = 0 →
          a.twist.linear_x.isFinite = true ∧ a.twist.angular_z.isFinite = true) := by
      constructor
      · intro hw
        rw [if_neg (by omega)] at ha
        simpa [Bool.and_eq_true] using ha
      · intro hw
        rw [if_pos hw] at ha
        simpa [Bool.and_eq_true] using ha
    have hB : (0 < b.weight →
        (F64.le lo b.twist.linear_x = true ∧ F64.le b.twist.linear_x hi = true) ∧
          (F64.le lo2 b.twist.angular_z = true ∧ F64.le b.twist.angular_z hi2 = true)) ∧
        (b.weight = 0 →
          b.twist.linear_x.isFinite = true ∧ b.twist.angular_z.isFinite = true) := by
      constructor
      · intro hw
        rw [if_neg (by omega)] at hb
        simpa [Bool.and_eq_true] using hb
      · intro hw
        rw [if_pos hw] at hb
        simpa [Bool.and_eq_true] using hb
    have h1 := weightedMean_within a.weight b.weight a.twist.linear_x b.twist.linear_x lo hi
      hlt hpos hlo hhi (fun h => (hA.1 h).1) (fun h => (hB.1 h).1) (fun h => (hA.2 h).1)
      (fun h => (hB.2 h).1)
    have h2 := weightedMean_within a.weight b.weight a.twist.angular_z b.twist.angular_z
      lo2 hi2 hlt hpos hlo2 hhi2 (fun h => (hA.1 h).2) (fun h => (hB.1 h).2)
      (fun h => (hA.2 h).2) (fun h => (hB.2 h).2)
    unfold MotionVector.add
    simp only [if_pos hne]
    rw [uadd_of_lt hlt]
    simp only [Bool.and_eq_true]
    exact ⟨h1, h2⟩

/-- An intent of positive weight that proposes speeds within bounds has them within
the bounds. -/
theorem within_of_proposesWithin (v : MotionVector) (lo hi lo2 hi2 : F64)
    (hpos : 0 < v.weight) (h : v.proposesWithin lo hi lo2 hi2 = true) :
    v.twist.within lo hi lo2 hi2 = true := by
  unfold MotionVector.proposesWithin at h
  rw [if_neg (by omega)] at h
  exact h

/-- A twist within bounds that coincide holds these bounds. -/
theorem twist_eq_of_within (t : Twist) (x x2 : F64) (h : t.within x x x2 x2 = true) :
    t = { linear_x := x, angular_z := x2 } := by
  unfold Twist.within at h
  simp only [Bool.and_eq_true] at h
  obtain ⟨⟨h1, h2⟩, h3, h4⟩ := h
  cases t with
  | mk l a =>
    simp only at h1 h2 h3 h4
    rw [F64.le_antisymm h2 h1, F64.le_antisymm h4 h3]

/-! ### Claims on the motion blender -/

/-- Claim C1, as stated, fails on the code, in two ways.  For the weights `2 ^ 32 - 1`
and `1` (both linear speeds 1.0) the `unsigned int` sum of the weights wraps to 0, so
`operator+` returns the zero intent, while the reference weighted mean has weight
`2 ^ 32` and linear speed 1.0.  And the formula is evaluated in `double` arithmetic,
not over the reals: for two intents of linear speed 0.1 and weights 1 and 2, whose
weighted mean is 0.1, the result has linear speed 0.10000000000000002. -/
theorem add_differs_from_reference :
    (MotionVector.add (MotionVector.new (F64.lit 1 1) F64.zero 4294967295)
        (MotionVector.new (F64.lit 1 1) F64.zero 1) = zeroIntent ∧
      (combineRef (MotionVector.new (F64.lit 1 1) F64.zero 4294967295)
        (MotionVector.new (F64.lit 1 1) F64.zero 1)).weight = 4294967296 ∧
      (combineRef (MotionVector.new (F64.lit 1 1) F64.zero 4294967295)
        (MotionVector.new (F64.lit 1 1) F64.zero 1)).twist.linear_x = F64.lit 1 1 ∧
      MotionVector.add (MotionVector.new (F64.lit 1 1) F64.zero 4294967295)
          (MotionVector.new (F64.lit 1 1) F64.zero 1) ≠
        combineRef (MotionVector.new (F64.lit 1 1) F64.zero 4294967295)
          (MotionVector.new (F64.lit 1 1) F64.zero 1)) ∧
      ((MotionVector.add (MotionVector.new (F64.lit 1 10) F64.zero 1)
          (MotionVector.new (F64.lit 1 10) F64.zero 2)).twist.linear_x
          = F64.lit 10000000000000002 100000000000000000 ∧
        (MotionVector.add (MotionVector.new (F64.lit 1 10) F64.zero 1)
          (MotionVector.new (F64.lit 1 10) F64.zero 2)).twist.linear_x ≠ F64.lit 1 10) := by
  decide!

/-- Claim C1, amended.  For every pair of intents whose weights sum to less than
`2 ^ 32`, `MotionVector::operator+` equals the reference `combine` evaluated in `double`
arithmetic: the zero intent when the sum of the weights is 0, otherwise the weighted
mean `(a.weight * a.linear + b.weight * b.linear) / (a.weight + b.weight)` in which each
product, the sum and the quotient are rounded to the nearest `double`, the angular rate
likewise, with weight `a.weight + b.weight`.  It executes no division by zero: with
every division checked it still returns that result. -/
theorem add_eq_combineRef (a b : MotionVector) (h : a.weight + b.weight < 2 ^ 32) :
    MotionVector.add a b = combineRef a b ∧
      MotionVector.addChecked a b = some (combineRef a b) ∧
      (a.weight + b.weight = 0 → MotionVector.add a b = zeroIntent) ∧
      (a.weight + b.weight ≠ 0 →
        (MotionVector.add a b).twist.linear_x =
            F64.div
              (F64.add (F64.mul (F64.ofNat a.weight) a.twist.linear_x)
                (F64.mul (F64.ofNat b.weight) b.twist.linear_x))
              (F64.ofNat (a.weight + b.weight)) ∧
          (MotionVector.add a b).twist.angular_z =
            F64.div
              (F64.add (F64.mul (F64.ofNat a.weight) a.twist.angular_z)
                (F64.mul (F64.ofNat b.weight) b.twist.angular_z))
              (F64.ofNat (a.weight + b.weight)) ∧
          (MotionVector.add a b).weight = a.weight + b.weight) := by
  have hr := add_of_lt a b h
  refine ⟨hr, ?_, ?_, ?_⟩
  · rw [addChecked_eq_some, hr]
  · intro h0
    rw [hr]
    simp [combineRef, h0]
  · intro h0
    rw [hr]
    simp [combineRef, h0]

/-- Claim C1, amended, at the goal intent `(0.2, 0.0, w=1)` and the target intent
`(0.4, 0.7, w=3)`. -/
theorem add_eq_combineRef_witness :
    MotionVector.add (MotionVector.new (F64.lit 2 10) F64.zero 1)
        (MotionVector.new (F64.lit 4 10) (F64.lit 7 10) 3) =
      combineRef (MotionVector.new (F64.lit 2 10) F64.zero 1)
        (MotionVector.new (F64.lit 4 10) (F64.lit 7 10) 3) :=
  (add_eq_combineRef (MotionVector.new (F64.lit 2 10) F64.zero 1)
    (MotionVector.new (F64.lit 4 10) (F64.lit 7 10) 3) (by decide)).1

/-- Claim C3.  `operator+` is commutative: `a + b` and `b + a` have the same linear
speed, angular rate and weight, for all intents `a` and `b`. -/
theorem add_comm_intents (a b : MotionVector) :
    MotionVector.add a b = MotionVector.add b a := by
  unfold MotionVector.add uadd weightedMean
  rw [Nat.add_comm b.weight a.weight,
    F64.add_comm (F64.mul (F64.ofNat b.weight) b.twist.linear_x),
    F64.add_comm (F64.mul (F64.ofNat b.weight) b.twist.angular_z)]

/-- Claim C2, as stated, fails on the code, in two ways.  With weights `2 ^ 32 - 1`, `1`
and `1` the sum of the first two weights wraps to 0 and the two groupings give the
linear speeds 5 and 4294967300.  Without any overflow, for three intents of linear
speed 0.1 and weights 1, 2 and 3 the two groupings give different `double`s
(0.10000000000000002 and 0.09999999999999999), because each step rounds. -/
theorem add_not_assoc :
    ((MotionVector.add (MotionVector.add (MotionVector.new (F64.lit 1 1) F64.zero 4294967295)
          (MotionVector.new F64.zero F64.zero 1))
          (MotionVector.new (F64.lit 5 1) F64.zero 1)).twist.linear_x = F64.lit 5 1 ∧
      (MotionVector.add (MotionVector.new (F64.lit 1 1) F64.zero 4294967295)
          (MotionVector.add (MotionVector.new F64.zero F64.zero 1)
            (MotionVector.new (F64.lit 5 1) F64.zero 1))).twist.linear_x
        = F64.lit 4294967300 1) ∧
      ((MotionVector.add (MotionVector.add (MotionVector.new (F64.lit 1 10) F64.zero 1)
          (MotionVector.new (F64.lit 1 10) F64.zero 2))
          (MotionVector.new (F64.lit 1 10) F64.zero 3)).twist.linear_x
        = F64.lit 10000000000000002 100000000000000000 ∧
      (MotionVector.add (MotionVector.new (F64.lit 1 10) F64.zero 1)
          (MotionVector.add (MotionVector.new (F64.lit 1 10) F64.zero 2)
            (MotionVector.new (F64.lit 1 10) F64.zero 3))).twist.linear_x
        = F64.lit 9999999999999999 100000000000000000 ∧
      F64.lit 10000000000000002 100000000000000000 ≠
        F64.lit 9999999999999999 100000000000000000) := by
  decide!

/-- Claim C2, amended.  Whenever the three weights together fit an `unsigned int`, the
two groupings `(a + b) + c` and `a + (b + c)` have the same weight, the sum of the three
weights.  Their linear speeds and angular rates are the same weighted mean rounded
along two different paths and are not equal in general; when the weights are not all 0,
both lie between any two short bounds (finite `double`s of at most 21 significant bits
and magnitude below `2 ^ 992`) that hold for the inputs of positive weight, the inputs
of weight 0 holding finite numbers; so the two groupings have equal speeds when the
inputs of positive weight agree on short speeds. -/
theorem add_assoc_intents (a b c : MotionVector) (lo hi lo2 hi2 : F64)
    (h : a.weight + b.weight + c.weight < 2 ^ 32) :
    ((MotionVector.add (MotionVector.add a b) c).weight = a.weight + b.weight + c.weight ∧
      (MotionVector.add a (MotionVector.add b c)).weight = a.weight + b.weight + c.weight ∧
      (MotionVector.add (MotionVector.add a b) c).weight
        = (MotionVector.add a (MotionVector.add b c)).weight) ∧
      (0 < a.weight + b.weight + c.weight →
        lo.isShort = true → hi.isShort = true → lo2.isShort = true → hi2.isShort = true →
        a.proposesWithin lo hi lo2 hi2 = true → b.proposesWithin lo hi lo2 hi2 = true →
        c.proposesWithin lo hi lo2 hi2 = true →
        (MotionVector.add (MotionVector.add a b) c).twist.within lo hi lo2 hi2 = true ∧
          (MotionVector.add a (MotionVector.add b c)).twist.within lo hi lo2 hi2 = true) ∧
      (0 < a.weight + b.weight + c.weight →
        lo.isShort = true → lo2.isShort = true →
        a.proposesWithin lo lo lo2 lo2 = true → b.proposesWithin lo lo lo2 lo2 = true →
        c.proposesWithin lo lo lo2 lo2 = true →
        (MotionVector.add (MotionVector.add a b) c).twist
          = (MotionVector.add a (MotionVector.add b c)).twist) := by
  have h1 : a.weight + b.weight < UINT_RANGE := by
    unfold UINT_RANGE
    omega
  have h2 : b.weight + c.weight < UINT_RANGE := by
    unfold UINT_RANGE
    omega
  have w1 := add_weight_of_lt a b h1
  have w2 := add_weight_of_lt b c h2
  have h3 : (MotionVector.add a b).weight + c.weight < UINT_RANGE := by
    rw [w1]
    exact h
  have h4 : a.weight + (MotionVector.add b c).weight < UINT_RANGE := by
    rw [w2]
    unfold UINT_RANGE
    omega
  have w3 := add_weight_of_lt (MotionVector.add a b) c h3
  have w4 := add_weight_of_lt a (MotionVector.add b c) h4
  have hboth : ∀ l u l2 u2 : F64, 0 < a.weight + b.weight + c.weight →
      l.isShort = true → u.isShort = true → l2.isShort = true → u2.isShort = true →
      a.proposesWithin l u l2 u2 = true → b.proposesWithin l u l2 u2 = true →
      c.proposesWithin l u l2 u2 = true →
      (MotionVector.add (MotionVector.add a b) c).twist.within l u l2 u2 = true ∧
        (MotionVector.add a (MotionVector.add b c)).twist.within l u l2 u2 = true := by
    intro l u l2 u2 hpos hl hu hl2 hu2 ha hb hc
    have hab := add_proposesWithin a b h1 l u l2 u2 hl hu hl2 hu2 ha hb
    have hbc := add_proposesWithin b c h2 l u l2 u2 hl hu hl2 hu2 hb hc
    have hL := add_proposesWithin (MotionVector.add a b) c h3 l u l2 u2 hl hu hl2 hu2 hab hc
    have hR := add_proposesWithin a (MotionVector.add b c) h4 l u l2 u2 hl hu hl2 hu2 ha hbc
    exact ⟨within_of_proposesWithin _ l u l2 u2 (by rw [w3, w1]; exact hpos) hL,
      within_of_proposesWithin _ l u l2 u2 (by rw [w4, w2]; omega) hR⟩
  refine ⟨?_, hboth lo hi lo2 hi2, ?_⟩
  · rw [w3, w4, w1, w2]
    exact ⟨rfl, by omega, by omega⟩
  · intro hpos hl hl2 ha hb hc
    obtain ⟨hL, hR⟩ := hboth lo lo lo2 lo2 hpos hl hl hl2 hl2 ha hb hc
    rw [twist_eq_of_within _ lo lo2 hL, twist_eq_of_within _ lo lo2 hR]

/-- Claim C2, amended, at the goal intent `(0.2, 0, weight 1)`, the target intent
`(0.4, 0.7, weight 3)` and the avoidance intent `(0.25, -0.5, weight 1000)`: both
groupings have weight 1004, a linear speed between 0.125 and 0.5 and an angular rate
between -1 and 1. -/
theorem add_assoc_intents_witness :
    (MotionVector.add (MotionVector.add (MotionVector.new (F64.lit 2 10) F64.zero 1)
        (MotionVector.new (F64.lit 4 10) (F64.lit 7 10) 3))
        (MotionVector.new (F64.lit 25 100) (F64.neg (F64.lit 5 10)) 1000)).weight
        = 1 + 3 + 1000 ∧
      ((MotionVector.add (MotionVector.add (MotionVector.new (F64.lit 2 10) F64.zero 1)
          (MotionVector.new (F64.lit 4 10) (F64.lit 7 10) 3))
          (MotionVector.new (F64.lit 25 100) (F64.neg (F64.lit 5 10)) 1000)).twist.within
          (F64.lit 125 1000) (F64.lit 5 10) (F64.neg (F64.lit 1 1)) (F64.lit 1 1) = true ∧
        (MotionVector.add (MotionVector.new (F64.lit 2 10) F64.zero 1)
          (MotionVector.add (MotionVector.new (F64.lit 4 10) (F64.lit 7 10) 3)
            (MotionVector.new (F64.lit 25 100) (F64.neg (F64.lit 5 10)) 1000))).twist.within
          (F64.lit 125 1000) (F64.lit 5 10) (F64.neg (F64.lit 1 1)) (F64.lit 1 1) = true) :=
  ⟨(add_assoc_intents (MotionVector.new (F64.lit 2 10) F64.zero 1)
      (MotionVector.new (F64.lit 4 10) (F64.lit 7 10) 3)
      (MotionVector.new (F64.lit 25 100) (F64.neg (F64.lit 5 10)) 1000)
      (F64.lit 125 1000) (F64.lit 5 10) (F64.neg (F64.lit 1 1)) (F64.lit 1 1)
      (by decide)).1.1,
    (add_assoc_intents (MotionVector.new (F64.lit 2 10) F64.zero 1)
      (MotionVector.new (F64.lit 4 10) (F64.lit 7 10) 3)
      (MotionVector.new (F64.lit 25 100) (F64.neg (F64.lit 5 10)) 1000)
      (F64.lit 125 1000) (F64.lit 5 10) (F64.neg (F64.lit 1 1)) (F64.lit 1 1)
      (by decide)).2.1 (by decide) (by decide!) (by decide!) (by decide!) (by decide!)
      (by decide!) (by decide!) (by decide!)⟩

/-- Claim C4, as stated, fails on the code, in two ways.  For the weightless intent
`(1.0, 0.5, weight 0)` the sum with the reset intent is the zero intent, not that
intent.  For the intent `(0.4, 0.7, weight 3)` the sum has linear speed
0.4000000000000001 and angular rate 0.6999999999999998: the product by the weight and
the division by it both round. -/
theorem add_reset_left_not_identity :
    (MotionVector.add (MotionVector.reset MotionVector.default)
          (MotionVector.new (F64.lit 1 1) (F64.lit 5 10) 0) = zeroIntent ∧
        MotionVector.add (MotionVector.reset MotionVector.default)
          (MotionVector.new (F64.lit 1 1) (F64.lit 5 10) 0)
          ≠ MotionVector.new (F64.lit 1 1) (F64.lit 5 10) 0) ∧
      (MotionVector.add (MotionVector.reset MotionVector.default)
          (MotionVector.new (F64.lit 4 10) (F64.lit 7 10) 3) =
          MotionVector.new (F64.lit 4000000000000001 10000000000000000)
            (F64.lit 6999999999999998 10000000000000000) 3 ∧
        MotionVector.add (MotionVector.reset MotionVector.default)
          (MotionVector.new (F64.lit 4 10) (F64.lit 7 10) 3)
          ≠ MotionVector.new (F64.lit 4 10) (F64.lit 7 10) 3) := by
  decide!

/-- Claim C4, amended.  For every intent `x` whose weight fits an `unsigned int`, the
sum of the reset intent and `x` is the zero intent when `x` has weight 0; otherwise it
has the weight of `x`, and its linear speed and angular rate are those of `x`
multiplied by the weight and divided by it again in `double` arithmetic, each
operation rounding: the sum is exactly `x` when the weight is 1, and also when both
speeds of `x` are short `double`s (finite, at most 21 significant bits, magnitude below
`2 ^ 992`). -/
theorem add_reset_left (v x : MotionVector) (hx : x.weight < 2 ^ 32) :
    (x.weight = 0 → MotionVector.add (MotionVector.reset v) x = zeroIntent) ∧
      (x.weight ≠ 0 →
        (MotionVector.add (MotionVector.reset v) x).weight = x.weight ∧
          (MotionVector.add (MotionVector.reset v) x).twist.linear_x =
            F64.div (F64.mul (F64.ofNat x.weight) x.twist.linear_x) (F64.ofNat x.weight) ∧
          (MotionVector.add (MotionVector.reset v) x).twist.angular_z =
            F64.div (F64.mul (F64.ofNat x.weight) x.twist.angular_z) (F64.ofNat x.weight)) ∧
      (x.weight = 1 → MotionVector.add (MotionVector.reset v) x = x) ∧
      (x.weight ≠ 0 → x.twist.linear_x.isShort = true → x.twist.angular_z.isShort = true →
        MotionVector.add (MotionVector.reset v) x = x) := by
  have h := add_zeroIntent_left x hx
  have hz : MotionVector.reset v = zeroIntent := rfl
  rw [hz]
  refine ⟨?_, ?_, ?_, ?_⟩
  · intro h0
    rw [h, if_pos h0]
  · intro h0
    rw [h, if_neg h0]
    simp only [and_self]
  · intro h1
    rw [h, if_neg (by omega), h1, F64.one_mul, F64.one_mul, F64.div_one, F64.div_one]
    cases x with
    | mk twist weight =>
      cases twist
      simp only at h1
      subst h1
      rfl
  · intro h0 hl ha
    have hlt : zeroIntent.weight + x.weight < UINT_RANGE := by
      show 0 + x.weight < UINT_RANGE
      rw [Nat.zero_add]
      exact hx
    have hzero : zeroIntent.proposesWithin x.twist.linear_x x.twist.linear_x
        x.twist.angular_z x.twist.angular_z = true := rfl
    have hself : x.proposesWithin x.twist.linear_x x.twist.linear_x
        x.twist.angular_z x.twist.angular_z = true := by
      unfold MotionVector.proposesWithin Twist.within
      rw [if_neg h0]
      simp only [Bool.and_eq_true, and_self]
      exact ⟨F64.le_refl_of_isShort hl, F64.le_refl_of_isShort ha⟩
    have hsum := add_proposesWithin zeroIntent x hlt _ _ _ _ hl hl ha ha hzero hself
    have hw : (MotionVector.add zeroIntent x).weight = x.weight := by
      rw [add_weight_of_lt zeroIntent x hlt]
      exact Nat.zero_add _
    have hpos : 0 < (MotionVector.add zeroIntent x).weight := by
      rw [hw]
      exact Nat.pos_of_ne_zero h0
    have ht := twist_eq_of_within _ _ _ (within_of_proposesWithin _ _ _ _ _ hpos hsum)
    cases hx2 : MotionVector.add zeroIntent x with
    | mk twist weight =>
      rw [hx2] at ht hw
      simp only at ht hw
      cases x with
      | mk xt xw =>
        cases xt
        simp only at ht hw
        rw [ht, hw]

/-- Claim C4, amended, at the goal intent `(0.2, 0.0, weight 1)` and at the intent
`(0.5, -1.0, weight 3)`, whose speeds are short. -/
theorem add_reset_left_witness :
    MotionVector.add (MotionVector.reset MotionVector.default)
        (MotionVector.new (F64.lit 2 10) F64.zero 1)
      = MotionVector.new (F64.lit 2 10) F64.zero 1 ∧
    MotionVector.add (MotionVector.reset MotionVector.default)
        (MotionVector.new (F64.lit 5 10) (F64.neg (F64.lit 1 1)) 3)
      = MotionVector.new (F64.lit 5 10) (F64.neg (F64.lit 1 1)) 3 :=
  ⟨(add_reset_left MotionVector.default (MotionVector.new (F64.lit 2 10) F64.zero 1)
      (by decide)).2.2.1 rfl,
    (add_reset_left MotionVector.default
      (MotionVector.new (F64.lit 5 10) (F64.neg (F64.lit 1 1)) 3)
      (by decide)).2.2.2 (by decide) (by decide!) (by decide!)⟩

/-- A weightless vector with finite speeds contributes to a sum what the reset vector
contributes. -/
theorem add_weightless_right (x a : MotionVector) (h0 : a.weight = 0)
    (hl : a.twist.linear_x.isFinite = true) (ha : a.twist.angular_z.isFinite = true) :
    MotionVector.add x a = MotionVector.add x zeroIntent := by
  have hz : zeroIntent.weight = 0 := rfl
  have hzl : zeroIntent.twist.linear_x = F64.zero := rfl
  have hza : zeroIntent.twist.angular_z = F64.zero := rfl
  unfold MotionVector.add weightedMean
  rw [h0, hz, hzl, hza, F64.mul_ofNat_zero _ hl, F64.mul_ofNat_zero _ ha,
    F64.mul_ofNat_zero_zero]

/-! ### Frame lemmas for the callbacks and the loop body -/

theorem pclCallback_cycleNumber (cloud : List PointXYZ) (g : Globals) :
    (pclCallback cloud g).cycleNumber = g.cycleNumber := by
  unfold pclCallback
  simp only
  split_ifs <;> rfl

theorem blobsCallBack_cycleNumber (blobsIn : List Blob) (g : Globals) :
    (blobsCallBack blobsIn g).cycleNumber = g.cycleNumber := by
  unfold blobsCallBack
  simp only
  split_ifs <;> rfl

theorem blobsCallBack_switch_fields (blobsIn : List Blob) (g : Globals) :
    (blobsCallBack blobsIn g).goLeft = g.goLeft ∧
      (blobsCallBack blobsIn g).lastCycleNumberChanged = g.lastCycleNumberChanged := by
  unfold blobsCallBack
  simp only
  split_ifs <;> exact ⟨rfl, rfl⟩

theorem spinOnce_cycleNumber (pending : List Event) (g : Globals) :
    (spinOnce pending g).cycleNumber = g.cycleNumber := by
  unfold spinOnce
  induction pending generalizing g with
  | nil => rfl
  | cons e rest ih =>
    rw [List.foldl_cons, ih]
    cases e with
    | cloud points => exact pclCallback_cycleNumber points g
    | blobs blobsIn => exact blobsCallBack_cycleNumber blobsIn g

theorem mainLoop_cons_of_running (pending : List Event) (rest : List (List Event))
    (g : Globals) (h : g.shouldFinish = false) :
    mainLoop (pending :: rest) g =
      loopBody pending g :: mainLoop rest (loopBody pending g).2 := by
  simp [mainLoop, h]

theorem loopBody_published (pending : List Event) (g : Globals) :
    (loopBody pending g).1 =
      (MotionVector.add (MotionVector.add g.endpointVector g.coneVector)
        g.avoidanceVector).twist := rfl

theorem loopBody_cycleNumber (pending : List Event) (g : Globals) :
    (loopBody pending g).2.cycleNumber = uadd g.cycleNumber 1 := by
  simp [loopBody, spinOnce_cycleNumber]

/-! ### Claims on the control loop -/

/-- Claim C5, as stated, fails on the code, in two ways.  In the state with
`shouldFinish` false and `cycleNumber = 2 ^ 32 - 1` one tick leaves `cycleNumber = 0`,
which is not an increment by 1.  And with goal `(0.2, 0.0, w=1)`, target
`(0.4, 0.7, w=3)` and the reset avoidance intent the published command is
`(0.35000000000000003, 0.5249999999999999)`, neither component being the `double`
nearest to 0.35 or 0.525. -/
theorem tick_not_exact :
    (({ initialGlobals with cycleNumber := 4294967295 } : Globals).shouldFinish = false ∧
      (tick { initialGlobals with cycleNumber := 4294967295 }).2.cycleNumber = 0 ∧
      (tick { initialGlobals with cycleNumber := 4294967295 }).2.cycleNumber ≠
        ({ initialGlobals with cycleNumber := 4294967295 } : Globals).cycleNumber + 1) ∧
      ((tick { initialGlobals with
          coneVector := MotionVector.new (F64.lit 4 10) (F64.lit 7 10) 3 }).1.linear_x
          = F64.lit 35000000000000003 100000000000000000 ∧
        (tick { initialGlobals with
          coneVector := MotionVector.new (F64.lit 4 10) (F64.lit 7 10) 3 }).1.angular_z
          = F64.lit 5249999999999999 10000000000000000 ∧
        (tick { initialGlobals with
          coneVector := MotionVector.new (F64.lit 4 10) (F64.lit 7 10) 3 }).1.linear_x
          ≠ F64.lit 35 100 ∧
        (tick { initialGlobals with
          coneVector := MotionVector.new (F64.lit 4 10) (F64.lit 7 10) 3 }).1.angular_z
          ≠ F64.lit 525 1000) := by
  decide!

/-- Claim C5, amended.  In every state with `shouldFinish` false the loop runs one
more pass; the pass publishes the linear speed and angular rate of
`endpointVector + coneVector + avoidanceVector` as `operator+` computes them in
`double` arithmetic, which are those of `combine(combine(goal, target), avoidance)`
whenever the three weights together fit an `unsigned int`; it increments `cycleNumber`
by 1 modulo `2 ^ 32` (by exactly 1 when `cycleNumber + 1 < 2 ^ 32`); a tick with no
pending message changes none of the three stored intents; and with goal
`(0.2, 0.0, w=1)`, target `(0.4, 0.7, w=3)` and an avoidance intent of weight 0 with
finite components the published command is the pair of `double`s
`(0.35000000000000003, 0.5249999999999999)`. -/
theorem tick_publishes_blend (g : Globals) (pending : List Event)
    (rest : List (List Event)) (hrun : g.shouldFinish = false) :
    mainLoop (pending :: rest) g =
        loopBody pending g :: mainLoop rest (loopBody pending g).2 ∧
      (loopBody pending g).1 =
        (MotionVector.add (MotionVector.add g.endpointVector g.coneVector)
          g.avoidanceVector).twist ∧
      (g.endpointVector.weight + g.coneVector.weight + g.avoidanceVector.weight < 2 ^ 32 →
        (loopBody pending g).1 =
          (combineRef (combineRef g.endpointVector g.coneVector) g.avoidanceVector).twist) ∧
      (loopBody pending g).2.cycleNumber = (g.cycleNumber + 1) % 2 ^ 32 ∧
      (g.cycleNumber + 1 < 2 ^ 32 → (loopBody pending g).2.cycleNumber = g.cycleNumber + 1) ∧
      ((tick g).2.endpointVector = g.endpointVector ∧ (tick g).2.coneVector = g.coneVector ∧
        (tick g).2.avoidanceVector = g.avoidanceVector) ∧
      (g.endpointVector = MotionVector.new (F64.lit 2 10) F64.zero 1 →
        g.coneVector = MotionVector.new (F64.lit 4 10) (F64.lit 7 10) 3 →
        g.avoidanceVector.weight = 0 →
        g.avoidanceVector.twist.linear_x.isFinite = true →
        g.avoidanceVector.twist.angular_z.isFinite = true →
        (loopBody pending g).1 =
          { linear_x := F64.lit 35000000000000003 100000000000000000
            angular_z := F64.lit 5249999999999999 10000000000000000 }) := by
  refine ⟨mainLoop_cons_of_running pending rest g hrun, loopBody_published pending g, ?_, ?_, ?_,
    ⟨rfl, rfl, rfl⟩, ?_⟩
  · intro h
    have h1 : g.endpointVector.weight + g.coneVector.weight < UINT_RANGE := by
      unfold UINT_RANGE
      omega
    rw [loopBody_published, add_of_lt g.endpointVector g.coneVector h1]
    have h2 : (combineRef g.endpointVector g.coneVector).weight + g.avoidanceVector.weight
        < UINT_RANGE := by
      rw [← add_of_lt g.endpointVector g.coneVector h1, add_weight_of_lt _ _ h1]
      exact h
    rw [add_of_lt _ _ h2]
  · rw [loopBody_cycleNumber]
    rfl
  · intro h
    rw [loopBody_cycleNumber]
    exact uadd_of_lt h
  · intro h1 h2 h3 h4 h5
    rw [loopBody_published, h1, h2]
    rw [add_weightless_right _ _ h3 h4 h5]
    decide!

/-- Claim C5, amended, at the state of the end-to-end example (goal `(0.2, 0, w=1)`,
target `(0.4, 0.7, w=3)`, avoidance reset) with no message pending. -/
theorem tick_publishes_blend_witness :
    (loopBody [] { initialGlobals with
        coneVector := MotionVector.new (F64.lit 4 10) (F64.lit 7 10) 3 }).1
      = { linear_x := F64.lit 35000000000000003 100000000000000000
          angular_z := F64.lit 5249999999999999 10000000000000000 } :=
  (tick_publishes_blend
    { initialGlobals with coneVector := MotionVector.new (F64.lit 4 10) (F64.lit 7 10) 3 } [] []
    rfl).2.2.2.2.2.2 (by decide!) rfl rfl (by decide!) (by decide!)

/-! ### The scan loop of `pclCallback` -/

theorem F64.lt_toF64 (z : F32) (t : F64) : F64.lt z.toF64 t = FVal.lt z.v t.v := by
  unfold F64.lt
  rw [F32.toF64_v]

theorem closestScan_foldl_le (pts : List PointXYZ) (st : ClosestScan)
    (hst : st.min_z.v ≠ FVal.nan) :
    (pts.foldl ClosestScan.step st).min_z.v ≠ FVal.nan ∧
      FVal.le (pts.foldl ClosestScan.step st).min_z.v st.min_z.v = true ∧
      ∀ p ∈ pts, p.z.v ≠ FVal.nan →
        FVal.le (pts.foldl ClosestScan.step st).min_z.v p.z.v = true := by
  induction pts generalizing st with
  | nil =>
    refine ⟨hst, FVal.le_refl hst, ?_⟩
    intro p hp
    cases hp
  | cons q rest ih =>
    rw [List.foldl_cons]
    have hstep : (ClosestScan.step st q).min_z.v ≠ FVal.nan ∧
        FVal.le (ClosestScan.step st q).min_z.v st.min_z.v = true ∧
        (q.z.v ≠ FVal.nan → FVal.le (ClosestScan.step st q).min_z.v q.z.v = true) := by
      unfold ClosestScan.step
      by_cases h : F32.lt q.z st.min_z = true
      · rw [if_pos h]
        unfold F32.lt at h
        exact ⟨(FVal.ne_nan_of_lt h).1, FVal.le_of_lt h, fun hq => FVal.le_refl hq⟩
      · rw [if_neg h]
        unfold F32.lt at h
        exact ⟨hst, FVal.le_refl hst,
          fun hq => FVal.le_of_not_lt hq hst (Bool.eq_false_iff.mpr h)⟩
    obtain ⟨h0, h1, h2⟩ := ih (ClosestScan.step st q) hstep.1
    refine ⟨h0, FVal.le_trans h1 hstep.2.1, ?_⟩
    intro p hp hpn
    rcases List.mem_cons.mp hp with rfl | hp
    · exact FVal.le_trans h1 (hstep.2.2 hpn)
    · exact h2 p hp hpn

theorem closestScan_foldl_cases (pts : List PointXYZ) (st : ClosestScan) :
    pts.foldl ClosestScan.step st = st ∨
      ∃ p ∈ pts, p.z.v ≠ FVal.nan ∧
        pts.foldl ClosestScan.step st = { closestPoint := p, min_z := p.z } := by
  induction pts generalizing st with
  | nil => simp
  | cons q rest ih =>
    rw [List.foldl_cons]
    rcases ih (ClosestScan.step st q) with h | ⟨p, hp, hpn, h⟩
    · rw [h]
      unfold ClosestScan.step
      by_cases hq : F32.lt q.z st.min_z = true
      · rw [if_pos hq]
        unfold F32.lt at hq
        exact Or.inr ⟨q, List.mem_cons_self q rest, (FVal.ne_nan_of_lt hq).1, rfl⟩
      · rw [if_neg hq]
        exact Or.inl rfl
    · exact Or.inr ⟨p, List.mem_cons_of_mem q hp, hpn, h⟩

/-- A scan that starts from a state no point improves on returns that state. -/
theorem closestScan_foldl_stable (pts : List PointXYZ) (st : ClosestScan)
    (h : ∀ q ∈ pts, F32.lt q.z st.min_z = false) : pts.foldl ClosestScan.step st = st := by
  induction pts with
  | nil => rfl
  | cons q rest ih =>
    rw [List.foldl_cons]
    have hq : ¬ F32.lt q.z st.min_z = true := by
      rw [h q (List.mem_cons_self q rest)]
      decide
    have : ClosestScan.step st q = st := by
      unfold ClosestScan.step
      rw [if_neg hq]
    rw [this]
    exact ih (fun r hr => h r (List.mem_cons_of_mem q hr))

/-- The scan finds the first point that attains the minimum, when that minimum is
below the initial `min_z`. -/
theorem closestScan_first_min (pre post : List PointXYZ) (p : PointXYZ)
    (hpre : ∀ q ∈ pre, q.z.v = FVal.nan ∨ F32.lt p.z q.z = true)
    (hpost : ∀ q ∈ post, F32.lt q.z p.z = false)
    (hp : F32.lt p.z ClosestScan.init.min_z = true) :
    closestScan (pre ++ p :: post) = { closestPoint := p, min_z := p.z } := by
  unfold closestScan
  rw [List.foldl_append, List.foldl_cons]
  have hbefore : F32.lt p.z (pre.foldl ClosestScan.step ClosestScan.init).min_z = true := by
    rcases closestScan_foldl_cases pre ClosestScan.init with h | ⟨q, hq, hqn, h⟩
    · rw [h]
      exact hp
    · rw [h]
      rcases hpre q hq with hnan | hlt
      · exact absurd hnan hqn
      · exact hlt
  have hstep : ClosestScan.step (pre.foldl ClosestScan.step ClosestScan.init) p =
      { closestPoint := p, min_z := p.z } := by
    rw [ClosestScan.step, if_pos hbefore]
  rw [hstep]
  exact closestScan_foldl_stable post _ hpost

theorem init_min_z_ne_nan : ClosestScan.init.min_z.v ≠ FVal.nan := by decide!

/-- The threshold test of `pclCallback` in terms of the points of the cloud, for a
threshold below the initial `min_z`. -/
theorem closestScan_lt_iff (cloud : List PointXYZ) (t : F64)
    (ht : FVal.lt t.v ClosestScan.init.min_z.v = true) :
    F64.lt (closestScan cloud).min_z.toF64 t = true ↔
      ∃ p ∈ cloud, F64.lt p.z.toF64 t = true := by
  unfold closestScan
  constructor
  · intro h
    rcases closestScan_foldl_cases cloud ClosestScan.init with e | ⟨p, hp, _, e⟩
    · rw [e, F64.lt_toF64] at h
      have := FVal.lt_trans h ht
      rw [FVal.lt_irrefl] at this
      exact absurd this (by decide)
    · rw [e] at h
      exact ⟨p, hp, h⟩
  · rintro ⟨p, hp, h⟩
    rw [F64.lt_toF64] at h ⊢
    exact FVal.lt_of_le_of_lt
      ((closestScan_foldl_le cloud ClosestScan.init init_min_z_ne_nan).2.2 p hp
        (FVal.ne_nan_of_lt h).1) h

theorem threshold_lt_init : FVal.lt (F64.lit 65 100).v ClosestScan.init.min_z.v = true := by
  decide!

/-- Callback `pclCallback` on a cloud with no point closer than 0.65. -/
theorem pclCallback_far (cloud : List PointXYZ) (g : Globals)
    (h : ∀ p ∈ cloud, F64.lt p.z.toF64 (F64.lit 65 100) = false) :
    pclCallback cloud g =
      { g with avoidanceVector := zeroIntent, inAvoidance := false } := by
  have hn : ¬ F64.lt (closestScan cloud).min_z.toF64 (F64.lit 65 100) = true := by
    rw [closestScan_lt_iff cloud _ threshold_lt_init]
    rintro ⟨p, hp, hlt⟩
    rw [h p hp] at hlt
    exact absurd hlt (by decide)
  unfold pclCallback
  simp only [if_neg hn]
  rfl

/-- Callback `pclCallback` on a cloud with a point closer than 0.65. -/
theorem pclCallback_near (cloud : List PointXYZ) (g : Globals)
    (h : ∃ p ∈ cloud, F64.lt p.z.toF64 (F64.lit 65 100) = true) :
    pclCallback cloud g =
      { g with
        avoidanceVector :=
          MotionVector.new (avoidanceLinear (closestScan cloud).min_z).toF64
            (avoidanceAngular (closestScan cloud).min_z
              (closestScan cloud).closestPoint.x).toF64 1000
        inAvoidance := true
        goLeft :=
          if g.inAvoidance = false ∧ usub g.cycleNumber g.lastCycleNumberChanged > 20
          then !g.goLeft else g.goLeft
        lastCycleNumberChanged :=
          if g.inAvoidance = false ∧ usub g.cycleNumber g.lastCycleNumberChanged > 20
          then g.cycleNumber else g.lastCycleNumberChanged } := by
  have hn : F64.lt (closestScan cloud).min_z.toF64 (F64.lit 65 100) = true :=
    (closestScan_lt_iff cloud _ threshold_lt_init).mpr h
  unfold pclCallback
  simp only [if_pos hn]
  by_cases hc : g.inAvoidance = false ∧ usub g.cycleNumber g.lastCycleNumberChanged > 20
  · obtain ⟨h1, h2⟩ := hc
    simp [h1, h2, MotionVector.updateVector, MotionVector.new]
  · rw [if_neg hc, if_neg hc]
    have : ((!g.inAvoidance) && decide (usub g.cycleNumber g.lastCycleNumberChanged > 20))
        = false := by
      rcases Bool.eq_false_or_eq_true g.inAvoidance with hi | hi
      · simp [hi]
      · simp only [hi, true_and, not_lt] at hc
        simp [hi, hc]
    simp [this, MotionVector.updateVector, MotionVector.new]

/-- No point of a cloud is closer than 0.65 when its nearest forward distance `d` is
not. -/
theorem far_of_min (cloud : List PointXYZ) (d : F32)
    (hmin : ∀ q ∈ cloud, q.z.v = FVal.nan ∨ F32.le d q.z = true)
    (hfar : F64.lt d.toF64 (F64.lit 65 100) = false) :
    ∀ q ∈ cloud, F64.lt q.z.toF64 (F64.lit 65 100) = false := by
  intro q hq
  by_contra hlt
  have hlt2 : F64.lt q.z.toF64 (F64.lit 65 100) = true := by
    simpa using hlt
  rw [F64.lt_toF64] at hlt2 hfar
  rcases hmin q hq with hnan | hle
  · exact (FVal.ne_nan_of_lt hlt2).1 hnan
  · have := FVal.lt_of_le_of_lt hle hlt2
    rw [hfar] at this
    exact absurd this (by decide)

/-! ### Claims on the obstacle avoidance monitor -/

/-- The `double` 0.4 lies strictly between two neighbouring `float`s, and the
difference to either of them stays away from 0 when rounded to `float`. -/
theorem stop_distance_facts :
    ∃ C : Int, (F64.lit 4 10).v = FVal.fin C ∧
      ((13421772 * 2 ^ 1049 : Nat) : Int) < C ∧ C < (((13421772 + 1) * 2 ^ 1049 : Nat) : Int) ∧
      FVal.lt (round64 (((13421772 * 2 ^ 1049 : Nat) : Int) + -C) 1).to32 (FVal.fin 0) = true ∧
      FVal.lt (FVal.fin 0) (round64 ((((13421772 + 1) * 2 ^ 1049 : Nat) : Int) + -C) 1).to32
        = true :=
  ⟨3602879701896397 * 2 ^ 1021, by decide!⟩

/-- The sign of the local `linearSpeed` of `pclCallback`. -/
theorem avoidanceLinear_neg_iff (d : F32) (hd : d.v ≠ FVal.nan) :
    F64.lt (avoidanceLinear d).toF64 F64.zero = true ↔
      F64.lt d.toF64 (F64.lit 4 10) = true := by
  obtain ⟨C, hC, hlo, hhi, hneg, hpos⟩ := stop_distance_facts
  rw [F64.lt_toF64, F64.lt_toF64]
  unfold avoidanceLinear
  rw [F64.toF32_v, F64.sub_v, F32.toF64_v, hC]
  have hz : F64.zero.v = FVal.fin 0 := rfl
  rw [hz]
  have hok := d.ok
  cases hv : d.v with
  | fin n =>
    rw [hv] at hok
    simp only [FVal.neg, FVal.add]
    have hrep : n.natAbs % 2 ^ quantumExp 24 925 n.natAbs = 0 := by
      unfold FVal.inFormat isRep at hok
      simp only [Bool.and_eq_true, decide_eq_true_eq] at hok
      exact hok.1
    constructor
    · intro h
      by_contra hn
      have hge : ¬ n < C := by simpa [FVal.lt] using hn
      have hhi2 : (((13421772 + 1) * 2 ^ 1049 : Nat) : Int) ≤ n := by
        by_contra hlt
        have hnn : (n.natAbs : Int) = n := Int.natAbs_of_nonneg (by omega)
        refine rep_gap 24 925 n.natAbs 13421772 1049 (by decide) hrep (by decide) ?_ ?_
        · have : ((13421772 * 2 ^ 1049 : Nat) : Int) < (n.natAbs : Int) := by omega
          exact_mod_cast this
        · have : (n.natAbs : Int) < (((13421772 + 1) * 2 ^ 1049 : Nat) : Int) := by omega
          exact_mod_cast this
      have hmono := to32_mono (round64_mono 1 (by decide)
        (show (((13421772 + 1) * 2 ^ 1049 : Nat) : Int) + -C ≤ n + -C by omega))
      have h0 := FVal.lt_of_lt_of_le hpos hmono
      have h1 := FVal.lt_trans h h0
      rw [FVal.lt_irrefl] at h1
      exact absurd h1 (by decide)
    · intro h
      have hlt : n < C := by simpa [FVal.lt] using h
      have hlo2 : n ≤ ((13421772 * 2 ^ 1049 : Nat) : Int) := by
        by_contra hgt
        have hnn : (n.natAbs : Int) = n := Int.natAbs_of_nonneg (by omega)
        refine rep_gap 24 925 n.natAbs 13421772 1049 (by decide) hrep (by decide) ?_ ?_
        · have : ((13421772 * 2 ^ 1049 : Nat) : Int) < (n.natAbs : Int) := by omega
          exact_mod_cast this
        · have : (n.natAbs : Int) < (((13421772 + 1) * 2 ^ 1049 : Nat) : Int) := by omega
          exact_mod_cast this
      have hmono := to32_mono (round64_mono 1 (by decide)
        (show n + -C ≤ ((13421772 * 2 ^ 1049 : Nat) : Int) + -C by omega))
      exact FVal.lt_of_le_of_lt hmono hneg
  | pinf => simp [FVal.neg, FVal.add, FVal.to32, FVal.lt]
  | ninf => simp [FVal.neg, FVal.add, FVal.to32, FVal.lt]
  | nan => exact absurd hv hd

/-- The local `angularDirection` of `pclCallback`, promoted to `double`. -/
theorem avoidanceAngular_toF64 (d x : F32) :
    (avoidanceAngular d x).toF64 =
      if F32.lt x (F32.ofInt 0) = true
      then F64.neg (F64.sub (F64.lit 1 1) d.toF64).toF32.toF64
      else (F64.sub (F64.lit 1 1) d.toF64).toF32.toF64 := by
  unfold avoidanceAngular
  simp only
  split_ifs with h
  · apply F64.ext
    rw [F32.toF64_v, F32.mul_neg_one_v, F64.neg_v, F32.toF64_v]
  · rfl

/-- Claim C7, as stated, fails on the code: for the frame whose only point lies at the
forward distance `0.3f` the stored linear speed is the `float` nearest to the
difference of that distance and 0.4, which is not this difference; in `double`
arithmetic the difference is the `double` nearest to -0.09999998807907107, the stored
speed is -0.09999998658895493. -/
theorem avoidance_speed_rounded_to_float :
    (pclCallback [{ x := F32.zero, y := F32.zero, z := (F64.lit 3 10).toF32 }]
        initialGlobals).avoidanceVector.twist.linear_x ≠
        F64.sub (F64.lit 3 10).toF32.toF64 (F64.lit 4 10) ∧
      (pclCallback [{ x := F32.zero, y := F32.zero, z := (F64.lit 3 10).toF32 }]
        initialGlobals).avoidanceVector.twist.linear_x =
        F64.neg (F64.lit 9999998658895493 100000000000000000) ∧
      F64.sub (F64.lit 3 10).toF32.toF64 (F64.lit 4 10) =
        F64.neg (F64.lit 9999998807907107 100000000000000000) := by
  decide!

/-- Claim C7, amended.  For every depth frame whose nearest point `p` (the first point
that attains the minimum forward distance `d = p.z`; points whose distance is a NaN are
passed over) has `d < 0.65`, and every prior state, the avoidance intent stored by
`pclCallback` has weight 1000, the linear speed `d - 0.4` and the angular rate
`1.0 - d`, negated when `p.x < 0`, where each difference is computed in `double` and
then rounded to `float`; its linear speed is negative exactly when `d < 0.4`. -/
theorem pclCallback_avoidanceVector (g : Globals) (pre post : List PointXYZ) (p : PointXYZ)
    (hpre : ∀ q ∈ pre, q.z.v = FVal.nan ∨ F32.lt p.z q.z = true)
    (hpost : ∀ q ∈ post, F32.lt q.z p.z = false)
    (hd : F64.lt p.z.toF64 (F64.lit 65 100) = true) :
    (pclCallback (pre ++ p :: post) g).avoidanceVector =
        MotionVector.new (F64.sub p.z.toF64 (F64.lit 4 10)).toF32.toF64
          (if F32.lt p.x (F32.ofInt 0) = true
            then F64.neg (F64.sub (F64.lit 1 1) p.z.toF64).toF32.toF64
            else (F64.sub (F64.lit 1 1) p.z.toF64).toF32.toF64) 1000 ∧
      (F64.lt (pclCallback (pre ++ p :: post) g).avoidanceVector.twist.linear_x F64.zero = true ↔
        F64.lt p.z.toF64 (F64.lit 4 10) = true) := by
  have hdv : FVal.lt p.z.v (F64.lit 65 100).v = true := by
    rw [← F64.lt_toF64]
    exact hd
  have hinit : F32.lt p.z ClosestScan.init.min_z = true :=
    FVal.lt_trans hdv threshold_lt_init
  have hscan : closestScan (pre ++ p :: post) = { closestPoint := p, min_z := p.z } :=
    closestScan_first_min pre post p hpre hpost hinit
  have hnear : ∃ q ∈ pre ++ p :: post, F64.lt q.z.toF64 (F64.lit 65 100) = true :=
    ⟨p, by simp, hd⟩
  have hav : (pclCallback (pre ++ p :: post) g).avoidanceVector =
      MotionVector.new (avoidanceLinear p.z).toF64 (avoidanceAngular p.z p.x).toF64 1000 := by
    rw [pclCallback_near _ g hnear, hscan]
  refine ⟨?_, ?_⟩
  · rw [hav, avoidanceAngular_toF64]
    rfl
  · rw [hav]
    exact avoidanceLinear_neg_iff p.z (FVal.ne_nan_of_lt hdv).1

/-- Claim C7, amended, at a frame whose nearest point lies `0.3f` ahead on the left
(`x = -1`), followed by a second point at the same distance: the stored intent is
`(-0.09999998658895493, -0.699999988079071, weight 1000)`. -/
theorem pclCallback_avoidanceVector_witness :
    (pclCallback ([{ x := F32.zero, y := F32.zero, z := F32.ofInt 1 }] ++
        { x := F32.ofInt (-1), y := F32.zero, z := (F64.lit 3 10).toF32 } ::
          [{ x := F32.ofInt 2, y := F32.zero, z := (F64.lit 3 10).toF32 }])
        initialGlobals).avoidanceVector =
      MotionVector.new (F64.neg (F64.lit 9999998658895493 100000000000000000))
        (F64.neg (F64.lit 699999988079071 1000000000000000)) 1000 := by
  have h := (pclCallback_avoidanceVector initialGlobals
    [{ x := F32.zero, y := F32.zero, z := F32.ofInt 1 }]
    [{ x := F32.ofInt 2, y := F32.zero, z := (F64.lit 3 10).toF32 }]
    { x := F32.ofInt (-1), y := F32.zero, z := (F64.lit 3 10).toF32 }
    (by decide!) (by decide!) (by decide!)).1
  rw [h]
  decide!

/-! ### Runs of the loop with one depth frame per pass -/

theorem pclCallback_shouldFinish (cloud : List PointXYZ) (g : Globals) :
    (pclCallback cloud g).shouldFinish = g.shouldFinish := by
  unfold pclCallback
  simp only
  split_ifs <;> rfl

theorem pclCallback_nil (g : Globals) :
    pclCallback [] g = { g with avoidanceVector := zeroIntent, inAvoidance := false } :=
  pclCallback_far [] g (fun p hp => absurd hp (List.not_mem_nil p))

theorem blobsCallBack_nil (g : Globals) :
    blobsCallBack [] g = { g with coneVector := zeroIntent } := by
  unfold blobsCallBack
  simp only [List.length_nil, ne_eq, not_true_eq_false, if_false]
  rfl

/-- The flag computed by the scan loop of `blobsCallBack`. -/
theorem blobScan_foldl_shouldFinish (blobs : List Blob) (st : BlobScan) :
    (blobs.foldl BlobScan.step st).shouldFinish =
      (st.shouldFinish || blobs.any (fun b => decide (b.red = BLUE ∧ b.area > 30000))) := by
  induction blobs generalizing st with
  | nil => simp
  | cons b rest ih =>
    rw [List.foldl_cons, ih, List.any_cons]
    have hstep : (BlobScan.step st b).shouldFinish =
        (st.shouldFinish || decide (b.red = BLUE ∧ b.area > 30000)) := by
      unfold BlobScan.step
      simp only
      by_cases h2 : b.red = BLUE ∧ b.area > 30000
      · rw [if_pos h2, decide_eq_true h2, Bool.or_true]
      · rw [if_neg h2, decide_eq_false h2, Bool.or_false]
        split_ifs <;> rfl
    rw [hstep, Bool.or_assoc]

theorem blobsCallBack_shouldFinish (blobsIn : List Blob) (g : Globals) :
    (blobsCallBack blobsIn g).shouldFinish =
      (g.shouldFinish || blobsIn.any (fun b => decide (b.red = BLUE ∧ b.area > 30000))) := by
  have h : (blobScan blobsIn g.shouldFinish).shouldFinish =
      (g.shouldFinish || blobsIn.any (fun b => decide (b.red = BLUE ∧ b.area > 30000))) := by
    unfold blobScan
    rw [blobScan_foldl_shouldFinish]
  unfold blobsCallBack
  simp only
  split_ifs <;> exact h

theorem dispatch_shouldFinish_sticky (g : Globals) (e : Event) (h : g.shouldFinish = true) :
    (dispatch g e).shouldFinish = true := by
  cases e with
  | cloud points =>
    show (pclCallback points g).shouldFinish = true
    rw [pclCallback_shouldFinish, h]
  | blobs blobsIn =>
    show (blobsCallBack blobsIn g).shouldFinish = true
    rw [blobsCallBack_shouldFinish, h, Bool.true_or]

theorem spinOnce_shouldFinish_sticky (pending : List Event) (g : Globals)
    (h : g.shouldFinish = true) : (spinOnce pending g).shouldFinish = true := by
  unfold spinOnce
  induction pending generalizing g with
  | nil => exact h
  | cons e rest ih =>
    rw [List.foldl_cons]
    exact ih (dispatch g e) (dispatch_shouldFinish_sticky g e h)

/-! ### Claims on termination, empty frames and frame effects -/

/-- Claim C11 fails on the code at a non-empty frame with no `ORANGE` blob: for the
frame holding one `BLUE` blob of area 100 centred at 300, received in the initial
state, the target intent stored by `blobsCallBack` is `(0.4, 0.7f, weight 3)`, not the
zero intent: the steering test reads the `x` field (0) of the default-constructed
`largest_blob`.  A `BLUE` blob of area 30001 in such a frame still sets
`shouldFinish`. -/
theorem marker_only_frame_steers :
    (blobScan [{ red := BLUE, area := 100, x := 300 }] false).largest_blob = Blob.default ∧
      (blobsCallBack [{ red := BLUE, area := 100, x := 300 }] initialGlobals).coneVector
        = MotionVector.new (F64.lit 4 10) STEER_POS.toF64 3 ∧
      (blobsCallBack [{ red := BLUE, area := 100, x := 300 }] initialGlobals).coneVector
        ≠ zeroIntent ∧
      (blobsCallBack [{ red := BLUE, area := 30001, x := 300 }] initialGlobals).shouldFinish
        = true := by
  decide!

/-- Claim C12.  After `blobsCallBack` the flag `shouldFinish` is its prior value or-ed
with "the frame holds a `BLUE` blob of area above 30000": a `BLUE` blob of area 30001
sets it, one of area 29999 or 30000 leaves it as it was; `pclCallback` and a tick
leave the flag unchanged, so no operation turns it from true to false. -/
theorem shouldFinish_sticky (g : Globals) (blobsIn : List Blob) (cloud : List PointXYZ)
    (x : Nat) :
    (blobsCallBack blobsIn g).shouldFinish =
        (g.shouldFinish || blobsIn.any (fun b => decide (b.red = BLUE ∧ b.area > 30000))) ∧
      (blobsCallBack [{ red := BLUE, area := 30001, x := x }] g).shouldFinish = true ∧
      (blobsCallBack [{ red := BLUE, area := 29999, x := x }] g).shouldFinish = g.shouldFinish ∧
      (blobsCallBack [{ red := BLUE, area := 30000, x := x }] g).shouldFinish = g.shouldFinish ∧
      (pclCallback cloud g).shouldFinish = g.shouldFinish ∧
      (tick g).2.shouldFinish = g.shouldFinish ∧
      (g.shouldFinish = true → (blobsCallBack blobsIn g).shouldFinish = true) := by
  refine ⟨blobsCallBack_shouldFinish blobsIn g, ?_, ?_, ?_, pclCallback_shouldFinish cloud g,
    rfl, ?_⟩
  · rw [blobsCallBack_shouldFinish]
    simp
  · rw [blobsCallBack_shouldFinish]
    simp
  · rw [blobsCallBack_shouldFinish]
    simp
  · intro h
    rw [blobsCallBack_shouldFinish, h, Bool.true_or]

/-- Claim C12, at a state whose flag is already set and a frame with no blob. -/
theorem shouldFinish_sticky_witness :
    (blobsCallBack [] { initialGlobals with shouldFinish := true }).shouldFinish = true :=
  (shouldFinish_sticky { initialGlobals with shouldFinish := true } [] [] 0).2.2.2.2.2.2 rfl

/-- Claim C13.  For every prior state, `pclCallback` on an empty frame leaves the
avoidance intent at zero, sets `inAvoidance` to false and leaves `goLeft` and
`lastCycleNumberChanged` unchanged; `blobsCallBack` on an empty frame leaves the target
intent at zero and `shouldFinish` unchanged. -/
theorem empty_frames (g : Globals) :
    (pclCallback [] g).avoidanceVector = zeroIntent ∧
      (pclCallback [] g).inAvoidance = false ∧
      (pclCallback [] g).goLeft = g.goLeft ∧
      (pclCallback [] g).lastCycleNumberChanged = g.lastCycleNumberChanged ∧
      (blobsCallBack [] g).coneVector = zeroIntent ∧
      (blobsCallBack [] g).shouldFinish = g.shouldFinish := by
  rw [pclCallback_nil, blobsCallBack_nil]
  exact ⟨rfl, rfl, rfl, rfl, rfl, rfl⟩

/-- Claim C20.  For every state and frame, `pclCallback` leaves `coneVector`,
`endpointVector`, `shouldFinish` and `cycleNumber` unchanged, and `blobsCallBack` leaves
`avoidanceVector`, `endpointVector`, `inAvoidance`, `goLeft`, `lastCycleNumberChanged`
and `cycleNumber` unchanged. -/
theorem callbacks_frame (g : Globals) (cloud : List PointXYZ) (blobsIn : List Blob) :
    ((pclCallback cloud g).coneVector = g.coneVector ∧
        (pclCallback cloud g).endpointVector = g.endpointVector ∧
        (pclCallback cloud g).shouldFinish = g.shouldFinish ∧
        (pclCallback cloud g).cycleNumber = g.cycleNumber) ∧
      ((blobsCallBack blobsIn g).avoidanceVector = g.avoidanceVector ∧
        (blobsCallBack blobsIn g).endpointVector = g.endpointVector ∧
        (blobsCallBack blobsIn g).inAvoidance = g.inAvoidance ∧
        (blobsCallBack blobsIn g).goLeft = g.goLeft ∧
        (blobsCallBack blobsIn g).lastCycleNumberChanged = g.lastCycleNumberChanged ∧
        (blobsCallBack blobsIn g).cycleNumber = g.cycleNumber) := by
  constructor
  · unfold pclCallback
    simp only
    split_ifs <;> exact ⟨rfl, rfl, rfl, rfl⟩
  · unfold blobsCallBack
    simp only
    split_ifs <;> exact ⟨rfl, rfl, rfl, rfl, rfl, rfl⟩

/-! ### The exit of the loop -/

theorem mainLoop_of_finished (schedule : List (List Event)) (g : Globals)
    (h : g.shouldFinish = true) :
    mainLoop schedule g = [] ∧ mainLoopFinal schedule g = g := by
  cases schedule with
  | nil => exact ⟨rfl, rfl⟩
  | cons pending rest => simp [mainLoop, mainLoopFinal, h]

theorem mainLoopFinal_cons_of_running (pending : List Event) (rest : List (List Event))
    (g : Globals) (h : g.shouldFinish = false) :
    mainLoopFinal (pending :: rest) g = mainLoopFinal rest (loopBody pending g).2 := by
  simp [mainLoopFinal, h]

/-- Claim C14.  In every state where `shouldFinish` is true the loop runs no pass, for
any schedule: nothing is published and the globals, `cycleNumber` included, stay as
they are.  A pass that starts with the flag false and during which a callback sets it
still publishes its command (the blend of the intents at the start of the pass) and
still executes `cycleNumber++`; it is the last pass, whatever is scheduled after it. -/
theorem loop_exit (g : Globals) (pending : List Event) (rest : List (List Event)) :
    (g.shouldFinish = true →
        mainLoop (pending :: rest) g = [] ∧
          mainLoopFinal (pending :: rest) g = g ∧
          (mainLoopFinal (pending :: rest) g).cycleNumber = g.cycleNumber) ∧
      (g.shouldFinish = false → (spinOnce pending g).shouldFinish = true →
        mainLoop (pending :: rest) g = [loopBody pending g] ∧
          (loopBody pending g).1 = (blend g).getTwist ∧
          (mainLoopFinal (pending :: rest) g).cycleNumber = (g.cycleNumber + 1) % 2 ^ 32 ∧
          (mainLoopFinal (pending :: rest) g).shouldFinish = true) := by
  constructor
  · intro h
    obtain ⟨h1, h2⟩ := mainLoop_of_finished (pending :: rest) g h
    exact ⟨h1, h2, by rw [h2]⟩
  · intro h hset
    have hfin : (loopBody pending g).2.shouldFinish = true := by
      simp [loopBody, hset]
    obtain ⟨h1, h2⟩ := mainLoop_of_finished rest (loopBody pending g).2 hfin
    refine ⟨?_, rfl, ?_, ?_⟩
    · rw [mainLoop_cons_of_running pending rest g h, h1]
    · rw [mainLoopFinal_cons_of_running pending rest g h, h2, loopBody_cycleNumber]
      rfl
    · rw [mainLoopFinal_cons_of_running pending rest g h, h2, hfin]

/-- Claim C14, at the initial state with a pass in which a frame holding a `BLUE` blob
of area 30001 arrives, followed by two more scheduled passes: exactly one pass runs. -/
theorem loop_exit_witness :
    mainLoop ([Event.blobs [{ red := BLUE, area := 30001, x := 300 }]] :: [[], []])
        initialGlobals =
      [loopBody [Event.blobs [{ red := BLUE, area := 30001, x := 300 }]] initialGlobals] ∧
    mainLoop [[], []] { initialGlobals with shouldFinish := true } = [] :=
  ⟨((loop_exit initialGlobals [Event.blobs [{ red := BLUE, area := 30001, x := 300 }]]
      [[], []]).2 rfl
      (by
        show (blobsCallBack [{ red := BLUE, area := 30001, x := 300 }]
          initialGlobals).shouldFinish = true
        rw [blobsCallBack_shouldFinish]
        decide)).1,
    ((loop_exit { initialGlobals with shouldFinish := true } [] [[]]).1 rfl).1⟩

/-! ### The side-switch rule -/

theorem usub_of_le {a b : Nat} (hb : b ≤ a) (ha : a < UINT_RANGE) : usub a b = a - b := by
  unfold usub UINT_RANGE at *
  omega

/-- Claim C15.  For every state and every depth frame with nearest forward distance
`d`, `pclCallback` flips `goLeft` and sets `lastCycleNumberChanged` to `cycleNumber` when
`d < 0.65`, `inAvoidance` was false and the unsigned difference
`cycleNumber - lastCycleNumberChanged` exceeds 20; in every other case it leaves both
unchanged.  The unsigned difference is the exact one when
`lastCycleNumberChanged ≤ cycleNumber`.  The distance `d` is a `float` attained by a
point of the frame and at most the distance of every point whose distance is not a NaN;
the test `d < 0.65` promotes it to `double`. -/
theorem side_switch_rule (g : Globals) (cloud : List PointXYZ) (d : F32)
    (hmem : ∃ p ∈ cloud, p.z = d)
    (hmin : ∀ q ∈ cloud, q.z.v = FVal.nan ∨ F32.le d q.z = true) :
    ((F64.lt d.toF64 (F64.lit 65 100) = true ∧ g.inAvoidance = false ∧
          usub g.cycleNumber g.lastCycleNumberChanged > 20) →
        (pclCallback cloud g).goLeft = (!g.goLeft) ∧
          (pclCallback cloud g).lastCycleNumberChanged = g.cycleNumber) ∧
      (¬ (F64.lt d.toF64 (F64.lit 65 100) = true ∧ g.inAvoidance = false ∧
          usub g.cycleNumber g.lastCycleNumberChanged > 20) →
        (pclCallback cloud g).goLeft = g.goLeft ∧
          (pclCallback cloud g).lastCycleNumberChanged = g.lastCycleNumberChanged) ∧
      ((pclCallback cloud g).goLeft ≠ g.goLeft ↔
        (F64.lt d.toF64 (F64.lit 65 100) = true ∧ g.inAvoidance = false ∧
          usub g.cycleNumber g.lastCycleNumberChanged > 20)) ∧
      (g.lastCycleNumberChanged ≤ g.cycleNumber → g.cycleNumber < 2 ^ 32 →
        usub g.cycleNumber g.lastCycleNumberChanged
          = g.cycleNumber - g.lastCycleNumberChanged) := by
  have hyes : (F64.lt d.toF64 (F64.lit 65 100) = true ∧ g.inAvoidance = false ∧
      usub g.cycleNumber g.lastCycleNumberChanged > 20) →
      (pclCallback cloud g).goLeft = (!g.goLeft) ∧
        (pclCallback cloud g).lastCycleNumberChanged = g.cycleNumber := by
    rintro ⟨hd, hin, hsub⟩
    obtain ⟨p, hp, hpz⟩ := hmem
    rw [pclCallback_near cloud g ⟨p, hp, by rw [hpz]; exact hd⟩]
    simp [hin, hsub]
  have hno : ¬ (F64.lt d.toF64 (F64.lit 65 100) = true ∧ g.inAvoidance = false ∧
      usub g.cycleNumber g.lastCycleNumberChanged > 20) →
      (pclCallback cloud g).goLeft = g.goLeft ∧
        (pclCallback cloud g).lastCycleNumberChanged = g.lastCycleNumberChanged := by
    intro hc
    by_cases hd : F64.lt d.toF64 (F64.lit 65 100) = true
    · obtain ⟨p, hp, hpz⟩ := hmem
      have hc2 : ¬ (g.inAvoidance = false ∧
          usub g.cycleNumber g.lastCycleNumberChanged > 20) := fun h => hc ⟨hd, h⟩
      rw [pclCallback_near cloud g ⟨p, hp, by rw [hpz]; exact hd⟩]
      simp only [if_neg hc2, and_self]
    · rw [pclCallback_far cloud g (far_of_min cloud d hmin (by simpa using hd))]
      exact ⟨rfl, rfl⟩
  refine ⟨hyes, hno, ?_, fun h1 h2 => usub_of_le h1 h2⟩
  constructor
  · intro hne
    by_contra hc
    exact hne (hno hc).1
  · intro hc
    rw [(hyes hc).1]
    cases g.goLeft <;> simp

/-- Claim C15, at a state not in avoidance with `cycleNumber = 25` and
`lastCycleNumberChanged = 0`, and a frame whose only point is 0.5 ahead. -/
theorem side_switch_rule_witness :
    (pclCallback [{ x := F32.zero, y := F32.zero, z := (F64.lit 5 10).toF32 }]
        { initialGlobals with cycleNumber := 25 }).goLeft = false ∧
      (pclCallback [{ x := F32.zero, y := F32.zero, z := (F64.lit 5 10).toF32 }]
        { initialGlobals with cycleNumber := 25 }).lastCycleNumberChanged = 25 :=
  (side_switch_rule { initialGlobals with cycleNumber := 25 }
    [{ x := F32.zero, y := F32.zero, z := (F64.lit 5 10).toF32 }] (F64.lit 5 10).toF32
    ⟨{ x := F32.zero, y := F32.zero, z := (F64.lit 5 10).toF32 },
      List.mem_singleton.mpr (by decide!), by decide!⟩
    (by decide!)).1 ⟨by decide!, by decide!, by decide!⟩

/-! ### The blob selected by the scan loop of `blobsCallBack` -/

/-- A blob that is no target of positive area leaves the two scan locals as they
are. -/
theorem blobScan_step_other (st : BlobScan) (b : Blob) (h : b.red ≠ ORANGE ∨ b.area = 0) :
    (BlobScan.step st b).largest_blob = st.largest_blob ∧
      (BlobScan.step st b).max_blob_size_seen = st.max_blob_size_seen := by
  have hsel : ¬ (b.red = ORANGE ∧ b.area > st.max_blob_size_seen) := by
    rintro ⟨h1, h2⟩
    rcases h with h | h
    · exact h h1
    · omega
  unfold BlobScan.step
  simp only [if_neg hsel]
  split_ifs <;> exact ⟨rfl, rfl⟩

theorem blobScan_foldl_other (blobs : List Blob) (st : BlobScan)
    (h : ∀ q ∈ blobs, q.red ≠ ORANGE ∨ q.area = 0) :
    (blobs.foldl BlobScan.step st).largest_blob = st.largest_blob ∧
      (blobs.foldl BlobScan.step st).max_blob_size_seen = st.max_blob_size_seen := by
  induction blobs generalizing st with
  | nil => exact ⟨rfl, rfl⟩
  | cons b rest ih =>
    rw [List.foldl_cons]
    obtain ⟨h1, h2⟩ := ih (BlobScan.step st b) (fun q hq => h q (List.mem_cons_of_mem b hq))
    obtain ⟨h3, h4⟩ := blobScan_step_other st b (h b (List.mem_cons_self b rest))
    exact ⟨h1.trans h3, h2.trans h4⟩

/-- A target of positive area met while nothing has been selected is selected. -/
theorem blobScan_step_first_target (st : BlobScan) (t : Blob) (ht : t.red = ORANGE)
    (hta : 0 < t.area) (hst : st.max_blob_size_seen = 0) :
    (BlobScan.step st t).largest_blob = t := by
  have hsel : t.red = ORANGE ∧ t.area > st.max_blob_size_seen := ⟨ht, by omega⟩
  unfold BlobScan.step
  simp only [if_pos hsel]
  split_ifs <;> rfl

/-- In a frame with a single target of positive area the scan loop selects it. -/
theorem blobScan_single_target (pre post : List Blob) (t : Blob) (sf : Bool)
    (ht : t.red = ORANGE) (hta : 0 < t.area)
    (hpre : ∀ q ∈ pre, q.red ≠ ORANGE ∨ q.area = 0)
    (hpost : ∀ q ∈ post, q.red ≠ ORANGE ∨ q.area = 0) :
    (blobScan (pre ++ t :: post) sf).largest_blob = t := by
  unfold blobScan
  rw [List.foldl_append, List.foldl_cons]
  rw [(blobScan_foldl_other post _ hpost).1]
  exact blobScan_step_first_target _ t ht hta (blobScan_foldl_other pre _ hpre).2

/-- In a frame with a single `ORANGE` blob the `x` read by the steering test is 0 or
the `x` of that blob. -/
theorem blobScan_single_orange_x (pre post : List Blob) (b : Blob) (sf : Bool)
    (hb : b.red = ORANGE)
    (hpre : ∀ q ∈ pre, q.red ≠ ORANGE ∨ q.area = 0)
    (hpost : ∀ q ∈ post, q.red ≠ ORANGE ∨ q.area = 0) :
    (blobScan (pre ++ b :: post) sf).largest_blob.x = 0 ∨
      (blobScan (pre ++ b :: post) sf).largest_blob.x = b.x := by
  by_cases ha : 0 < b.area
  · right
    rw [blobScan_single_target pre post b sf hb ha hpre hpost]
  · left
    have hall : ∀ q ∈ pre ++ b :: post, q.red ≠ ORANGE ∨ q.area = 0 := by
      intro q hq
      rcases List.mem_append.mp hq with h | h
      · exact hpre q h
      · rcases List.mem_cons.mp h with h | h
        · rw [h]
          exact Or.inr (by omega)
        · exact hpost q h
    unfold blobScan
    rw [(blobScan_foldl_other _ _ hall).1]
    rfl

theorem largestTargetRef_none (blobs : List Blob)
    (h : ∀ q ∈ blobs, q.red ≠ ORANGE ∨ q.area = 0) : largestTargetRef blobs = none := by
  induction blobs with
  | nil => rfl
  | cons b rest ih =>
    have hb : ¬ (b.red = ORANGE ∧ 0 < b.area) := by
      rintro ⟨h1, h2⟩
      rcases h b (List.mem_cons_self b rest) with h3 | h3
      · exact h3 h1
      · omega
    simp only [largestTargetRef, ih (fun q hq => h q (List.mem_cons_of_mem b hq)), if_neg hb]

/-- In a frame with a single target of positive area the specification selects it. -/
theorem largestTargetRef_single (pre post : List Blob) (t : Blob)
    (ht : t.red = ORANGE) (hta : 0 < t.area)
    (hpre : ∀ q ∈ pre, q.red ≠ ORANGE ∨ q.area = 0)
    (hpost : ∀ q ∈ post, q.red ≠ ORANGE ∨ q.area = 0) :
    largestTargetRef (pre ++ t :: post) = some t := by
  induction pre with
  | nil =>
    simp only [List.nil_append, largestTargetRef, largestTargetRef_none post hpost]
    rw [if_pos ⟨ht, hta⟩]
  | cons b rest ih =>
    have hrest := ih (fun q hq => hpre q (List.mem_cons_of_mem b hq))
    have hb : ¬ (b.red = ORANGE ∧ t.area ≤ b.area) := by
      rintro ⟨h1, h2⟩
      rcases hpre b (List.mem_cons_self b rest) with h3 | h3
      · exact h3 h1
      · omega
    rw [List.cons_append, largestTargetRef, hrest]
    simp only [if_neg hb]

theorem blobsCallBack_coneVector_of_ne_nil (frame : List Blob) (g : Globals)
    (h : frame ≠ []) :
    (blobsCallBack frame g).coneVector =
      MotionVector.new (F64.lit 4 10)
        (steerDirection (blobScan frame g.shouldFinish).largest_blob.x
          (centerAround g.goLeft)).toF64 3 := by
  have hl : frame.length ≠ 0 := fun h0 => h (List.length_eq_zero.mp h0)
  unfold blobsCallBack
  simp only [if_pos hl]
  rfl

theorem centerAround_cases (goLeft : Bool) :
    centerAround goLeft = 425 ∨ centerAround goLeft = 175 := by
  cases goLeft
  · exact Or.inr rfl
  · exact Or.inl rfl

theorem centerAround_eq (goLeft : Bool) :
    centerAround goLeft = (if goLeft = true then 425 else 175) := by
  cases goLeft <;> rfl

theorem steerDirection_below (x center : Nat) (hc : center = 425 ∨ center = 175)
    (hx : x ≤ center) : steerDirection x center = STEER_POS := by
  unfold steerDirection uadd UINT_RANGE
  rcases hc with hc | hc
  · rw [hc] at hx ⊢
    rw [if_pos (by omega)]
  · rw [hc] at hx ⊢
    rw [if_pos (by omega)]

theorem steerDirection_above (x center : Nat) (hc : center = 425 ∨ center = 175)
    (hx : x > center + 10) : steerDirection x center = STEER_NEG := by
  unfold steerDirection uadd usub UINT_RANGE
  rcases hc with hc | hc
  · rw [hc] at hx ⊢
    rw [if_neg (by omega), if_pos (by omega)]
  · rw [hc] at hx ⊢
    rw [if_neg (by omega), if_pos (by omega)]

/-! ### Claims on the target tracker -/

/-- Claim C9, as stated, fails on the code: with `goLeft` true (`centerAround = 425`)
a frame with one `ORANGE` blob centred at 425 stores the angular rate `0.7f`
(0.699999988079071), the value of the first branch: it is positive, it is neither the
`double` -0.7 nor the `float` `-0.7f`. -/
theorem dead_zone_center_steers_positive :
    (blobsCallBack [{ red := ORANGE, area := 100, x := 425 }]
        initialGlobals).coneVector.twist.angular_z
        = F64.lit 699999988079071 1000000000000000 ∧
      (blobsCallBack [{ red := ORANGE, area := 100, x := 425 }]
        initialGlobals).coneVector.twist.angular_z ≠ F64.neg (F64.lit 7 10) ∧
      (blobsCallBack [{ red := ORANGE, area := 100, x := 425 }]
        initialGlobals).coneVector.twist.angular_z ≠ STEER_NEG.toF64 ∧
      F64.lt F64.zero (blobsCallBack [{ red := ORANGE, area := 100, x := 425 }]
        initialGlobals).coneVector.twist.angular_z = true := by
  decide!

/-- Claim C9, amended.  For either value of `goLeft` (`centerAround` is 425 when it is
true and 175 when it is false), every prior state and every frame that holds exactly
one `ORANGE` blob, of any area, whose `x` equals `centerAround`, next to any number of
blobs that are not targets (another colour, or area 0), `blobsCallBack` stores the
target intent `(0.4, 0.7f, weight 3)`: the first branch of the `if` / `else if` is
taken, so the angular rate is the `float` nearest to +0.7, which is
0.699999988079071. -/
theorem dead_zone_center (g : Globals) (pre post : List Blob) (b : Blob)
    (hb : b.red = ORANGE) (hx : b.x = centerAround g.goLeft)
    (hpre : ∀ q ∈ pre, q.red ≠ ORANGE ∨ q.area = 0)
    (hpost : ∀ q ∈ post, q.red ≠ ORANGE ∨ q.area = 0) :
    centerAround g.goLeft = (if g.goLeft = true then 425 else 175) ∧
      (blobsCallBack (pre ++ b :: post) g).coneVector
        = MotionVector.new (F64.lit 4 10) STEER_POS.toF64 3 ∧
      STEER_POS.toF64 = F64.lit 699999988079071 1000000000000000 ∧
      F64.lt F64.zero STEER_POS.toF64 = true := by
  refine ⟨centerAround_eq g.goLeft, ?_, by decide!, by decide!⟩
  rw [blobsCallBack_coneVector_of_ne_nil _ g (by simp)]
  have hsteer : steerDirection (blobScan (pre ++ b :: post) g.shouldFinish).largest_blob.x
      (centerAround g.goLeft) = STEER_POS := by
    apply steerDirection_below _ _ (centerAround_cases g.goLeft)
    rcases blobScan_single_orange_x pre post b g.shouldFinish hb hpre hpost with h | h
    · rw [h]
      exact Nat.zero_le _
    · rw [h, hx]
  rw [hsteer]

/-- Claim C9, amended, at the initial state (`centerAround = 425`) and a frame with a
`BLUE` blob, an `ORANGE` blob of area 100 centred at 425 and a second `BLUE` blob. -/
theorem dead_zone_center_witness :
    (blobsCallBack ([{ red := BLUE, area := 50, x := 10 }] ++
        { red := ORANGE, area := 100, x := 425 } :: [{ red := BLUE, area := 20, x := 600 }])
        initialGlobals).coneVector
      = MotionVector.new (F64.lit 4 10) STEER_POS.toF64 3 :=
  (dead_zone_center initialGlobals [{ red := BLUE, area := 50, x := 10 }]
    [{ red := BLUE, area := 20, x := 600 }] { red := ORANGE, area := 100, x := 425 }
    (by decide) (by decide) (by decide) (by decide)).2.1

/-- Claim C10 fails on the code at a frame with two `ORANGE` blobs, the first of area
100 centred at 50, the second of area 60 centred at 500, received in the initial state
(`centerAround = 425`).  The largest target is the first blob, whose centre would give
the angular rate `0.7f`; the scan loop stores `x` (50) in `max_blob_size_seen`, so the
second blob replaces it (`60 > 50`) and the stored angular rate is `-0.7f`. -/
theorem largest_blob_follows_x_field :
    largestTargetRef [{ red := ORANGE, area := 100, x := 50 },
        { red := ORANGE, area := 60, x := 500 }]
        = some { red := ORANGE, area := 100, x := 50 } ∧
      (blobScan [{ red := ORANGE, area := 100, x := 50 },
        { red := ORANGE, area := 60, x := 500 }] false).largest_blob
        = { red := ORANGE, area := 60, x := 500 } ∧
      (blobScan [{ red := ORANGE, area := 100, x := 50 }] false).max_blob_size_seen = 50 ∧
      steerDirection 50 (centerAround initialGlobals.goLeft) = STEER_POS ∧
      (blobsCallBack [{ red := ORANGE, area := 100, x := 50 },
        { red := ORANGE, area := 60, x := 500 }] initialGlobals).coneVector
        = MotionVector.new (F64.lit 4 10) STEER_NEG.toF64 3 ∧
      STEER_NEG.toF64 ≠ STEER_POS.toF64 := by
  decide!

/-- Claim C17, as stated, fails on the code, in two ways.  The stored angular rate is a
`float`: for the frame with one `ORANGE` blob of area 100 centred at 500, received in
the initial state (`centerAround = 425`), it is `-0.7f` (-0.699999988079071), not the
`double` -0.7.  And for the frame of two `ORANGE` blobs of areas 100 and 60 centred at
50 and 500, the largest target lies below `centerAround - 10`, yet the stored angular
rate is `-0.7f`, not `0.7f`. -/
theorem steering_not_exact :
    ((blobsCallBack [{ red := ORANGE, area := 100, x := 500 }] initialGlobals).coneVector
        ≠ MotionVector.new (F64.lit 4 10) (F64.neg (F64.lit 7 10)) 3 ∧
      (blobsCallBack [{ red := ORANGE, area := 100, x := 500 }]
        initialGlobals).coneVector.twist.angular_z
        = F64.neg (F64.lit 699999988079071 1000000000000000)) ∧
      (largestTargetRef [{ red := ORANGE, area := 100, x := 50 },
          { red := ORANGE, area := 60, x := 500 }]
          = some { red := ORANGE, area := 100, x := 50 } ∧
        50 < centerAround initialGlobals.goLeft - 10 ∧
        (blobsCallBack [{ red := ORANGE, area := 100, x := 50 },
          { red := ORANGE, area := 60, x := 500 }] initialGlobals).coneVector.twist.angular_z
          = STEER_NEG.toF64 ∧
        STEER_NEG.toF64 ≠ STEER_POS.toF64 ∧ STEER_NEG.toF64 ≠ F64.lit 7 10) := by
  decide!

/-- Claim C17, amended.  With `centerAround` 175 when `goLeft` is false and 425 when it
is true, for every prior state and every detection frame that holds exactly one target
(an `ORANGE` blob of positive area) next to any number of blobs that are not targets
(another colour, or area 0), that blob is the selected target of the specification;
when its `x` is below `centerAround - 10` the stored target intent is
`(0.4, 0.7f, weight 3)`, and when its `x` is above `centerAround + 10` it is
`(0.4, -0.7f, weight 3)`, where `0.7f` is the `float` nearest to 0.7, which is
0.699999988079071. -/
theorem steering_outside_dead_zone (g : Globals) (pre post : List Blob) (t : Blob)
    (ht : t.red = ORANGE) (hta : 0 < t.area)
    (hpre : ∀ q ∈ pre, q.red ≠ ORANGE ∨ q.area = 0)
    (hpost : ∀ q ∈ post, q.red ≠ ORANGE ∨ q.area = 0) :
    centerAround g.goLeft = (if g.goLeft = true then 425 else 175) ∧
      largestTargetRef (pre ++ t :: post) = some t ∧
      (t.x < centerAround g.goLeft - 10 →
        (blobsCallBack (pre ++ t :: post) g).coneVector
          = MotionVector.new (F64.lit 4 10) STEER_POS.toF64 3) ∧
      (t.x > centerAround g.goLeft + 10 →
        (blobsCallBack (pre ++ t :: post) g).coneVector
          = MotionVector.new (F64.lit 4 10) STEER_NEG.toF64 3) ∧
      STEER_POS.toF64 = F64.lit 699999988079071 1000000000000000 ∧
      STEER_NEG.toF64 = F64.neg (F64.lit 699999988079071 1000000000000000) := by
  have hsel := blobScan_single_target pre post t g.shouldFinish ht hta hpre hpost
  refine ⟨centerAround_eq g.goLeft, largestTargetRef_single pre post t ht hta hpre hpost,
    ?_, ?_, by decide!, by decide!⟩
  · intro hx
    rw [blobsCallBack_coneVector_of_ne_nil _ g (by simp), hsel,
      steerDirection_below _ _ (centerAround_cases g.goLeft) (by omega)]
  · intro hx
    rw [blobsCallBack_coneVector_of_ne_nil _ g (by simp), hsel,
      steerDirection_above _ _ (centerAround_cases g.goLeft) hx]

/-- Claim C17, amended, at the initial state (`centerAround = 425`) and a frame with a
`BLUE` blob and one `ORANGE` blob of area 100 centred at 500. -/
theorem steering_outside_dead_zone_witness :
    (blobsCallBack ([{ red := BLUE, area := 40000, x := 20 }] ++
        { red := ORANGE, area := 100, x := 500 } :: []) initialGlobals).coneVector
      = MotionVector.new (F64.lit 4 10) STEER_NEG.toF64 3 :=
  (steering_outside_dead_zone initialGlobals [{ red := BLUE, area := 40000, x := 20 }] []
    { red := ORANGE, area := 100, x := 500 } (by decide) (by decide) (by decide)
    (by decide)).2.2.2.1 (by decide)

/-! ### The history of side switches along a run -/

theorem lastFlipTick_nil (d : Nat) : lastFlipTick d [] = d := rfl

theorem lastFlipTick_cons (d : Nat) (e : Nat × Nat) (l : List (Nat × Nat)) :
    lastFlipTick d (e :: l) = lastFlipTick e.1 l := by
  cases l with
  | nil => rfl
  | cons b l =>
    have hsome : (b :: l).getLast? = some ((b :: l).getLast (List.cons_ne_nil b l)) :=
      List.getLast?_eq_getLast _ _
    simp only [lastFlipTick, List.getLast?_cons_cons, hsome]

theorem lastFlipTick_concat (d : Nat) (l : List (Nat × Nat)) (e : Nat × Nat) :
    lastFlipTick d (l ++ [e]) = e.1 := by
  simp [lastFlipTick]

/-- One callback either keeps `goLeft` and the relation, or switches sides, which
requires more than 20 passes since the last switch. -/
theorem dispatch_switchInv (k t : Nat) (g : Globals) (e : Event) (h : SwitchInv k t g) :
    ((dispatch g e).goLeft = g.goLeft ∧ SwitchInv k t (dispatch g e)) ∨
      ((dispatch g e).goLeft ≠ g.goLeft ∧ t + 20 < k ∧ SwitchInv k k (dispatch g e)) := by
  obtain ⟨htk, hc, hl⟩ := h
  cases e with
  | blobs blobsIn =>
    left
    have hf := blobsCallBack_switch_fields blobsIn g
    exact ⟨hf.1, htk, by rw [← hc]; exact blobsCallBack_cycleNumber blobsIn g,
      by rw [← hl]; exact hf.2⟩
  | cloud points =>
    show ((pclCallback points g).goLeft = g.goLeft ∧ SwitchInv k t (pclCallback points g)) ∨
      ((pclCallback points g).goLeft ≠ g.goLeft ∧ t + 20 < k ∧
        SwitchInv k k (pclCallback points g))
    by_cases hnear : ∃ p ∈ points, F64.lt p.z.toF64 (F64.lit 65 100) = true
    · by_cases hcond : g.inAvoidance = false ∧
          usub g.cycleNumber g.lastCycleNumberChanged > 20
      · right
        have hgap : t + 20 < k := by
          have h2 := hcond.2
          rw [hc, hl] at h2
          unfold usub UINT_RANGE at h2
          omega
        rw [pclCallback_near points g hnear]
        simp only [if_pos hcond]
        refine ⟨?_, hgap, le_refl k, hc, hc⟩
        cases g.goLeft <;> simp
      · left
        rw [pclCallback_near points g hnear]
        simp only [if_neg hcond]
        exact ⟨trivial, htk, hc, hl⟩
    · left
      have hfar : ∀ p ∈ points, F64.lt p.z.toF64 (F64.lit 65 100) = false := by
        intro p hp
        by_contra hlt
        exact hnear ⟨p, hp, by simpa using hlt⟩
      rw [pclCallback_far points g hfar]
      exact ⟨rfl, htk, hc, hl⟩

/-- The callbacks of one pass switch sides at most once. -/
theorem passLog_switchInv (k : Nat) (pending : List Event) :
    ∀ (g : Globals) (t : Nat), SwitchInv k t g →
      (passLog k pending g = [] ∧ SwitchInv k t (spinOnce pending g)) ∨
        (passLog k pending g = [(k, k % UINT_RANGE)] ∧ t + 20 < k ∧
          SwitchInv k k (spinOnce pending g)) := by
  induction pending with
  | nil =>
    intro g t h
    exact Or.inl ⟨rfl, h⟩
  | cons e rest ih =>
    intro g t h
    have hspin : spinOnce (e :: rest) g = spinOnce rest (dispatch g e) := rfl
    rw [hspin]
    rcases dispatch_switchInv k t g e h with ⟨hgo, hinv⟩ | ⟨hgo, hgap, hinv⟩
    · have hlog : passLog k (e :: rest) g = passLog k rest (dispatch g e) := by
        rw [passLog, if_pos hgo]
      rw [hlog]
      exact ih (dispatch g e) t hinv
    · have hlog : passLog k (e :: rest) g =
          (k, g.cycleNumber) :: passLog k rest (dispatch g e) := by
        rw [passLog, if_neg hgo]
      rw [hlog, h.2.1]
      rcases ih (dispatch g e) k hinv with ⟨hnil, hinv2⟩ | ⟨_, himp, _⟩
      · right
        rw [hnil]
        exact ⟨rfl, hgap, hinv2⟩
      · omega

theorem loopBody_switchInv (k t : Nat) (pending : List Event) (g : Globals)
    (h : SwitchInv k t (spinOnce pending g)) : SwitchInv (k + 1) t (loopBody pending g).2 := by
  obtain ⟨htk, hc, hl⟩ := h
  refine ⟨by omega, ?_, hl⟩
  show uadd (spinOnce pending g).cycleNumber 1 = (k + 1) % UINT_RANGE
  rw [hc]
  unfold uadd UINT_RANGE
  omega

theorem flipLog_cons_of_running (k : Nat) (pending : List Event) (rest : List (List Event))
    (g : Globals) (h : g.shouldFinish = false) :
    flipLog k (pending :: rest) g =
      passLog k pending g ++ flipLog (k + 1) rest (loopBody pending g).2 := by
  simp [flipLog, h]

theorem flipLog_of_finished (k : Nat) (schedule : List (List Event)) (g : Globals)
    (h : g.shouldFinish = true) : flipLog k schedule g = [] := by
  cases schedule with
  | nil => rfl
  | cons pending rest => simp [flipLog, h]

/-- Along every run: two side switches are more than 20 passes apart, every logged
switch carries its pass number modulo `2 ^ 32` as counter value, and the relation
between counters and history holds when the run ends. -/
theorem flipLog_switchInv (schedule : List (List Event)) :
    ∀ (k t : Nat) (g : Globals), SwitchInv k t g →
      List.Pairwise (fun a b : Nat × Nat => a.1 + 20 < b.1) (flipLog k schedule g) ∧
        (∀ e ∈ flipLog k schedule g,
          t + 20 < e.1 ∧ k ≤ e.1 ∧ e.1 < k + schedule.length ∧ e.2 = e.1 % UINT_RANGE) ∧
        SwitchInv (k + (mainLoop schedule g).length) (lastFlipTick t (flipLog k schedule g))
          (mainLoopFinal schedule g) := by
  induction schedule with
  | nil =>
    intro k t g h
    exact ⟨List.Pairwise.nil, fun e he => absurd he (List.not_mem_nil e), h⟩
  | cons pending rest ih =>
    intro k t g h
    cases hfin : g.shouldFinish with
    | true =>
      rw [flipLog_of_finished k _ g hfin, (mainLoop_of_finished _ g hfin).1,
        (mainLoop_of_finished _ g hfin).2]
      exact ⟨List.Pairwise.nil, fun e he => absurd he (List.not_mem_nil e), h⟩
    | false =>
      rw [flipLog_cons_of_running k pending rest g hfin,
        mainLoop_cons_of_running pending rest g hfin,
        mainLoopFinal_cons_of_running pending rest g hfin, List.length_cons, List.length_cons]
      rcases passLog_switchInv k pending g t h with ⟨hnil, hinv⟩ | ⟨hone, hgap, hinv⟩
      · obtain ⟨ih1, ih2, ih3⟩ := ih (k + 1) t (loopBody pending g).2
          (loopBody_switchInv k t pending g hinv)
        rw [hnil, List.nil_append]
        refine ⟨ih1, ?_, ?_⟩
        · intro e he
          obtain ⟨h1, h2, h3, h4⟩ := ih2 e he
          exact ⟨h1, by omega, by omega, h4⟩
        · have e : k + ((mainLoop rest (loopBody pending g).2).length + 1) =
              k + 1 + (mainLoop rest (loopBody pending g).2).length := by omega
          rw [e]
          exact ih3
      · obtain ⟨ih1, ih2, ih3⟩ := ih (k + 1) k (loopBody pending g).2
          (loopBody_switchInv k k pending g hinv)
        rw [hone, List.singleton_append]
        refine ⟨?_, ?_, ?_⟩
        · rw [List.pairwise_cons]
          exact ⟨fun e he => (ih2 e he).1, ih1⟩
        · intro e he
          rcases List.mem_cons.mp he with rfl | he
          · exact ⟨hgap, le_refl k, by omega, rfl⟩
          · obtain ⟨h1, h2, h3, h4⟩ := ih2 e he
            exact ⟨by omega, by omega, by omega, h4⟩
        · have e : k + ((mainLoop rest (loopBody pending g).2).length + 1) =
              k + 1 + (mainLoop rest (loopBody pending g).2).length := by omega
          rw [e, lastFlipTick_cons]
          exact ih3

theorem mainLoop_length_le (schedule : List (List Event)) :
    ∀ g : Globals, (mainLoop schedule g).length ≤ schedule.length := by
  induction schedule with
  | nil => intro g; simp [mainLoop]
  | cons pending rest ih =>
    intro g
    cases hfin : g.shouldFinish with
    | true => simp [mainLoop, hfin]
    | false =>
      rw [mainLoop_cons_of_running pending rest g hfin, List.length_cons, List.length_cons]
      exact Nat.succ_le_succ (ih _)

theorem switchInv_initial : SwitchInv 0 0 initialGlobals :=
  ⟨le_refl 0, rfl, rfl⟩

/-! ### Claims on the debounce of side switches -/

/-- Claim C18.  In every state reached from the initial state by a run of fewer than
`2 ^ 32` passes (any schedule of depth and detection frames, any callbacks already run
in the current pass), `cycleNumber` is the number of completed passes,
`lastCycleNumberChanged ≤ cycleNumber`, and `lastCycleNumberChanged` is the pass number
of the last side switch (0 when there has been none); so the unsigned subtraction of
the debounce test does not wrap around and equals the number of passes completed
since the last switch, or since startup. -/
theorem counters_no_wraparound (schedule : List (List Event)) (pending : List Event)
    (hlen : schedule.length < 2 ^ 32) :
    (spinOnce pending (mainLoopFinal schedule initialGlobals)).cycleNumber
        = (mainLoop schedule initialGlobals).length ∧
      (spinOnce pending (mainLoopFinal schedule initialGlobals)).lastCycleNumberChanged
        ≤ (spinOnce pending (mainLoopFinal schedule initialGlobals)).cycleNumber ∧
      (spinOnce pending (mainLoopFinal schedule initialGlobals)).lastCycleNumberChanged
        = lastFlipTick 0 (flipLog 0 schedule initialGlobals ++
            passLog (mainLoop schedule initialGlobals).length pending
              (mainLoopFinal schedule initialGlobals)) ∧
      usub (spinOnce pending (mainLoopFinal schedule initialGlobals)).cycleNumber
          (spinOnce pending (mainLoopFinal schedule initialGlobals)).lastCycleNumberChanged
        = (mainLoop schedule initialGlobals).length -
            lastFlipTick 0 (flipLog 0 schedule initialGlobals ++
              passLog (mainLoop schedule initialGlobals).length pending
                (mainLoopFinal schedule initialGlobals)) := by
  obtain ⟨_, _, hinv⟩ := flipLog_switchInv schedule 0 0 initialGlobals switchInv_initial
  rw [Nat.zero_add] at hinv
  have hn : (mainLoop schedule initialGlobals).length < UINT_RANGE :=
    lt_of_le_of_lt (mainLoop_length_le schedule initialGlobals) hlen
  have key : ∀ t : Nat,
      SwitchInv (mainLoop schedule initialGlobals).length t
        (spinOnce pending (mainLoopFinal schedule initialGlobals)) →
      (spinOnce pending (mainLoopFinal schedule initialGlobals)).cycleNumber
          = (mainLoop schedule initialGlobals).length ∧
        (spinOnce pending (mainLoopFinal schedule initialGlobals)).lastCycleNumberChanged = t ∧
        t ≤ (mainLoop schedule initialGlobals).length := by
    rintro t ⟨h1, h2, h3⟩
    refine ⟨by rw [h2]; exact Nat.mod_eq_of_lt hn, ?_, h1⟩
    rw [h3]
    exact Nat.mod_eq_of_lt (lt_of_le_of_lt h1 hn)
  have hlast : ∃ t : Nat,
      t = lastFlipTick 0 (flipLog 0 schedule initialGlobals ++
          passLog (mainLoop schedule initialGlobals).length pending
            (mainLoopFinal schedule initialGlobals)) ∧
      SwitchInv (mainLoop schedule initialGlobals).length t
        (spinOnce pending (mainLoopFinal schedule initialGlobals)) := by
    rcases passLog_switchInv (mainLoop schedule initialGlobals).length pending
        (mainLoopFinal schedule initialGlobals) _ hinv with ⟨hnil, h2⟩ | ⟨hone, _, h2⟩
    · exact ⟨_, by rw [hnil, List.append_nil], h2⟩
    · exact ⟨_, by rw [hone, lastFlipTick_concat], h2⟩
  obtain ⟨t, ht, hsw⟩ := hlast
  obtain ⟨k1, k2, k3⟩ := key t hsw
  rw [← ht, k1, k2]
  exact ⟨rfl, k3, rfl, usub_of_le k3 hn⟩

/-- Claim C18, at the run of one pass with a far frame (1.0 ahead), followed by the
callback of a near frame (0.5 ahead) in the second pass. -/
theorem counters_no_wraparound_witness :
    (spinOnce [Event.cloud [{ x := F32.zero, y := F32.zero, z := (F64.lit 5 10).toF32 }]]
        (mainLoopFinal [[Event.cloud [{ x := F32.zero, y := F32.zero, z := F32.ofInt 1 }]]]
          initialGlobals)).lastCycleNumberChanged
      ≤ (spinOnce [Event.cloud [{ x := F32.zero, y := F32.zero, z := (F64.lit 5 10).toF32 }]]
        (mainLoopFinal [[Event.cloud [{ x := F32.zero, y := F32.zero, z := F32.ofInt 1 }]]]
          initialGlobals)).cycleNumber :=
  (counters_no_wraparound [[Event.cloud [{ x := F32.zero, y := F32.zero, z := F32.ofInt 1 }]]]
    [Event.cloud [{ x := F32.zero, y := F32.zero, z := (F64.lit 5 10).toF32 }]]
    (by decide)).2.1

/-- Claim C16, amended.  For every schedule of depth frames, detection frames and
passes run from the initial state: any two side switches happen in passes whose
numbers differ by more than 20, so `goLeft` flips at most once within any 20
consecutive passes; the value of `cycleNumber` at a switch is the pass number modulo
`2 ^ 32`, so for runs of at most `2 ^ 32` passes the `cycleNumber` values of any two
switches differ by more than 20 as well. -/
theorem side_switches_debounced (schedule : List (List Event)) :
    List.Pairwise (fun a b : Nat × Nat => a.1 + 20 < b.1)
        (flipLog 0 schedule initialGlobals) ∧
      (∀ e ∈ flipLog 0 schedule initialGlobals, e.2 = e.1 % 2 ^ 32) ∧
      (schedule.length ≤ 2 ^ 32 →
        List.Pairwise (fun a b : Nat × Nat => a.2 + 20 < b.2)
          (flipLog 0 schedule initialGlobals)) := by
  obtain ⟨h1, h2, _⟩ := flipLog_switchInv schedule 0 0 initialGlobals switchInv_initial
  refine ⟨h1, fun e he => (h2 e he).2.2.2, ?_⟩
  intro hlen
  have hval : ∀ e ∈ flipLog 0 schedule initialGlobals, e.2 = e.1 := by
    intro e he
    obtain ⟨_, _, h3, h4⟩ := h2 e he
    rw [h4]
    apply Nat.mod_eq_of_lt
    unfold UINT_RANGE
    omega
  refine List.Pairwise.imp_of_mem ?_ h1
  intro a b ha hb hab
  rw [hval a ha, hval b hb]
  exact hab

/-! ### A run that outlasts the range of `cycleNumber` -/

theorem loopBody_far_cloud (f : List PointXYZ) (g : Globals)
    (hfar : ∀ p ∈ f, F64.lt p.z.toF64 (F64.lit 65 100) = false) :
    (loopBody [Event.cloud f] g).2 = afterFarRun g 1 := by
  have h : (loopBody [Event.cloud f] g).2 =
      { pclCallback f g with cycleNumber := uadd (pclCallback f g).cycleNumber 1 } := rfl
  rw [h, pclCallback_far f g hfar]
  rfl

theorem afterFarRun_succ (g : Globals) (n : Nat) :
    afterFarRun (afterFarRun g 1) n = afterFarRun g (n + 1) := by
  have hc : ((g.cycleNumber + 1) % UINT_RANGE + n) % UINT_RANGE =
      (g.cycleNumber + (n + 1)) % UINT_RANGE := by
    unfold UINT_RANGE
    omega
  simp only [afterFarRun, hc]

/-- Passes with far frames log no side switch; they only advance `cycleNumber`. -/
theorem flipLog_far_run (far : List PointXYZ)
    (hfar : ∀ p ∈ far, F64.lt p.z.toF64 (F64.lit 65 100) = false)
    (rest : List (List Event)) :
    ∀ (n k : Nat) (g : Globals), 0 < n → g.shouldFinish = false →
      flipLog k (oneCloudPerPass (List.replicate n far) ++ rest) g =
        flipLog (k + n) rest (afterFarRun g n) := by
  intro n
  induction n with
  | zero => intro k g h0 _; exact absurd h0 (Nat.lt_irrefl 0)
  | succ n ih =>
    intro k g _ hfin
    have hsched : oneCloudPerPass (List.replicate (n + 1) far) ++ rest =
        [Event.cloud far] :: (oneCloudPerPass (List.replicate n far) ++ rest) := rfl
    have hlog : passLog k [Event.cloud far] g = [] := by
      have hgo : (dispatch g (Event.cloud far)).goLeft = g.goLeft := by
        show (pclCallback far g).goLeft = g.goLeft
        rw [pclCallback_far far g hfar]
      rw [passLog, if_pos hgo, passLog]
    rw [hsched, flipLog_cons_of_running k _ _ g hfin, hlog, List.nil_append,
      loopBody_far_cloud far g hfar]
    rcases Nat.eq_zero_or_pos n with h0 | hpos
    · subst h0
      rfl
    · have hk : k + 1 + n = k + (n + 1) := by omega
      rw [ih (k + 1) (afterFarRun g 1) hpos hfin, afterFarRun_succ, hk]

/-- A pass with a near frame, entered out of avoidance more than 20 counted passes
after the last switch, logs one side switch. -/
theorem flipLog_near_flip (k : Nat) (f : List PointXYZ) (rest : List (List Event))
    (g : Globals) (hfin : g.shouldFinish = false)
    (hnear : ∃ p ∈ f, F64.lt p.z.toF64 (F64.lit 65 100) = true)
    (hin : g.inAvoidance = false)
    (hgap : usub g.cycleNumber g.lastCycleNumberChanged > 20) :
    flipLog k ([Event.cloud f] :: rest) g =
        (k, g.cycleNumber) :: flipLog (k + 1) rest (loopBody [Event.cloud f] g).2 ∧
      (loopBody [Event.cloud f] g).2.lastCycleNumberChanged = g.cycleNumber ∧
      (loopBody [Event.cloud f] g).2.shouldFinish = false := by
  have hgo : (dispatch g (Event.cloud f)).goLeft ≠ g.goLeft := by
    show (pclCallback f g).goLeft ≠ g.goLeft
    rw [pclCallback_near f g hnear]
    simp only [if_pos (And.intro hin hgap)]
    cases g.goLeft <;> simp
  have hlast : (pclCallback f g).lastCycleNumberChanged = g.cycleNumber := by
    rw [pclCallback_near f g hnear]
    simp only [if_pos (And.intro hin hgap)]
  refine ⟨?_, hlast, ?_⟩
  · rw [flipLog_cons_of_running k _ _ g hfin, passLog, if_neg hgo, passLog]
    rfl
  · show (pclCallback f g).shouldFinish = false
    rw [pclCallback_shouldFinish, hfin]

/-- Two side switches separated by a long run of far frames. -/
theorem flipLog_two_switches (far near : List PointXYZ)
    (hfar : ∀ p ∈ far, F64.lt p.z.toF64 (F64.lit 65 100) = false)
    (hnear : ∃ p ∈ near, F64.lt p.z.toF64 (F64.lit 65 100) = true)
    (n m : Nat) (hn : 0 < n) (hm : 0 < m)
    (hgap1 : usub (n % UINT_RANGE) 0 > 20)
    (hgap2 : usub ((uadd (n % UINT_RANGE) 1 + m) % UINT_RANGE) (n % UINT_RANGE) > 20) :
    flipLog 0
        (oneCloudPerPass (List.replicate n far) ++
          ([Event.cloud near] ::
            (oneCloudPerPass (List.replicate m far) ++ [[Event.cloud near]])))
        initialGlobals =
      [(n, n % UINT_RANGE), (n + 1 + m, (uadd (n % UINT_RANGE) 1 + m) % UINT_RANGE)] := by
  have hc1 : (afterFarRun initialGlobals n).cycleNumber = n % UINT_RANGE := by
    show (0 + n) % UINT_RANGE = n % UINT_RANGE
    rw [Nat.zero_add]
  obtain ⟨a1, a2, a3⟩ := flipLog_near_flip (0 + n) near
    (oneCloudPerPass (List.replicate m far) ++ [[Event.cloud near]])
    (afterFarRun initialGlobals n) rfl hnear rfl (by rw [hc1]; exact hgap1)
  have hc2 : (loopBody [Event.cloud near] (afterFarRun initialGlobals n)).2.cycleNumber =
      uadd (n % UINT_RANGE) 1 := by
    rw [loopBody_cycleNumber, hc1]
  have hc3 : (afterFarRun (loopBody [Event.cloud near] (afterFarRun initialGlobals n)).2
      m).cycleNumber = (uadd (n % UINT_RANGE) 1 + m) % UINT_RANGE := by
    show ((loopBody [Event.cloud near] (afterFarRun initialGlobals n)).2.cycleNumber + m)
      % UINT_RANGE = _
    rw [hc2]
  have hl3 : (afterFarRun (loopBody [Event.cloud near] (afterFarRun initialGlobals n)).2
      m).lastCycleNumberChanged = n % UINT_RANGE := by
    show (loopBody [Event.cloud near]
      (afterFarRun initialGlobals n)).2.lastCycleNumberChanged = _
    rw [a2, hc1]
  obtain ⟨b1, _, _⟩ := flipLog_near_flip (0 + n + 1 + m) near []
    (afterFarRun (loopBody [Event.cloud near] (afterFarRun initialGlobals n)).2 m)
    a3 hnear rfl (by rw [hc3, hl3]; exact hgap2)
  rw [flipLog_far_run far hfar _ n 0 initialGlobals hn rfl, a1,
    flipLog_far_run far hfar _ m (0 + n + 1) _ hm a3, b1, hc1, hc3, Nat.zero_add]
  rfl

/-- Claim C16, as stated, fails on the code: in the run from the initial state with far
frames (1.0 ahead) in passes 0 to 20, a near frame (0.5 ahead) in pass 21, far frames
in the next `2 ^ 32 - 11` passes and a near frame in the pass after them, `goLeft` flips
at `cycleNumber = 21` and again, after the counter has wrapped, at `cycleNumber = 11`:
two `cycleNumber` values that differ by 10. -/
theorem switches_after_wraparound :
    flipLog 0
        (oneCloudPerPass
            (List.replicate 21 [{ x := F32.zero, y := F32.zero, z := F32.ofInt 1 }]) ++
          ([Event.cloud [{ x := F32.zero, y := F32.zero, z := (F64.lit 5 10).toF32 }]] ::
            (oneCloudPerPass
                (List.replicate 4294967285 [{ x := F32.zero, y := F32.zero, z := F32.ofInt 1 }]) ++
              [[Event.cloud [{ x := F32.zero, y := F32.zero, z := (F64.lit 5 10).toF32 }]]])))
        initialGlobals = [(21, 21), (4294967307, 11)] ∧
      ¬ List.Pairwise (fun a b : Nat × Nat => a.2 + 20 < b.2)
        (flipLog 0
          (oneCloudPerPass
            (List.replicate 21 [{ x := F32.zero, y := F32.zero, z := F32.ofInt 1 }]) ++
          ([Event.cloud [{ x := F32.zero, y := F32.zero, z := (F64.lit 5 10).toF32 }]] ::
            (oneCloudPerPass
                (List.replicate 4294967285 [{ x := F32.zero, y := F32.zero, z := F32.ofInt 1 }]) ++
              [[Event.cloud [{ x := F32.zero, y := F32.zero, z := (F64.lit 5 10).toF32 }]]])))
          initialGlobals) := by
  have hlog := flipLog_two_switches
    [{ x := F32.zero, y := F32.zero, z := F32.ofInt 1 }]
    [{ x := F32.zero, y := F32.zero, z := (F64.lit 5 10).toF32 }]
    (by decide!)
    ⟨{ x := F32.zero, y := F32.zero, z := (F64.lit 5 10).toF32 },
      List.mem_singleton.mpr rfl, by decide!⟩
    21 4294967285 (by decide) (by decide) (by decide) (by decide)
  have hval : [(21, 21 % UINT_RANGE),
      (21 + 1 + 4294967285, (uadd (21 % UINT_RANGE) 1 + 4294967285) % UINT_RANGE)]
      = [(21, 21), (4294967307, 11)] := by decide
  rw [hval] at hlog
  refine ⟨hlog, ?_⟩
  rw [hlog]
  decide

/-- Claim C16, amended, at a run with two side switches: far frames (1.0 ahead) in
passes 0 to 20, a near frame (0.5 ahead) in pass 21, far frames in passes 22 to 51 and
a near frame in pass 52; the switches happen in passes 21 and 52, at the `cycleNumber`
values 21 and 52. -/
theorem side_switches_debounced_witness :
    flipLog 0
        (oneCloudPerPass
            (List.replicate 21 [{ x := F32.zero, y := F32.zero, z := F32.ofInt 1 }]) ++
          ([Event.cloud [{ x := F32.zero, y := F32.zero, z := (F64.lit 5 10).toF32 }]] ::
            (oneCloudPerPass
                (List.replicate 30 [{ x := F32.zero, y := F32.zero, z := F32.ofInt 1 }]) ++
              [[Event.cloud [{ x := F32.zero, y := F32.zero, z := (F64.lit 5 10).toF32 }]]])))
        initialGlobals = [(21, 21), (52, 52)] ∧
      List.Pairwise (fun a b : Nat × Nat => a.2 + 20 < b.2)
        (flipLog 0
          (oneCloudPerPass
            (List.replicate 21 [{ x := F32.zero, y := F32.zero, z := F32.ofInt 1 }]) ++
          ([Event.cloud [{ x := F32.zero, y := F32.zero, z := (F64.lit 5 10).toF32 }]] ::
            (oneCloudPerPass
                (List.replicate 30 [{ x := F32.zero, y := F32.zero, z := F32.ofInt 1 }]) ++
              [[Event.cloud [{ x := F32.zero, y := F32.zero, z := (F64.lit 5 10).toF32 }]]])))
          initialGlobals) := by
  have hlog := flipLog_two_switches
    [{ x := F32.zero, y := F32.zero, z := F32.ofInt 1 }]
    [{ x := F32.zero, y := F32.zero, z := (F64.lit 5 10).toF32 }]
    (by decide!)
    ⟨{ x := F32.zero, y := F32.zero, z := (F64.lit 5 10).toF32 },
      List.mem_singleton.mpr rfl, by decide!⟩
    21 30 (by decide) (by decide) (by decide) (by decide)
  have hval : [(21, 21 % UINT_RANGE),
      (21 + 1 + 30, (uadd (21 % UINT_RANGE) 1 + 30) % UINT_RANGE)]
      = [(21, 21), (52, 52)] := by decide
  rw [hval] at hlog
  exact ⟨hlog, (side_switches_debounced _).2.2 (by decide!)⟩

/-! ### Claim on the convexity of the blend -/

/-- Claim C19, as stated, fails on the code: for the intents `(0.1, 0, weight 1)` and
`(0.1, 0, weight 2)` the linear speed of the sum is 0.10000000000000002, above the
maximum 0.1 of the two linear speeds, since the products, the sum and the quotient are
rounded; and the tick that blends them publishes that speed. -/
theorem blend_exceeds_inputs :
    (MotionVector.add (MotionVector.new (F64.lit 1 10) F64.zero 1)
        (MotionVector.new (F64.lit 1 10) F64.zero 2)).twist.linear_x
        = F64.lit 10000000000000002 100000000000000000 ∧
      F64.lt (F64.lit 1 10)
        (MotionVector.add (MotionVector.new (F64.lit 1 10) F64.zero 1)
          (MotionVector.new (F64.lit 1 10) F64.zero 2)).twist.linear_x = true ∧
      F64.lt (F64.lit 1 10)
        (tick { initialGlobals with
          endpointVector := MotionVector.new (F64.lit 1 10) F64.zero 1
          coneVector := MotionVector.new (F64.lit 1 10) F64.zero 2 }).1.linear_x = true := by
  decide!

/-- Claim C19, amended.  For every two intents whose weights do not overflow and are
not both 0, each component of `a + b` lies between any two bounds that hold for that
component of the inputs of positive weight, provided the inputs of weight 0 hold finite
numbers and the bounds are short `double`s (finite, at most 21 significant bits,
magnitude below `2 ^ 992`, so that their products by the weights are exact); hence the
linear speed of `a + b` equals a short value on which two inputs of positive weight
agree.  Consequently, for every state whose three weights together do not overflow and
are not all 0, each component of the command published by a tick lies between any two
such bounds that hold for that component of the goal, target and avoidance intents of
positive weight.  Between the minimum and the maximum of the inputs themselves the
result need not lie. -/
theorem blend_convex (a b : MotionVector) (g : Globals) (pending : List Event)
    (lo hi lo2 hi2 : F64)
    (hlt : a.weight + b.weight < 2 ^ 32) (hpos : 0 < a.weight + b.weight)
    (hlo : lo.isShort = true) (hhi : hi.isShort = true)
    (hlo2 : lo2.isShort = true) (hhi2 : hi2.isShort = true) :
    (a.proposesWithin lo hi lo2 hi2 = true → b.proposesWithin lo hi lo2 hi2 = true →
        (F64.le lo (MotionVector.add a b).twist.linear_x = true ∧
          F64.le (MotionVector.add a b).twist.linear_x hi = true) ∧
        (F64.le lo2 (MotionVector.add a b).twist.angular_z = true ∧
          F64.le (MotionVector.add a b).twist.angular_z hi2 = true)) ∧
      (0 < a.weight → 0 < b.weight → a.twist.linear_x = lo → b.twist.linear_x = lo →
        (MotionVector.add a b).twist.linear_x = lo) ∧
      (g.endpointVector.weight + g.coneVector.weight + g.avoidanceVector.weight < 2 ^ 32 →
        0 < g.endpointVector.weight + g.coneVector.weight + g.avoidanceVector.weight →
        g.endpointVector.proposesWithin lo hi lo2 hi2 = true →
        g.coneVector.proposesWithin lo hi lo2 hi2 = true →
        g.avoidanceVector.proposesWithin lo hi lo2 hi2 = true →
        (F64.le lo (loopBody pending g).1.linear_x = true ∧
          F64.le (loopBody pending g).1.linear_x hi = true) ∧
        (F64.le lo2 (loopBody pending g).1.angular_z = true ∧
          F64.le (loopBody pending g).1.angular_z hi2 = true)) := by
  have hsplit : ∀ t : Twist, t.within lo hi lo2 hi2 = true →
      (F64.le lo t.linear_x = true ∧ F64.le t.linear_x hi = true) ∧
        (F64.le lo2 t.angular_z = true ∧ F64.le t.angular_z hi2 = true) := by
    intro t ht
    unfold Twist.within at ht
    simpa [Bool.and_eq_true] using ht
  refine ⟨?_, ?_, ?_⟩
  · intro ha hb
    have h := add_proposesWithin a b hlt lo hi lo2 hi2 hlo hhi hlo2 hhi2 ha hb
    exact hsplit _ (within_of_proposesWithin _ lo hi lo2 hi2
      (by rw [add_weight_of_lt a b hlt]; exact hpos) h)
  · intro hwa hwb hxa hxb
    have hflo : lo.v ≠ FVal.nan := by
      unfold F64.isShort at hlo
      cases hv : lo.v <;> rw [hv] at hlo <;> simp at hlo ⊢
    have hlolo : F64.le lo lo = true := FVal.le_refl hflo
    have h := weightedMean_within a.weight b.weight a.twist.linear_x b.twist.linear_x lo lo
      hlt hpos hlo hlo
      (fun _ => by rw [hxa]; exact ⟨hlolo, hlolo⟩) (fun _ => by rw [hxb]; exact ⟨hlolo, hlolo⟩)
      (fun h0 => absurd h0 (by omega)) (fun h0 => absurd h0 (by omega))
    have hne : uadd a.weight b.weight ≠ 0 := by
      rw [uadd_of_lt hlt]
      omega
    unfold MotionVector.add
    simp only [if_pos hne]
    rw [uadd_of_lt hlt]
    exact F64.le_antisymm h.2 h.1
  · intro hlt3 hpos3 hg hc hav
    have hlt2 : g.endpointVector.weight + g.coneVector.weight < UINT_RANGE := by
      unfold UINT_RANGE
      omega
    have hw := add_weight_of_lt g.endpointVector g.coneVector hlt2
    have hmid := add_proposesWithin g.endpointVector g.coneVector hlt2 lo hi lo2 hi2
      hlo hhi hlo2 hhi2 hg hc
    have hlt4 : (MotionVector.add g.endpointVector g.coneVector).weight +
        g.avoidanceVector.weight < UINT_RANGE := by
      rw [hw]
      exact hlt3
    have hall := add_proposesWithin (MotionVector.add g.endpointVector g.coneVector)
      g.avoidanceVector hlt4 lo hi lo2 hi2 hlo hhi hlo2 hhi2 hmid hav
    have hwpos : 0 < (MotionVector.add (MotionVector.add g.endpointVector g.coneVector)
        g.avoidanceVector).weight := by
      rw [add_weight_of_lt _ _ hlt4, hw]
      exact hpos3
    exact hsplit (MotionVector.add (MotionVector.add g.endpointVector g.coneVector)
      g.avoidanceVector).twist (within_of_proposesWithin _ lo hi lo2 hi2 hwpos hall)

/-- Claim C19, amended, at the goal intent `(0.2, 0, weight 1)` and the target intent
`(0.4, 0.7, weight 3)`: the linear speed of their sum lies between 0.125 and 0.5, the
angular rate between 0 and 1. -/
theorem blend_convex_witness :
    (F64.le (F64.lit 125 1000)
        (MotionVector.add (MotionVector.new (F64.lit 2 10) F64.zero 1)
          (MotionVector.new (F64.lit 4 10) (F64.lit 7 10) 3)).twist.linear_x = true ∧
      F64.le (MotionVector.add (MotionVector.new (F64.lit 2 10) F64.zero 1)
          (MotionVector.new (F64.lit 4 10) (F64.lit 7 10) 3)).twist.linear_x
        (F64.lit 5 10) = true) ∧
      (F64.le F64.zero
        (MotionVector.add (MotionVector.new (F64.lit 2 10) F64.zero 1)
          (MotionVector.new (F64.lit 4 10) (F64.lit 7 10) 3)).twist.angular_z = true ∧
      F64.le (MotionVector.add (MotionVector.new (F64.lit 2 10) F64.zero 1)
          (MotionVector.new (F64.lit 4 10) (F64.lit 7 10) 3)).twist.angular_z
        (F64.lit 1 1) = true) :=
  (blend_convex (MotionVector.new (F64.lit 2 10) F64.zero 1)
    (MotionVector.new (F64.lit 4 10) (F64.lit 7 10) 3) initialGlobals []
    (F64.lit 125 1000) (F64.lit 5 10) F64.zero (F64.lit 1 1)
    (by decide) (by decide) (by decide!) (by decide!) (by decide!) (by decide!)).1
    (by decide!) (by decide!)

end RobotSlalom
